import Mathlib

/-!
# Tinned: removal, retention and search of symbols in symbolic expressions

A shallow embedding of the visitors of Tinned (`RemoveVisitor`, `FindAllVisitor`, `KeepVisitor`)
over SymEngine expression trees, and the properties of the rewriting rules stated in the specification.

* `Basic` is the node taxonomy; `Basic.eq` is structural equality (`SymEngine::eq`).
* `Algebra` collects the constructors of the expression algebra that the visitors call
  (`Add::from_dict`, `Mul::dict_add_term_new`, `matrix_mul`, ...). SymEngine is an external
  collaborator, so the visitors are parametrised by these constructors; `freeAlgebra` is the
  instance that builds nodes without simplification.
* A visitor keeps its current result in the member `result_`. `RemoveVisitor.apply x r` is the
  value of `result_` after `apply(x)` when it was `r` before the call, or the fault raised.
-/

namespace Tinned


/-- Numeric literals of the expression algebra: the `Integer`, `Rational` and `Complex`
classes of SymEngine (a rational is a numerator and a denominator). -/
inductive Number
  | Integer (v : Int)
  | Rational (num : Int) (den : Nat)
  | Complex (re_num : Int) (re_den : Nat) (im_num : Int) (im_den : Nat)
  deriving DecidableEq

/-- Perturbation symbol (`Tinned::Perturbation`, a subclass of `SymEngine::Symbol`): a name, a
frequency and a set of components. -/
structure Perturbation where
  name : String
  frequency : Number
  components : List Nat
  deriving DecidableEq

/-- Derivative multiset of a tagged symbol, listed in the order in which the multiset stores it. -/
abbrev PertMultichain := List Perturbation
/-- Modelled from the spec: the dependency map of an operator or function symbol (declared in
`Tinned/PertDependency.hpp`, which is not among the sources): a dependency map from perturbation identity to allowed
component subset. -/
abbrev PertDependency := List (Perturbation × List Nat)

/-- Discrete type tag of a time-derivative operator (`TemporumOperator::get_type`). -/
inductive TemporumType
  | Ket
  | Bra
  deriving DecidableEq

/-- Expression nodes (`SymEngine::Basic`), one constructor per class that the visitors dispatch on.
Dictionaries and operand lists are lists in iteration order. `Pow` and `Other` stand for the
classes for which no visitor declares a rule. `FunctionSymbol` and `MatrixSymbol` are the function
and matrix symbols that belong to none of the Tinned subclasses the visitors test for. -/
inductive Basic
  | Symbol (name : String)
  | Perturbation (p : Perturbation)
  | Num (n : Number)
  | Constant (name : String)
  | Add (coef : Number) (dict : List (Basic × Number))
  | Mul (coef : Number) (dict : List (Basic × Basic))
  | Pow (base exp : Basic)
  | NonElecFunction (name : String) (dependencies : PertDependency) (derivative : PertMultichain)
  | TwoElecEnergy (name : String) (inner outer : Basic) (dependencies : PertDependency)
      (derivative : PertMultichain)
  | CompositeFunction (name : String) (inner : Basic) (order : Nat)
  | ExchCorrEnergy (name : String) (args : List Basic) (energy : Basic)
  | FunctionSymbol (name : String) (args : List Basic)
  | ZeroMatrix (rows cols : Nat)
  | LagMultiplier (name : String) (derivative : PertMultichain)
  | ElectronicState (name : String) (derivative : PertMultichain)
  | OneElecDensity (name : String) (derivative : PertMultichain)
  | OneElecOperator (name : String) (dependencies : PertDependency) (derivative : PertMultichain)
  | TwoElecOperator (name : String) (state : Basic) (dependencies : PertDependency)
      (derivative : PertMultichain)
  | ExchCorrPotential (name : String) (args : List Basic) (potential : Basic)
  | TemporumOperator (target : Basic) (type : TemporumType)
  | TemporumOverlap (dependencies : PertDependency) (derivative : PertMultichain)
  | ZeroOperator
  | MatrixSymbol (name : String)
  | Trace (arg : Basic)
  | ConjugateMatrix (arg : Basic)
  | Transpose (arg : Basic)
  | MatrixAdd (args : List Basic)
  | MatrixMul (args : List Basic)
  | MatrixDerivative (arg : Basic) (derivative : PertMultichain)
  | Other (kind : Nat) (args : List Basic)


mutual
/-- Structural equality of expression nodes (`SymEngine::eq`). -/
def Basic.eq : Basic → Basic → Bool
  | .Symbol a, y => match y with
    | .Symbol b => decide (a = b)
    | _ => false
  | .Perturbation p, y => match y with
    | .Perturbation q => decide (p = q)
    | _ => false
  | .Num n, y => match y with
    | .Num m => decide (n = m)
    | _ => false
  | .Constant a, y => match y with
    | .Constant b => decide (a = b)
    | _ => false
  | .Add c d, y => match y with
    | .Add c2 d2 => decide (c = c2) && Basic.eqAddDict d d2
    | _ => false
  | .Mul c d, y => match y with
    | .Mul c2 d2 => decide (c = c2) && Basic.eqMulDict d d2
    | _ => false
  | .Pow b e, y => match y with
    | .Pow b2 e2 => Basic.eq b b2 && Basic.eq e e2
    | _ => false
  | .NonElecFunction n dep der, y => match y with
    | .NonElecFunction n2 dep2 der2 => decide (n = n2) && decide (dep = dep2) && decide (der = der2)
    | _ => false
  | .TwoElecEnergy n i o dep der, y => match y with
    | .TwoElecEnergy n2 i2 o2 dep2 der2 =>
      decide (n = n2) && Basic.eq i i2 && Basic.eq o o2 && decide (dep = dep2) && decide (der = der2)
    | _ => false
  | .CompositeFunction n i k, y => match y with
    | .CompositeFunction n2 i2 k2 => decide (n = n2) && Basic.eq i i2 && decide (k = k2)
    | _ => false
  | .ExchCorrEnergy n a e, y => match y with
    | .ExchCorrEnergy n2 a2 e2 => decide (n = n2) && Basic.eqArgs a a2 && Basic.eq e e2
    | _ => false
  | .FunctionSymbol n a, y => match y with
    | .FunctionSymbol n2 a2 => decide (n = n2) && Basic.eqArgs a a2
    | _ => false
  | .ZeroMatrix r c, y => match y with
    | .ZeroMatrix r2 c2 => decide (r = r2) && decide (c = c2)
    | _ => false
  | .LagMultiplier n der, y => match y with
    | .LagMultiplier n2 der2 => decide (n = n2) && decide (der = der2)
    | _ => false
  | .ElectronicState n der, y => match y with
    | .ElectronicState n2 der2 => decide (n = n2) && decide (der = der2)
    | _ => false
  | .OneElecDensity n der, y => match y with
    | .OneElecDensity n2 der2 => decide (n = n2) && decide (der = der2)
    | _ => false
  | .OneElecOperator n dep der, y => match y with
    | .OneElecOperator n2 dep2 der2 => decide (n = n2) && decide (dep = dep2) && decide (der = der2)
    | _ => false
  | .TwoElecOperator n s dep der, y => match y with
    | .TwoElecOperator n2 s2 dep2 der2 =>
      decide (n = n2) && Basic.eq s s2 && decide (dep = dep2) && decide (der = der2)
    | _ => false
  | .ExchCorrPotential n a p, y => match y with
    | .ExchCorrPotential n2 a2 p2 => decide (n = n2) && Basic.eqArgs a a2 && Basic.eq p p2
    | _ => false
  | .TemporumOperator t ty, y => match y with
    | .TemporumOperator t2 ty2 => Basic.eq t t2 && decide (ty = ty2)
    | _ => false
  | .TemporumOverlap dep der, y => match y with
    | .TemporumOverlap dep2 der2 => decide (dep = dep2) && decide (der = der2)
    | _ => false
  | .ZeroOperator, y => match y with
    | .ZeroOperator => true
    | _ => false
  | .MatrixSymbol n, y => match y with
    | .MatrixSymbol n2 => decide (n = n2)
    | _ => false
  | .Trace a, y => match y with
    | .Trace a2 => Basic.eq a a2
    | _ => false
  | .ConjugateMatrix a, y => match y with
    | .ConjugateMatrix a2 => Basic.eq a a2
    | _ => false
  | .Transpose a, y => match y with
    | .Transpose a2 => Basic.eq a a2
    | _ => false
  | .MatrixAdd a, y => match y with
    | .MatrixAdd a2 => Basic.eqArgs a a2
    | _ => false
  | .MatrixMul a, y => match y with
    | .MatrixMul a2 => Basic.eqArgs a a2
    | _ => false
  | .MatrixDerivative a der, y => match y with
    | .MatrixDerivative a2 der2 => Basic.eq a a2 && decide (der = der2)
    | _ => false
  | .Other k a, y => match y with
    | .Other k2 a2 => decide (k = k2) && Basic.eqArgs a a2
    | _ => false
termination_by structural x => x
/-- Element-wise equality of operand lists (`SymEngine::unified_eq` on `vec_basic`). -/
def Basic.eqArgs : List Basic → List Basic → Bool
  | [], ys => match ys with
    | [] => true
    | _ :: _ => false
  | x :: xs, ys => match ys with
    | [] => false
    | y :: ys => Basic.eq x y && Basic.eqArgs xs ys
termination_by structural x => x
/-- Entry-wise equality of the term/multiplier dictionaries of sums. -/
def Basic.eqAddDict : List (Basic × Number) → List (Basic × Number) → Bool
  | [], ys => match ys with
    | [] => true
    | _ :: _ => false
  | (x, c) :: xs, ys => match ys with
    | [] => false
    | (y, c2) :: ys => Basic.eq x y && decide (c = c2) && Basic.eqAddDict xs ys
termination_by structural x => x
/-- Entry-wise equality of the base/exponent dictionaries of products. -/
def Basic.eqMulDict : List (Basic × Basic) → List (Basic × Basic) → Bool
  | [], ys => match ys with
    | [] => true
    | _ :: _ => false
  | (x, e) :: xs, ys => match ys with
    | [] => false
    | (y, e2) :: ys => Basic.eq x y && Basic.eq e e2 && Basic.eqMulDict xs ys
termination_by structural x => x
end


/-- The additive identity `SymEngine::zero`. -/
def zero : Number := .Integer 0

/-- The multiplicative identity `SymEngine::one`. -/
def one : Number := .Integer 1

/-- The constant `SymEngine::minus_one`. -/
def minus_one : Number := .Integer (-1)

/-- Faults raised by the traversals: `NotImplementedError` is the unclassified-node fault,
`SymEngineException` the non-representable-rewrite fault. -/
inductive Fault
  | NotImplementedError
  | SymEngineException
  deriving DecidableEq

/-- Constructors of the expression algebra (SymEngine) called by the visitors. A pair of a
coefficient and a dictionary is the pair of out-arguments that `Add::coef_dict_add_term` and
`Mul::dict_add_term_new` update; `dict_add_term_new acc exp t` adds the factor `t ^ exp`;
`subnum` and `sub` are the differences of two numbers and of two expressions. -/
structure Algebra where
  add_from_dict : Number → List (Basic × Number) → Basic
  coef_dict_add_term :
    Number × List (Basic × Number) → Number → Basic → Number × List (Basic × Number)
  mul_from_dict : Number → List (Basic × Basic) → Basic
  dict_add_term_new :
    Number × List (Basic × Basic) → Basic → Basic → Number × List (Basic × Basic)
  matrix_add : List Basic → Basic
  matrix_mul : List Basic → Basic
  subnum : Number → Number → Number
  sub : Basic → Basic → Basic

/-- Sum constructor of the algebra without simplification: an empty dictionary gives the
coefficient and a single term with unit multiplier and zero coefficient gives the term, as
`Add::from_dict` does; every other sum is the node of the given coefficient and entries. -/
def freeAlgebra.add_from_dict (coef : Number) (d : List (Basic × Number)) : Basic :=
  match d with
  | [] => .Num coef
  | [(t, c)] => if coef = zero ∧ c = one then t else .Add coef d
  | _ => .Add coef d

/-- Product constructor of the algebra without simplification: a zero coefficient or an empty
dictionary gives the coefficient, a single factor with unit coefficient gives the factor or the
power, as `Mul::from_dict` does; every other product is the node of the given entries. -/
def freeAlgebra.mul_from_dict (coef : Number) (d : List (Basic × Basic)) : Basic :=
  if coef = zero then .Num coef
  else match d with
    | [] => .Num coef
    | [(t, e)] =>
      if coef = one then (if Basic.eq e (.Num one) then t else .Pow t e) else .Mul coef d
    | _ => .Mul coef d

/-- Matrix sum or product constructor without simplification: one operand is returned as it
is, several operands give the node `mk` of the operand list. -/
def freeAlgebra.matrix_op (mk : List Basic → Basic) (ts : List Basic) : Basic :=
  match ts with
  | [t] => t
  | _ => mk ts

/-- Difference of two rationals given as numerator and denominator, not reduced. -/
def freeAlgebra.subrat (a b : Int × Nat) : Int × Nat :=
  (a.1 * b.2 - b.1 * a.2, a.2 * b.2)

/-- Real and imaginary part of a number, each as numerator and denominator. -/
def freeAlgebra.parts : Number → (Int × Nat) × (Int × Nat)
  | .Integer v => ((v, 1), (0, 1))
  | .Rational n d => ((n, d), (0, 1))
  | .Complex rn rd im id => ((rn, rd), (im, id))

/-- Difference of two numbers (`SymEngine::subnum`): an integer for two integers, otherwise
the difference of the real and of the imaginary parts, not reduced. -/
def freeAlgebra.subnum : Number → Number → Number
  | .Integer a, .Integer b => .Integer (a - b)
  | .Rational n d, .Integer b => .Rational (n - b * d) d
  | .Integer a, .Rational n d => .Rational (a * d - n) d
  | .Rational n d, .Rational m e => .Rational (n * e - m * d) (d * e)
  | x, y =>
    .Complex (freeAlgebra.subrat (freeAlgebra.parts x).1 (freeAlgebra.parts y).1).1
      (freeAlgebra.subrat (freeAlgebra.parts x).1 (freeAlgebra.parts y).1).2
      (freeAlgebra.subrat (freeAlgebra.parts x).2 (freeAlgebra.parts y).2).1
      (freeAlgebra.subrat (freeAlgebra.parts x).2 (freeAlgebra.parts y).2).2

/-- The algebra that builds nodes without simplification: terms and factors are appended to
the dictionary in the order in which they are added, and the difference `a - b` is the sum of
`a` and of `b` with multiplier `-1`. -/
def freeAlgebra : Algebra where
  add_from_dict := freeAlgebra.add_from_dict
  coef_dict_add_term := fun acc c t => (acc.1, acc.2 ++ [(t, c)])
  mul_from_dict := freeAlgebra.mul_from_dict
  dict_add_term_new := fun acc e t => (acc.1, acc.2 ++ [(t, e)])
  matrix_add := freeAlgebra.matrix_op Basic.MatrixAdd
  matrix_mul := freeAlgebra.matrix_op Basic.MatrixMul
  subnum := freeAlgebra.subnum
  sub := fun a b => .Add zero [(a, one), (b, minus_one)]

/-! ## Remove traversal -/

/-- Modelled from the spec: `RemoveVisitor::is_equal` (declared in `Tinned/RemoveVisitor.hpp`,
which is not among the sources), the removal predicate built from a symbol set: structural
equality to a member of the set. It is the negation of `KeepVisitor::is_not_equal`. -/
def is_equal (symbols : List Basic) (x : Basic) : Bool :=
  symbols.any (fun s => Basic.eq x s)

/-- Modelled from the spec: `RemoveVisitor::remove_if_symbol_like` (declared in
`Tinned/RemoveVisitor.hpp`, which is not among the sources). Leaf and symbol-like kinds: absent
if `should_remove(node)`, else the node unchanged. -/
def remove_if_symbol_like (cond : Basic → Bool) (x : Basic) : Except Fault (Option Basic) :=
  if cond x then .ok none else .ok (some x)

/-- Modelled from the spec: `RemoveVisitor::remove_if_one_arg_f` (declared in
`Tinned/RemoveVisitor.hpp`, which is not among the sources), the helper that `RemoveVisitor.cpp`
calls with the node and a getter of its operand for the two-electron operator, the
time-derivative operator and the trace. The node is removed if `should_remove` matches it
directly; otherwise it is removed as a whole if the wrapped operand, after recursive removal,
becomes absent, and else the wrapper is reconstructed around the rewritten operand. The test of
the whole node comes first, as in every rule of `RemoveVisitor.cpp` for a node with operands and
as in `KeepVisitor::keep_if_one_arg_f`. `new_arg` is the outcome of `apply` on the operand and
`rebuild` constructs the wrapper. -/
def remove_if_one_arg_f (cond : Basic → Bool) (x : Basic) (rebuild : Basic → Basic)
    (new_arg : Except Fault (Option Basic)) : Except Fault (Option Basic) :=
  if cond x then .ok none
  else
    match new_arg with
    | .error f => .error f
    | .ok none => .ok none
    | .ok (some a) => .ok (some (rebuild a))

/-- Modelled from the spec: `RemoveVisitor::remove_ifnot_one_arg_f` (declared in
`Tinned/RemoveVisitor.hpp`, which is not among the sources), the helper that `KeepVisitor` calls
for operators with an operand and for trace, conjugate and transpose. If the whole node survives
the test (the predicate does not hold for it) it is kept; otherwise the operand is processed
recursively: if it becomes absent the wrapper is absent, if it is unchanged the wrapper is
returned unchanged, otherwise the wrapper is rebuilt around the new operand. This is the shape of
`KeepVisitor::keep_if_one_arg_f`. -/
def remove_ifnot_one_arg_f (cond : Basic → Bool) (x arg : Basic) (rebuild : Basic → Basic)
    (new_arg : Except Fault (Option Basic)) : Except Fault (Option Basic) :=
  if cond x then
    match new_arg with
    | .error f => .error f
    | .ok none => .ok none
    | .ok (some a) => if Basic.eq arg a then .ok (some x) else .ok (some (rebuild a))
  else .ok (some x)

mutual
/-- The member `result_` after `RemoveVisitor::apply(x)`, given its value `r` before the call, or
the fault raised. The arms are the `bvisit` overloads of `RemoveVisitor.cpp`. Modelled from the
spec: `apply` itself (declared in `Tinned/RemoveVisitor.hpp`, which is not among the sources)
dispatches on the node kind and returns `result_`. -/
def RemoveVisitor.apply (alg : Algebra) (cond : Basic → Bool) :
    Basic → Option Basic → Except Fault (Option Basic)
  | .Symbol n, _ => remove_if_symbol_like cond (.Symbol n)
  | .Perturbation p, _ => remove_if_symbol_like cond (.Perturbation p)
  | .Num n, _ => remove_if_symbol_like cond (.Num n)
  | .Constant n, _ => remove_if_symbol_like cond (.Constant n)
  | .Add coef dict, r =>
    if cond (.Add coef dict) then .ok none
    else
      match RemoveVisitor.bvisitAdd alg cond dict
        (if cond (.Num coef) then zero else coef, []) r with
      | .error f => .error f
      | .ok acc => .ok (some (alg.add_from_dict acc.1 acc.2))
  | .Mul coef dict, r =>
    if cond (.Mul coef dict) then .ok none
    else if cond (.Num coef) then .ok none
    else
      match RemoveVisitor.bvisitMul alg cond dict (coef, []) r with
      | .error f => .error f
      | .ok none => .ok none
      | .ok (some acc) => .ok (some (alg.mul_from_dict acc.1 acc.2))
  | .Pow _ _, _ => .error .NotImplementedError
  | .NonElecFunction n dep der, _ => remove_if_symbol_like cond (.NonElecFunction n dep der)
  | .TwoElecEnergy _ _ _ _ _, _ => .error .NotImplementedError
  | .CompositeFunction _ _ _, _ => .error .NotImplementedError
  | .ExchCorrEnergy _ _ _, r => .ok r
  | .FunctionSymbol _ _, _ => .error .NotImplementedError
  | .ZeroMatrix m n, _ => remove_if_symbol_like cond (.ZeroMatrix m n)
  | .LagMultiplier _ _, _ => .error .NotImplementedError
  | .ElectronicState _ _, _ => .error .NotImplementedError
  | .OneElecDensity n der, _ => remove_if_symbol_like cond (.OneElecDensity n der)
  | .OneElecOperator n dep der, _ => remove_if_symbol_like cond (.OneElecOperator n dep der)
  | .TwoElecOperator n state dep der, r =>
    remove_if_one_arg_f cond (.TwoElecOperator n state dep der)
      (fun a => .TwoElecOperator n a dep der) (RemoveVisitor.apply alg cond state r)
  | .ExchCorrPotential _ _ _, r => .ok r
  | .TemporumOperator target ty, r =>
    remove_if_one_arg_f cond (.TemporumOperator target ty) (fun a => .TemporumOperator a ty)
      (RemoveVisitor.apply alg cond target r)
  | .TemporumOverlap dep der, _ => remove_if_symbol_like cond (.TemporumOverlap dep der)
  | .ZeroOperator, _ => .error .NotImplementedError
  | .MatrixSymbol _, _ => .error .NotImplementedError
  | .Trace arg, r =>
    remove_if_one_arg_f cond (.Trace arg) Basic.Trace (RemoveVisitor.apply alg cond arg r)
  | .ConjugateMatrix arg, r =>
    remove_ifnot_one_arg_f cond (.ConjugateMatrix arg) arg Basic.ConjugateMatrix
      (RemoveVisitor.apply alg cond arg r)
  | .Transpose arg, r =>
    remove_ifnot_one_arg_f cond (.Transpose arg) arg Basic.Transpose
      (RemoveVisitor.apply alg cond arg r)
  | .MatrixAdd args, r =>
    if cond (.MatrixAdd args) then .ok none
    else
      match RemoveVisitor.bvisitMatrixAdd alg cond args [] r with
      | .error f => .error f
      | .ok terms => if terms.isEmpty then .ok none else .ok (some (alg.matrix_add terms))
  | .MatrixMul args, r =>
    if cond (.MatrixMul args) then .ok none
    else
      match RemoveVisitor.bvisitMatrixMul alg cond args [] r with
      | .error f => .error f
      | .ok none => .ok none
      | .ok (some factors) =>
        if factors.isEmpty then .ok none else .ok (some (alg.matrix_mul factors))
  | .MatrixDerivative arg der, _ => remove_if_symbol_like cond (.MatrixDerivative arg der)
  | .Other _ _, _ => .error .NotImplementedError
termination_by structural x => x
/-- The loop of `RemoveVisitor::bvisit(const Add&)` over the remaining pairs of the dictionary:
`acc` is the coefficient and the dictionary built so far, `r` the current `result_`. -/
def RemoveVisitor.bvisitAdd (alg : Algebra) (cond : Basic → Bool) :
    List (Basic × Number) → Number × List (Basic × Number) → Option Basic →
      Except Fault (Number × List (Basic × Number))
  | [], acc, _ => .ok acc
  | (t, c) :: rest, acc, r =>
    if cond (alg.add_from_dict zero [(t, c)]) then RemoveVisitor.bvisitAdd alg cond rest acc r
    else
      match RemoveVisitor.apply alg cond t r with
      | .error f => .error f
      | .ok none => RemoveVisitor.bvisitAdd alg cond rest acc none
      | .ok (some new_key) =>
        if cond (.Num c) then RemoveVisitor.bvisitAdd alg cond rest acc (some new_key)
        else
          RemoveVisitor.bvisitAdd alg cond rest (alg.coef_dict_add_term acc c new_key)
            (some new_key)
termination_by structural x => x
/-- The loop of `RemoveVisitor::bvisit(const Mul&)` over the remaining pairs of the dictionary;
`none` is the early return that removes the whole product. -/
def RemoveVisitor.bvisitMul (alg : Algebra) (cond : Basic → Bool) :
    List (Basic × Basic) → Number × List (Basic × Basic) → Option Basic →
      Except Fault (Option (Number × List (Basic × Basic)))
  | [], acc, _ => .ok (some acc)
  | (b, e) :: rest, acc, r =>
    if cond (.Pow b e) then .ok none
    else
      match RemoveVisitor.apply alg cond b r with
      | .error f => .error f
      | .ok none => .ok none
      | .ok (some new_key) =>
        match RemoveVisitor.apply alg cond e (some new_key) with
        | .error f => .error f
        | .ok none => .error .SymEngineException
        | .ok (some new_value) =>
          RemoveVisitor.bvisitMul alg cond rest (alg.dict_add_term_new acc new_value new_key)
            (some new_value)
termination_by structural x => x
/-- The loop of `RemoveVisitor::bvisit(const MatrixAdd&)` over the remaining operands; `terms`
are the surviving operands so far. -/
def RemoveVisitor.bvisitMatrixAdd (alg : Algebra) (cond : Basic → Bool) :
    List Basic → List Basic → Option Basic → Except Fault (List Basic)
  | [], terms, _ => .ok terms
  | arg :: rest, terms, r =>
    match RemoveVisitor.apply alg cond arg r with
    | .error f => .error f
    | .ok none => RemoveVisitor.bvisitMatrixAdd alg cond rest terms none
    | .ok (some new_arg) =>
      RemoveVisitor.bvisitMatrixAdd alg cond rest (terms ++ [new_arg]) (some new_arg)
termination_by structural x => x
/-- The loop of `RemoveVisitor::bvisit(const MatrixMul&)` over the remaining operands; `none`
is the early return that removes the whole product. -/
def RemoveVisitor.bvisitMatrixMul (alg : Algebra) (cond : Basic → Bool) :
    List Basic → List Basic → Option Basic → Except Fault (Option (List Basic))
  | [], factors, _ => .ok (some factors)
  | arg :: rest, factors, r =>
    match RemoveVisitor.apply alg cond arg r with
    | .error f => .error f
    | .ok none => .ok none
    | .ok (some new_arg) =>
      RemoveVisitor.bvisitMatrixMul alg cond rest (factors ++ [new_arg]) (some new_arg)
termination_by structural x => x
end

/-- Modelled from the spec: the entry point `remove_if(expression, symbols)` (declared in
`Tinned/RemoveVisitor.hpp`, which is not among the sources): a new visitor, whose `result_` is
the null pointer, is applied to the expression with the predicate `is_equal`. -/
def remove_if (alg : Algebra) (x : Basic) (symbols : List Basic) : Except Fault (Option Basic) :=
  RemoveVisitor.apply alg (is_equal symbols) x none

/-! ## Find traversal -/

/-- Insertion into the result set `result_` of `FindAllVisitor` (a `SymEngine::set_basic`, which
holds one node per class of structurally equal nodes). -/
def set_insert (result : List Basic) (x : Basic) : List Basic :=
  if result.any (fun y => Basic.eq x y) then result else result ++ [x]

/-- Modelled from the spec: `FindAllVisitor::find_equivalence` (declared in
`Tinned/FindAllVisitor.hpp`, which is not among the sources). The node matches if the
equivalence matcher reports a match against the target; the default policy is structural
equality. A matching node is added to the result set by the caller. -/
def find_equivalence (symbol x : Basic) : Bool :=
  Basic.eq x symbol

/-- Modelled from the spec: `FindAllVisitor::find_only_name` (declared in
`Tinned/FindAllVisitor.hpp`, which is not among the sources). Density-like symbols: compare the
name only and ignore any other metadata; the target is a symbol of the same class. -/
def find_only_name (symbol x : Basic) : Bool :=
  match x, symbol with
  | .LagMultiplier n _, .LagMultiplier m _ => decide (n = m)
  | .OneElecDensity n _, .OneElecDensity m _ => decide (n = m)
  | _, _ => false

/-- Modelled from the spec: the derivative multiset filtered to the declared dependency keys
with their allowed components (section 4.3; the helper is not among the sources). -/
def filter_derivative (dependencies : PertDependency) (derivative : PertMultichain) :
    PertMultichain :=
  derivative.filter (fun p => dependencies.any (fun d =>
    decide (d.1.name = p.name) && decide (d.1.frequency = p.frequency)
      && p.components.all (fun k => decide (k ∈ d.2))))

/-- Modelled from the spec: dependency equivalence of two symbols of the same name (section
4.3): both carry identical dependency maps and identical derivative multisets, or the derivative
multiset of the node, filtered to the dependencies declared by the target, equals the derivative
multiset of the target under the same filter. -/
def dependency_equivalent (dep_x : PertDependency) (der_x : PertMultichain)
    (dep_s : PertDependency) (der_s : PertMultichain) : Bool :=
  (decide (dep_x = dep_s) && decide (der_x = der_s))
    || decide (filter_derivative dep_s der_x = filter_derivative dep_s der_s)

/-- Modelled from the spec: `FindAllVisitor::find_with_dependencies` (declared in
`Tinned/FindAllVisitor.hpp`, which is not among the sources): the node matches a target of the
same class and the same name that is dependency-equivalent to it. -/
def find_with_dependencies (symbol x : Basic) : Bool :=
  match x, symbol with
  | .NonElecFunction n dep der, .NonElecFunction m dep2 der2 =>
    decide (n = m) && dependency_equivalent dep der dep2 der2
  | .TwoElecEnergy n _ _ dep der, .TwoElecEnergy m _ _ dep2 der2 =>
    decide (n = m) && dependency_equivalent dep der dep2 der2
  | .OneElecOperator n dep der, .OneElecOperator m dep2 der2 =>
    decide (n = m) && dependency_equivalent dep der dep2 der2
  | .TwoElecOperator n _ dep der, .TwoElecOperator m _ dep2 der2 =>
    decide (n = m) && dependency_equivalent dep der dep2 der2
  | .TemporumOverlap dep der, .TemporumOverlap dep2 der2 =>
    dependency_equivalent dep der dep2 der2
  | _, _ => false

/-- The tail of the wrapper rules of `FindAllVisitor` when the target is a wrapper of the same
kind: `inner` is the result of a new visitor applied to the wrapped operand; if it is not empty
the whole wrapper `x` is inserted into `result`. -/
def find_promote (x : Basic) (result : List Basic) (inner : Except Fault (List Basic)) :
    Except Fault (List Basic) :=
  match inner with
  | .error f => .error f
  | .ok found => if found.isEmpty then .ok result else .ok (set_insert result x)

mutual
/-- The member `result_` after `FindAllVisitor::apply(x)` of a visitor that looks for `symbol`,
given its value `result` before the call, or the fault raised. The arms are the `bvisit`
overloads of `FindAllVisitor.cpp`. Modelled from the spec: `apply` itself (declared in
`Tinned/FindAllVisitor.hpp`, which is not among the sources) dispatches on the node kind and
returns `result_`. -/
def FindAllVisitor.apply (alg : Algebra) :
    Basic → Basic → List Basic → Except Fault (List Basic)
  | .Symbol n, symbol, result =>
    .ok (if find_equivalence symbol (.Symbol n) then set_insert result (.Symbol n) else result)
  | .Perturbation p, symbol, result =>
    .ok (if find_equivalence symbol (.Perturbation p) then set_insert result (.Perturbation p)
      else result)
  | .Num n, symbol, result =>
    .ok (if find_equivalence symbol (.Num n) then set_insert result (.Num n) else result)
  | .Constant n, symbol, result =>
    .ok (if find_equivalence symbol (.Constant n) then set_insert result (.Constant n)
      else result)
  | .Add coef dict, symbol, result =>
    if find_equivalence symbol (.Add coef dict) then .ok (set_insert result (.Add coef dict))
    else if find_equivalence symbol (.Num coef) then .ok (set_insert result (.Num coef))
    else FindAllVisitor.bvisitAdd alg dict symbol result
  | .Mul coef dict, symbol, result =>
    if find_equivalence symbol (.Mul coef dict) then .ok (set_insert result (.Mul coef dict))
    else if find_equivalence symbol (.Num coef) then .ok (set_insert result (.Num coef))
    else FindAllVisitor.bvisitMul alg dict symbol result
  | .Pow _ _, _, _ => .error .NotImplementedError
  | .NonElecFunction n dep der, symbol, result =>
    .ok (if find_with_dependencies symbol (.NonElecFunction n dep der)
      then set_insert result (.NonElecFunction n dep der) else result)
  | .TwoElecEnergy n inner outer dep der, symbol, result =>
    if find_with_dependencies symbol (.TwoElecEnergy n inner outer dep der)
    then .ok (set_insert result (.TwoElecEnergy n inner outer dep der))
    else
      match FindAllVisitor.apply alg inner symbol result with
      | .error f => .error f
      | .ok result1 => FindAllVisitor.apply alg outer symbol result1
  | .CompositeFunction n inner k, symbol, result =>
    if (match symbol with
        | .CompositeFunction m inner2 _ => decide (n = m) && Basic.eq inner inner2
        | _ => false)
    then .ok (set_insert result (.CompositeFunction n inner k))
    else FindAllVisitor.apply alg inner symbol result
  | .ExchCorrEnergy n args energy, symbol, result =>
    if (match symbol with
        | .ExchCorrEnergy m args2 _ => decide (n = m) && Basic.eqArgs args args2
        | _ => false)
    then .ok (set_insert result (.ExchCorrEnergy n args energy))
    else FindAllVisitor.apply alg energy symbol result
  | .FunctionSymbol _ _, _, _ => .error .NotImplementedError
  | .ZeroMatrix m n, symbol, result =>
    .ok (if find_equivalence symbol (.ZeroMatrix m n) then set_insert result (.ZeroMatrix m n)
      else result)
  | .LagMultiplier n der, symbol, result =>
    .ok (if find_only_name symbol (.LagMultiplier n der)
      then set_insert result (.LagMultiplier n der) else result)
  | .ElectronicState _ _, _, _ => .error .NotImplementedError
  | .OneElecDensity n der, symbol, result =>
    .ok (if find_only_name symbol (.OneElecDensity n der)
      then set_insert result (.OneElecDensity n der) else result)
  | .OneElecOperator n dep der, symbol, result =>
    .ok (if find_with_dependencies symbol (.OneElecOperator n dep der)
      then set_insert result (.OneElecOperator n dep der) else result)
  | .TwoElecOperator n state dep der, symbol, result =>
    if find_with_dependencies symbol (.TwoElecOperator n state dep der)
    then .ok (set_insert result (.TwoElecOperator n state dep der))
    else FindAllVisitor.apply alg state symbol result
  | .ExchCorrPotential n args potential, symbol, result =>
    if (match symbol with
        | .ExchCorrPotential m args2 _ => decide (n = m) && Basic.eqArgs args args2
        | _ => false)
    then .ok (set_insert result (.ExchCorrPotential n args potential))
    else FindAllVisitor.apply alg potential symbol result
  | .TemporumOperator target ty, symbol, result =>
    match symbol with
    | .TemporumOperator target2 _ =>
      find_promote (.TemporumOperator target ty) result
        (FindAllVisitor.apply alg target target2 [])
    | _ => FindAllVisitor.apply alg target symbol result
  | .TemporumOverlap dep der, symbol, result =>
    .ok (if find_with_dependencies symbol (.TemporumOverlap dep der)
      then set_insert result (.TemporumOverlap dep der) else result)
  | .ZeroOperator, symbol, result =>
    .ok (if find_equivalence symbol .ZeroOperator then set_insert result .ZeroOperator
      else result)
  | .MatrixSymbol _, _, _ => .error .NotImplementedError
  | .Trace arg, symbol, result =>
    match symbol with
    | .Trace arg2 => find_promote (.Trace arg) result (FindAllVisitor.apply alg arg arg2 [])
    | _ => FindAllVisitor.apply alg arg symbol result
  | .ConjugateMatrix arg, symbol, result =>
    match symbol with
    | .ConjugateMatrix arg2 =>
      find_promote (.ConjugateMatrix arg) result (FindAllVisitor.apply alg arg arg2 [])
    | _ => FindAllVisitor.apply alg arg symbol result
  | .Transpose arg, symbol, result =>
    match symbol with
    | .Transpose arg2 =>
      find_promote (.Transpose arg) result (FindAllVisitor.apply alg arg arg2 [])
    | _ => FindAllVisitor.apply alg arg symbol result
  | .MatrixAdd args, symbol, result =>
    if find_equivalence symbol (.MatrixAdd args) then .ok (set_insert result (.MatrixAdd args))
    else FindAllVisitor.bvisitArgs alg args symbol result
  | .MatrixMul args, symbol, result =>
    if find_equivalence symbol (.MatrixMul args) then .ok (set_insert result (.MatrixMul args))
    else FindAllVisitor.bvisitArgs alg args symbol result
  | .MatrixDerivative arg der, symbol, result =>
    .ok (if Basic.eq arg symbol then set_insert result (.MatrixDerivative arg der) else result)
  | .Other _ _, _, _ => .error .NotImplementedError
termination_by structural x => x
/-- The loop of `FindAllVisitor::bvisit(const Add&)` over the remaining pairs. -/
def FindAllVisitor.bvisitAdd (alg : Algebra) :
    List (Basic × Number) → Basic → List Basic → Except Fault (List Basic)
  | [], _, result => .ok result
  | (t, c) :: rest, symbol, result =>
    if find_equivalence symbol (.Num c)
    then FindAllVisitor.bvisitAdd alg rest symbol (set_insert result (.Num c))
    else if find_equivalence symbol (alg.add_from_dict zero [(t, c)])
    then FindAllVisitor.bvisitAdd alg rest symbol
      (set_insert result (alg.add_from_dict zero [(t, c)]))
    else
      match FindAllVisitor.apply alg t symbol result with
      | .error f => .error f
      | .ok result1 => FindAllVisitor.bvisitAdd alg rest symbol result1
termination_by structural x => x
/-- The loop of `FindAllVisitor::bvisit(const Mul&)` over the remaining pairs. -/
def FindAllVisitor.bvisitMul (alg : Algebra) :
    List (Basic × Basic) → Basic → List Basic → Except Fault (List Basic)
  | [], _, result => .ok result
  | (b, e) :: rest, symbol, result =>
    if find_equivalence symbol (.Pow b e)
    then FindAllVisitor.bvisitMul alg rest symbol (set_insert result (.Pow b e))
    else
      match FindAllVisitor.apply alg b symbol result with
      | .error f => .error f
      | .ok result1 =>
        match FindAllVisitor.apply alg e symbol result1 with
        | .error f => .error f
        | .ok result2 => FindAllVisitor.bvisitMul alg rest symbol result2
termination_by structural x => x
/-- The loop of `FindAllVisitor::bvisit` for `MatrixAdd` and `MatrixMul` over the remaining
operands. -/
def FindAllVisitor.bvisitArgs (alg : Algebra) :
    List Basic → Basic → List Basic → Except Fault (List Basic)
  | [], _, result => .ok result
  | arg :: rest, symbol, result =>
    match FindAllVisitor.apply alg arg symbol result with
    | .error f => .error f
    | .ok result1 => FindAllVisitor.bvisitArgs alg rest symbol result1
termination_by structural x => x
end

/-- Modelled from the spec: the entry point `find_all(expression, target)` (declared in
`Tinned/FindAllVisitor.hpp`, which is not among the sources): a new visitor for the target,
whose result set is empty, is applied to the expression. -/
def find_all (alg : Algebra) (x symbol : Basic) : Except Fault (List Basic) :=
  FindAllVisitor.apply alg x symbol []

/-! ## Keep traversal

`KeepVisitor` derives from `RemoveVisitor` with the predicate `is_not_equal` and overrides
`apply` and the rules of some node kinds. `KeepVisitor.bvisit x r` is `result_` after
`x->accept(*this)` and `KeepVisitor.apply x r` is `result_` after `apply(x)`, given its value
`r` before the call. -/

/-- The predicate of the Keep traversal, `KeepVisitor::is_not_equal`: the node is structurally
equal to none of the symbols to be kept. -/
def is_not_equal (symbols : List Basic) (x : Basic) : Bool :=
  symbols.all (fun s => !Basic.eq x s)

/-- The body of `KeepVisitor::apply`: if the predicate holds for `x` the node is visited
(`visited` is the outcome of `x->accept(*this)`), otherwise `result_` is `x` itself. -/
def KeepVisitor.guarded (symbols : List Basic) (x : Basic)
    (visited : Except Fault (Option Basic)) : Except Fault (Option Basic) :=
  if is_not_equal symbols x then visited else .ok (some x)

/-- The call `apply(coef)` of `KeepVisitor::bvisit(const Mul&)` on the numeric coefficient: the
visit of a number is `bvisit` for `Integer`, `Rational` or `Complex`, which `KeepVisitor` takes
from `RemoveVisitor`. -/
def KeepVisitor.applyNumber (symbols : List Basic) (coef : Number) :
    Except Fault (Option Basic) :=
  KeepVisitor.guarded symbols (.Num coef)
    (remove_if_symbol_like (is_not_equal symbols) (.Num coef))

/-- The remainder `subnum(coef, new_coef)` of a coefficient that is kept in part; the kept
part is a number. -/
def KeepVisitor.subnum (alg : Algebra) (coef : Number) (new_coef : Basic) : Number :=
  match new_coef with
  | .Num n => alg.subnum coef n
  | _ => coef

/-- Outcome of a loop of the product rules of `KeepVisitor`: the early return that keeps the
whole product, or the end of the loop with the values accumulated. -/
inductive KeepLoop (α : Type)
  | whole
  | finished (acc : α)

/-- The end of `KeepVisitor::bvisit(const Mul&)`: the whole product `x` after an early return,
otherwise the product made by `Mul::from_dict` from the coefficient and the dictionary. -/
def KeepVisitor.finishMul (alg : Algebra) (x : Basic)
    (loop : Except Fault (KeepLoop (Number × List (Basic × Basic)))) :
    Except Fault (Option Basic) :=
  match loop with
  | .error f => .error f
  | .ok .whole => .ok (some x)
  | .ok (.finished acc) => .ok (some (alg.mul_from_dict acc.1 acc.2))

/-- The end of `KeepVisitor::bvisit(const MatrixMul&)`: the whole product `x` after an early
return; otherwise, if a factor was kept in part, the sum of `x` and of the product of `factors`,
and absent if no factor was kept. -/
def KeepVisitor.finishMatrixMul (alg : Algebra) (x : Basic)
    (loop : Except Fault (KeepLoop (List Basic × Bool))) : Except Fault (Option Basic) :=
  match loop with
  | .error f => .error f
  | .ok .whole => .ok (some x)
  | .ok (.finished acc) =>
    if acc.2 then .ok (some (alg.matrix_add [x, alg.matrix_mul acc.1])) else .ok none

mutual
/-- The member `result_` after `x->accept(*this)` for a `KeepVisitor`, given its value `r`
before the call, or the fault raised. The rules of `Mul`, `FunctionSymbol`, `MatrixSymbol`,
`Trace`, `ConjugateMatrix`, `Transpose` and `MatrixMul` are the overloads of `KeepVisitor.cpp`;
the other kinds but the two sums have the rule of `RemoveVisitor` (`using
RemoveVisitor::bvisit`). Modelled from the spec: `KeepVisitor::bvisit` for `Add` and `MatrixAdd`,
which `KeepVisitor.hpp` declares as overrides of `KeepVisitor` and no source file defines. The
spec gives the sum the term-by-term structure of Remove (every additive term is either fully
kept or fully removed; of `a + b + c` with the set `{b}` the term `b` is kept), and the product
rules of `KeepVisitor.cpp` count on it (their comments take a base or factor `Ak + Ar` whose
kept form is `Ak`): the coefficient is kept if it is in the symbol set and is zero otherwise,
every term goes through `KeepVisitor::apply` and is entered with its multiplier if its kept
form is not absent, and the sum is absent if nothing of it is kept. A sum that is in the symbol
set is kept whole by `KeepVisitor::apply`, so the rule has no test of the whole sum; the tests
of Remove on a pair as a singleton sum and on its multiplier, which under the predicate of
Keep would drop the term `b` above (its multiplier `1` is not in the set), are not part of
it. -/
def KeepVisitor.bvisit (alg : Algebra) (symbols : List Basic) :
    Basic → Option Basic → Except Fault (Option Basic)
  | .Symbol n, _ => remove_if_symbol_like (is_not_equal symbols) (.Symbol n)
  | .Perturbation p, _ => remove_if_symbol_like (is_not_equal symbols) (.Perturbation p)
  | .Num n, _ => remove_if_symbol_like (is_not_equal symbols) (.Num n)
  | .Constant n, _ => remove_if_symbol_like (is_not_equal symbols) (.Constant n)
  | .Add coef dict, r =>
    match KeepVisitor.bvisitAdd alg symbols dict
      (if is_not_equal symbols (.Num coef) then zero else coef, []) r with
    | .error f => .error f
    | .ok acc =>
      if acc.2.isEmpty && is_not_equal symbols (.Num coef) then .ok none
      else .ok (some (alg.add_from_dict acc.1 acc.2))
  | .Mul coef dict, _ =>
    if is_not_equal symbols (.Mul coef dict) then
      match KeepVisitor.applyNumber symbols coef with
      | .error f => .error f
      | .ok none =>
        KeepVisitor.finishMul alg (.Mul coef dict)
          (KeepVisitor.bvisitMul alg symbols dict (coef, []) none)
      | .ok (some new_coef) =>
        if Basic.eq (.Num coef) new_coef then .ok (some (.Mul coef dict))
        else
          KeepVisitor.finishMul alg (.Mul coef dict)
            (KeepVisitor.bvisitMul alg symbols dict
              (KeepVisitor.subnum alg coef new_coef, []) (some new_coef))
    else .ok (some (.Mul coef dict))
  | .Pow _ _, _ => .error .NotImplementedError
  | .NonElecFunction n dep der, _ =>
    remove_if_symbol_like (is_not_equal symbols) (.NonElecFunction n dep der)
  | .TwoElecEnergy _ _ _ _ _, _ => .error .NotImplementedError
  | .CompositeFunction _ _ _, _ => .error .NotImplementedError
  | .ExchCorrEnergy _ _ _, r => .ok r
  | .FunctionSymbol _ _, _ => .error .NotImplementedError
  | .ZeroMatrix m n, _ => remove_if_symbol_like (is_not_equal symbols) (.ZeroMatrix m n)
  | .LagMultiplier _ _, _ => .error .NotImplementedError
  | .ElectronicState _ _, _ => .error .NotImplementedError
  | .OneElecDensity n der, _ =>
    remove_if_symbol_like (is_not_equal symbols) (.OneElecDensity n der)
  | .OneElecOperator n dep der, _ =>
    remove_if_symbol_like (is_not_equal symbols) (.OneElecOperator n dep der)
  | .TwoElecOperator n state dep der, r =>
    remove_ifnot_one_arg_f (is_not_equal symbols) (.TwoElecOperator n state dep der) state
      (fun a => .TwoElecOperator n a dep der)
      (KeepVisitor.guarded symbols state (KeepVisitor.bvisit alg symbols state r))
  | .ExchCorrPotential _ _ _, r => .ok r
  | .TemporumOperator target ty, r =>
    remove_ifnot_one_arg_f (is_not_equal symbols) (.TemporumOperator target ty) target
      (fun a => .TemporumOperator a ty)
      (KeepVisitor.guarded symbols target (KeepVisitor.bvisit alg symbols target r))
  | .TemporumOverlap dep der, _ =>
    remove_if_symbol_like (is_not_equal symbols) (.TemporumOverlap dep der)
  | .ZeroOperator, _ => .error .NotImplementedError
  | .MatrixSymbol _, _ => .error .NotImplementedError
  | .Trace arg, r =>
    remove_ifnot_one_arg_f (is_not_equal symbols) (.Trace arg) arg Basic.Trace
      (KeepVisitor.guarded symbols arg (KeepVisitor.bvisit alg symbols arg r))
  | .ConjugateMatrix arg, r =>
    remove_ifnot_one_arg_f (is_not_equal symbols) (.ConjugateMatrix arg) arg
      Basic.ConjugateMatrix
      (KeepVisitor.guarded symbols arg (KeepVisitor.bvisit alg symbols arg r))
  | .Transpose arg, r =>
    remove_ifnot_one_arg_f (is_not_equal symbols) (.Transpose arg) arg Basic.Transpose
      (KeepVisitor.guarded symbols arg (KeepVisitor.bvisit alg symbols arg r))
  | .MatrixAdd args, r =>
    match KeepVisitor.bvisitMatrixAdd alg symbols args [] r with
    | .error f => .error f
    | .ok terms => if terms.isEmpty then .ok none else .ok (some (alg.matrix_add terms))
  | .MatrixMul args, r =>
    if is_not_equal symbols (.MatrixMul args) then
      KeepVisitor.finishMatrixMul alg (.MatrixMul args)
        (KeepVisitor.bvisitMatrixMul alg symbols args ([.Num minus_one], false) r)
    else .ok (some (.MatrixMul args))
  | .MatrixDerivative arg der, _ =>
    remove_if_symbol_like (is_not_equal symbols) (.MatrixDerivative arg der)
  | .Other _ _, _ => .error .NotImplementedError
termination_by structural x => x
/-- Modelled from the spec: the loop of the sum rule of Keep, which no source file defines,
over the remaining pairs of the dictionary: a term whose kept form (`KeepVisitor::apply`) is
absent is dropped, any other term is entered with its kept form and its multiplier by
`Add::coef_dict_add_term`. `acc` is the coefficient and the dictionary built so far, `r` the
current `result_`. -/
def KeepVisitor.bvisitAdd (alg : Algebra) (symbols : List Basic) :
    List (Basic × Number) → Number × List (Basic × Number) → Option Basic →
      Except Fault (Number × List (Basic × Number))
  | [], acc, _ => .ok acc
  | (t, c) :: rest, acc, r =>
    match KeepVisitor.guarded symbols t (KeepVisitor.bvisit alg symbols t r) with
    | .error f => .error f
    | .ok none => KeepVisitor.bvisitAdd alg symbols rest acc none
    | .ok (some new_key) =>
      KeepVisitor.bvisitAdd alg symbols rest (alg.coef_dict_add_term acc c new_key)
        (some new_key)
termination_by structural x => x
/-- The loop of `KeepVisitor::bvisit(const Mul&)` over the remaining pairs of the dictionary:
`acc` is the coefficient and the dictionary built so far, `r` the current `result_`. -/
def KeepVisitor.bvisitMul (alg : Algebra) (symbols : List Basic) :
    List (Basic × Basic) → Number × List (Basic × Basic) → Option Basic →
      Except Fault (KeepLoop (Number × List (Basic × Basic)))
  | [], acc, _ => .ok (.finished acc)
  | (b, e) :: rest, acc, r =>
    if is_not_equal symbols (.Pow b e) then
      match KeepVisitor.guarded symbols b (KeepVisitor.bvisit alg symbols b r) with
      | .error f => .error f
      | .ok none =>
        KeepVisitor.bvisitMul alg symbols rest (alg.dict_add_term_new acc e b) none
      | .ok (some new_key) =>
        if Basic.eq b new_key then .ok .whole
        else
          match KeepVisitor.guarded symbols e
            (KeepVisitor.bvisit alg symbols e (some new_key)) with
          | .error f => .error f
          | .ok none => .error .SymEngineException
          | .ok (some new_value) =>
            KeepVisitor.bvisitMul alg symbols rest
              (alg.dict_add_term_new (alg.dict_add_term_new acc e (alg.sub b new_key))
                new_value new_key)
              (some new_value)
    else .ok .whole
termination_by structural x => x
/-- Modelled from the spec: the loop of the matrix-sum rule of Keep, which no source file
defines, over the remaining operands: an operand whose kept form (`KeepVisitor::apply`) is
absent is dropped, any other operand is replaced by its kept form; `terms` are the kept forms
so far. -/
def KeepVisitor.bvisitMatrixAdd (alg : Algebra) (symbols : List Basic) :
    List Basic → List Basic → Option Basic → Except Fault (List Basic)
  | [], terms, _ => .ok terms
  | arg :: rest, terms, r =>
    match KeepVisitor.guarded symbols arg (KeepVisitor.bvisit alg symbols arg r) with
    | .error f => .error f
    | .ok none => KeepVisitor.bvisitMatrixAdd alg symbols rest terms none
    | .ok (some new_arg) =>
      KeepVisitor.bvisitMatrixAdd alg symbols rest (terms ++ [new_arg]) (some new_arg)
termination_by structural x => x
/-- The loop of `KeepVisitor::bvisit(const MatrixMul&)` over the remaining operands: `acc` is
the list `factors` and the flag `factors_kept`, `r` the current `result_`. -/
def KeepVisitor.bvisitMatrixMul (alg : Algebra) (symbols : List Basic) :
    List Basic → List Basic × Bool → Option Basic →
      Except Fault (KeepLoop (List Basic × Bool))
  | [], acc, _ => .ok (.finished acc)
  | arg :: rest, acc, r =>
    match KeepVisitor.guarded symbols arg (KeepVisitor.bvisit alg symbols arg r) with
    | .error f => .error f
    | .ok none => KeepVisitor.bvisitMatrixMul alg symbols rest (acc.1 ++ [arg], acc.2) none
    | .ok (some new_arg) =>
      if Basic.eq arg new_arg then .ok .whole
      else
        KeepVisitor.bvisitMatrixMul alg symbols rest
          (acc.1 ++ [alg.matrix_add [arg, alg.matrix_mul [.Num minus_one, new_arg]]], true)
          (some new_arg)
termination_by structural x => x
end

/-- The member `result_` after `KeepVisitor::apply(x)`, given its value `r` before the call, or
the fault raised: a node for which the predicate does not hold is returned without a visit. -/
def KeepVisitor.apply (alg : Algebra) (symbols : List Basic) (x : Basic) (r : Option Basic) :
    Except Fault (Option Basic) :=
  KeepVisitor.guarded symbols x (KeepVisitor.bvisit alg symbols x r)

/-- The entry point `keep_if(x, symbols, remove_zero_quantities)` of `KeepVisitor.hpp`: a new
visitor is applied to the expression; an absent result is returned as it is, any other result
goes through `remove_zeros` if the flag is set. The zero-cleanup pass `remove_zeros` (declared in
`Tinned/ZerosRemover.hpp`, which is not among the sources) is a parameter. -/
def keep_if (alg : Algebra) (remove_zeros : Basic → Basic) (x : Basic) (symbols : List Basic)
    (remove_zero_quantities : Bool) : Except Fault (Option Basic) :=
  match KeepVisitor.apply alg symbols x none with
  | .error f => .error f
  | .ok none => .ok none
  | .ok (some result) =>
    .ok (some (if remove_zero_quantities then remove_zeros result else result))

/-- The call `keep_if(x, symbols)` with the default value `true` of the third argument. -/
def keep_if_default (alg : Algebra) (remove_zeros : Basic → Basic) (x : Basic)
    (symbols : List Basic) : Except Fault (Option Basic) :=
  keep_if alg remove_zeros x symbols true

/-! ## Notions used to state the properties of the Remove traversal

The value that `apply` returns for an operand depends on the expression and on `result_` at the
time of the call. The following functions list the operands that a loop reaches together with
the value of `result_` on entry, so that the recursive removal of an operand is the value of
`RemoveVisitor.apply` at such a pair. -/

/-- Leaf-like kinds of the Remove traversal: generic symbol (a perturbation is one), numeric
literal, constant, zero matrix and matrix-derivative. -/
def Basic.isLeafLike : Basic → Bool
  | .Symbol _ => true
  | .Perturbation _ => true
  | .Num _ => true
  | .Constant _ => true
  | .ZeroMatrix _ _ => true
  | .MatrixDerivative _ _ => true
  | _ => false

/-- The sum of the leaf symbols of the given names, with zero additive coefficient and unit
multipliers. -/
def symbol_sum (names : List String) : Basic :=
  .Add zero (names.map (fun n => (Basic.Symbol n, one)))

/-- The pairs of a product dictionary that the loop of `RemoveVisitor::bvisit(const Mul&)`
reaches when it starts with `result_ = r`, each with the value of `result_` on entry. -/
def RemoveVisitor.mulVisits (alg : Algebra) (cond : Basic → Bool) :
    List (Basic × Basic) → Option Basic → List ((Basic × Basic) × Option Basic)
  | [], _ => []
  | (b, e) :: rest, r =>
    ((b, e), r) ::
      (if cond (.Pow b e) then []
       else
        match RemoveVisitor.apply alg cond b r with
        | .ok (some new_key) =>
          match RemoveVisitor.apply alg cond e (some new_key) with
          | .ok (some new_value) => RemoveVisitor.mulVisits alg cond rest (some new_value)
          | _ => []
        | _ => [])

/-- The rewritten pairs `(new_key, new_value)` of the reached pairs of a product whose base and
exponent both survive the recursive removal. -/
def RemoveVisitor.mulRewritten (alg : Algebra) (cond : Basic → Bool)
    (visits : List ((Basic × Basic) × Option Basic)) : List (Basic × Basic) :=
  visits.filterMap (fun w =>
    match RemoveVisitor.apply alg cond w.1.1 w.2 with
    | .ok (some new_key) =>
      match RemoveVisitor.apply alg cond w.1.2 (some new_key) with
      | .ok (some new_value) => some (new_key, new_value)
      | _ => none
    | _ => none)

/-- The product rebuilt from the coefficient and the rewritten pairs: the factors are added
with `Mul::dict_add_term_new` in the order of the dictionary and the product is made by
`Mul::from_dict`. -/
def RemoveVisitor.mulRebuilt (alg : Algebra) (cond : Basic → Bool) (coef : Number)
    (dict : List (Basic × Basic)) (r : Option Basic) : Basic :=
  alg.mul_from_dict
    ((RemoveVisitor.mulRewritten alg cond (RemoveVisitor.mulVisits alg cond dict r)).foldl
      (fun acc p => alg.dict_add_term_new acc p.2 p.1) (coef, [])).1
    ((RemoveVisitor.mulRewritten alg cond (RemoveVisitor.mulVisits alg cond dict r)).foldl
      (fun acc p => alg.dict_add_term_new acc p.2 p.1) (coef, [])).2

/-- The operands of a matrix sum that the loop of `RemoveVisitor::bvisit(const MatrixAdd&)`
reaches when it starts with `result_ = r`, each with the value of `result_` on entry. The loop
goes on after an absent operand and stops at a fault. -/
def RemoveVisitor.matrixAddVisits (alg : Algebra) (cond : Basic → Bool) :
    List Basic → Option Basic → List (Basic × Option Basic)
  | [], _ => []
  | arg :: rest, r =>
    (arg, r) ::
      (match RemoveVisitor.apply alg cond arg r with
       | .ok new_arg => RemoveVisitor.matrixAddVisits alg cond rest new_arg
       | .error _ => [])

/-- The operands of a matrix product that the loop of `RemoveVisitor::bvisit(const MatrixMul&)`
reaches when it starts with `result_ = r`, each with the value of `result_` on entry. The loop
stops at an absent operand and at a fault. -/
def RemoveVisitor.matrixMulVisits (alg : Algebra) (cond : Basic → Bool) :
    List Basic → Option Basic → List (Basic × Option Basic)
  | [], _ => []
  | arg :: rest, r =>
    (arg, r) ::
      (match RemoveVisitor.apply alg cond arg r with
       | .ok (some new_arg) => RemoveVisitor.matrixMulVisits alg cond rest (some new_arg)
       | _ => [])

/-- The non-absent results of the recursive removal of the reached operands, in order. -/
def RemoveVisitor.survivors (alg : Algebra) (cond : Basic → Bool)
    (visits : List (Basic × Option Basic)) : List Basic :=
  visits.filterMap (fun w =>
    match RemoveVisitor.apply alg cond w.1 w.2 with
    | .ok (some new_arg) => some new_arg
    | _ => none)

/-- Symbol-like kinds of the Remove traversal: the kinds whose rule is
`remove_if_symbol_like`. -/
def Basic.isSymbolLike : Basic → Bool
  | .Symbol _ => true
  | .Perturbation _ => true
  | .Num _ => true
  | .Constant _ => true
  | .NonElecFunction _ _ _ => true
  | .ZeroMatrix _ _ => true
  | .OneElecDensity _ _ => true
  | .OneElecOperator _ _ _ => true
  | .TemporumOverlap _ _ => true
  | .MatrixDerivative _ _ => true
  | _ => false

/-- Kinds for which none of the three traversals has a rule: a power, a function symbol or a
matrix symbol of no Tinned subclass that is tested for, a plain electronic state, and any other
class. -/
def Basic.isUnclassified : Basic → Bool
  | .Pow _ _ => true
  | .FunctionSymbol _ _ => true
  | .ElectronicState _ _ => true
  | .MatrixSymbol _ => true
  | .Other _ _ => true
  | _ => false

/-- The operands of a matrix product that the loop of `KeepVisitor::bvisit(const MatrixMul&)`
reaches when it starts with `result_ = r`, each with the value of `result_` on entry. The loop
stops at an operand that is kept verbatim and at a fault. -/
def KeepVisitor.matrixMulVisits (alg : Algebra) (symbols : List Basic) :
    List Basic → Option Basic → List (Basic × Option Basic)
  | [], _ => []
  | arg :: rest, r =>
    (arg, r) ::
      (match KeepVisitor.apply alg symbols arg r with
       | .ok none => KeepVisitor.matrixMulVisits alg symbols rest none
       | .ok (some new_arg) =>
         if Basic.eq arg new_arg then []
         else KeepVisitor.matrixMulVisits alg symbols rest (some new_arg)
       | .error _ => [])

/-- The remainders of the reached operands of a matrix product in the Keep traversal: the
operand itself if its kept form is absent, otherwise the matrix sum of the operand and of `-1`
times its kept form. -/
def KeepVisitor.remainders (alg : Algebra) (symbols : List Basic)
    (visits : List (Basic × Option Basic)) : List Basic :=
  visits.map (fun w =>
    match KeepVisitor.apply alg symbols w.1 w.2 with
    | .ok (some new_arg) => alg.matrix_add [w.1, alg.matrix_mul [.Num minus_one, new_arg]]
    | _ => w.1)

/-- The flag `factors_kept` that the reached operands of a matrix product add to the loop of
`KeepVisitor::bvisit(const MatrixMul&)`: some reached operand has a kept form. -/
def KeepVisitor.anyKept (alg : Algebra) (symbols : List Basic)
    (visits : List (Basic × Option Basic)) : Bool :=
  visits.any (fun w =>
    match KeepVisitor.apply alg symbols w.1 w.2 with
    | .ok (some _) => true
    | _ => false)

/-! ## Sample expressions -/

/-- Leaf symbol `a`. -/
def sample.a : Basic := .Symbol "a"
/-- Leaf symbol `b`. -/
def sample.b : Basic := .Symbol "b"
/-- Leaf symbol `c`. -/
def sample.c : Basic := .Symbol "c"
/-- Leaf symbol `x`. -/
def sample.x : Basic := .Symbol "x"
/-- Leaf symbol `y`. -/
def sample.y : Basic := .Symbol "y"
/-- Leaf symbol `z`. -/
def sample.z : Basic := .Symbol "z"
/-- Density matrix `D`, a matrix symbol for which Remove has a rule. -/
def sample.D : Basic := .OneElecDensity "D" []
/-- Generic matrix symbol `A` (a `SymEngine::MatrixSymbol` of no Tinned subclass), for which
Remove has no rule. -/
def sample.A : Basic := .MatrixSymbol "A"

/-- Dictionary of the product `x^(y^2) * z`. -/
def sample.power_dict : List (Basic × Basic) :=
  [(sample.x, .Pow sample.y (.Num (.Integer 2))), (sample.z, .Num one)]
/-- The product `x^(y^2) * z`, whose first exponent is a power. -/
def sample.power_product : Basic := .Mul one sample.power_dict
/-- Dictionary of the product `x * z^y`. -/
def sample.exponent_dict : List (Basic × Basic) :=
  [(sample.x, .Num one), (sample.z, sample.y)]
/-- The product `x * z^y`. -/
def sample.exponent_product : Basic := .Mul one sample.exponent_dict

/-- One-electron operator `V`, a matrix symbol for which Remove has a rule. -/
def sample.V : Basic := .OneElecOperator "V" [] []
/-- Overlap-like leaf `T`, a matrix symbol for which Remove has a rule. -/
def sample.T : Basic := .TemporumOverlap [] []

/-- The sum `a + c`. -/
def sample.a_plus_c : Basic := .Add zero [(sample.a, one), (sample.c, one)]
/-- The product `x * y`. -/
def sample.xy : Basic := .Mul one [(sample.x, .Num one), (sample.y, .Num one)]
/-- The product node of coefficient one with the single pair `(x, 1)`; its kept form for a set
without `x` is the symbol `x`, which differs from the node. -/
def sample.single : Basic := .Mul one [(sample.x, .Num one)]

/-! ## Notions used to state the properties of the Find traversal -/

/-- Expressions that the Find traversal reports for a target equal to themselves: the kinds
whose rule starts with a test of the whole node against the target, and the traces,
conjugates, transposes and time derivatives of such expressions. A matrix-derivative is
compared through its operand and the kinds without a rule raise the fault. -/
def Basic.isSelfFound : Basic → Bool
  | .Trace arg => arg.isSelfFound
  | .ConjugateMatrix arg => arg.isSelfFound
  | .Transpose arg => arg.isSelfFound
  | .TemporumOperator target _ => target.isSelfFound
  | .MatrixDerivative _ _ => false
  | .Pow _ _ => false
  | .FunctionSymbol _ _ => false
  | .ElectronicState _ _ => false
  | .MatrixSymbol _ => false
  | .Other _ _ => false
  | _ => true

/-- Matrix symbols: the class `SymEngine::MatrixSymbol` and the Tinned classes derived from it.
The operand of a matrix-derivative is a matrix symbol (its constructor takes no other
expression). -/
def Basic.isMatrixSymbol : Basic → Bool
  | .LagMultiplier _ _ => true
  | .ElectronicState _ _ => true
  | .OneElecDensity _ _ => true
  | .OneElecOperator _ _ _ => true
  | .TwoElecOperator _ _ _ _ => true
  | .ExchCorrPotential _ _ _ => true
  | .TemporumOperator _ _ => true
  | .TemporumOverlap _ _ => true
  | .ZeroOperator => true
  | .MatrixSymbol _ => true
  | _ => false

/-- Targets that are a numeric literal or a generic symbol. -/
def Basic.isNumberOrSymbol : Basic → Bool
  | .Num _ => true
  | .Symbol _ => true
  | _ => false

mutual
/-- Expressions built from node kinds that Find supports: every node that the traversal can
visit is of a kind with a rule, and the operand of a matrix-derivative is a matrix symbol. -/
def Basic.isFindSupported : Basic → Bool
  | .Symbol _ => true
  | .Perturbation _ => true
  | .Num _ => true
  | .Constant _ => true
  | .Add _ dict => Basic.isFindSupportedAdd dict
  | .Mul _ dict => Basic.isFindSupportedMul dict
  | .Pow _ _ => false
  | .NonElecFunction _ _ _ => true
  | .TwoElecEnergy _ inner outer _ _ => Basic.isFindSupported inner && Basic.isFindSupported outer
  | .CompositeFunction _ inner _ => Basic.isFindSupported inner
  | .ExchCorrEnergy _ _ energy => Basic.isFindSupported energy
  | .FunctionSymbol _ _ => false
  | .ZeroMatrix _ _ => true
  | .LagMultiplier _ _ => true
  | .ElectronicState _ _ => false
  | .OneElecDensity _ _ => true
  | .OneElecOperator _ _ _ => true
  | .TwoElecOperator _ state _ _ => Basic.isFindSupported state
  | .ExchCorrPotential _ _ potential => Basic.isFindSupported potential
  | .TemporumOperator target _ => Basic.isFindSupported target
  | .TemporumOverlap _ _ => true
  | .ZeroOperator => true
  | .MatrixSymbol _ => false
  | .Trace arg => Basic.isFindSupported arg
  | .ConjugateMatrix arg => Basic.isFindSupported arg
  | .Transpose arg => Basic.isFindSupported arg
  | .MatrixAdd args => Basic.isFindSupportedArgs args
  | .MatrixMul args => Basic.isFindSupportedArgs args
  | .MatrixDerivative arg _ => arg.isMatrixSymbol
  | .Other _ _ => false
termination_by structural x => x
/-- Every term of the dictionary of a sum is built from node kinds that Find supports. -/
def Basic.isFindSupportedAdd : List (Basic × Number) → Bool
  | [] => true
  | (t, _) :: rest => Basic.isFindSupported t && Basic.isFindSupportedAdd rest
termination_by structural x => x
/-- Every base and exponent of the dictionary of a product is built from node kinds that Find
supports. -/
def Basic.isFindSupportedMul : List (Basic × Basic) → Bool
  | [] => true
  | (b, e) :: rest =>
    Basic.isFindSupported b && Basic.isFindSupported e && Basic.isFindSupportedMul rest
termination_by structural x => x
/-- Every operand of the list is built from node kinds that Find supports. -/
def Basic.isFindSupportedArgs : List Basic → Bool
  | [] => true
  | arg :: rest => Basic.isFindSupported arg && Basic.isFindSupportedArgs rest
termination_by structural x => x
end

/-- The outcome of a Find traversal is a result set that is empty or the singleton of `t`. -/
def FindAllVisitor.atMost (t : Basic) (out : Except Fault (List Basic)) : Prop :=
  ∃ result, out = .ok result ∧ (result = [] ∨ result = [t])

/-- The sum `2 + 2 x + y` of two leaf symbols with the coefficient 2. -/
def sample.two_sum : Basic :=
  .Add (.Integer 2) [(sample.x, .Integer 2), (sample.y, one)]

/-- The merge `result_.insert(result.begin(), result.end())` of a set of found nodes into a
result set. -/
def set_union (result found : List Basic) : List Basic :=
  found.foldl set_insert result

/-- The merge of the outcome of a search into a result set; a fault is passed on. -/
def FindAllVisitor.merge (result : List Basic) (out : Except Fault (List Basic)) :
    Except Fault (List Basic) :=
  match out with
  | .error f => .error f
  | .ok found => .ok (set_union result found)

/-- The procedure that the specification gives for the pairs of a sum, in the order of its
words: for each term and multiplier, test the pair as a singleton sum (skip the children on a
match), else test the multiplier alone (skip on a match), else recurse into the term with
`find_all` and merge. -/
def spec_find_pairs (alg : Algebra) :
    List (Basic × Number) → Basic → List Basic → Except Fault (List Basic)
  | [], _, result => .ok result
  | (term, c) :: rest, t, result =>
    if find_equivalence t (alg.add_from_dict zero [(term, c)])
    then spec_find_pairs alg rest t (set_insert result (alg.add_from_dict zero [(term, c)]))
    else if find_equivalence t (.Num c)
    then spec_find_pairs alg rest t (set_insert result (.Num c))
    else
      match find_all alg term t with
      | .error f => .error f
      | .ok found => spec_find_pairs alg rest t (set_union result found)

/-- The procedure that the specification gives for a sum: the singleton of the sum if the whole
node matches the target; otherwise the coefficient if it matches, together with what the pairs
give. -/
def spec_find_sum (alg : Algebra) (coef : Number) (dict : List (Basic × Number)) (t : Basic) :
    Except Fault (List Basic) :=
  if find_equivalence t (.Add coef dict) then .ok [.Add coef dict]
  else spec_find_pairs alg dict t (if find_equivalence t (.Num coef) then [.Num coef] else [])

/-- The sum `2 + x^y`, whose term is a power. -/
def sample.two_plus_power : Basic :=
  .Add (.Integer 2) [(.Pow sample.x sample.y, one)]

/-! ## The one-operand helper of Keep -/

/-- The helper `KeepVisitor::keep_if_one_arg_f` of `KeepVisitor.hpp` for a wrapper `x` with the
operand `arg`: the member `result_` after the call, given its value `r` before, or the fault
raised. If the predicate holds for `x` the operand is kept recursively: a null result makes
`result_` null, a result equal to the operand makes it `x`, any other result is wrapped by the
constructor; if the predicate does not hold `result_` is `x`. -/
def KeepVisitor.keep_if_one_arg_f (alg : Algebra) (symbols : List Basic) (x arg : Basic)
    (constructor : Basic → Basic) (r : Option Basic) : Except Fault (Option Basic) :=
  if is_not_equal symbols x then
    match KeepVisitor.apply alg symbols arg r with
    | .error f => .error f
    | .ok none => .ok none
    | .ok (some new_arg) =>
      if Basic.eq arg new_arg then .ok (some x) else .ok (some (constructor new_arg))
  else .ok (some x)

/-! ## Notions used to state what Remove leaves unchanged -/

mutual
/-- Expressions for which the Remove traversal has a rule with a body at every node that it
visits: the kinds without a rule, and the exchange-correlation energy and potential, whose rules
are empty, are left out; a matrix sum or product has at least one operand. The operand of a
conjugate, of a transpose and of a matrix-derivative is not visited. -/
def Basic.isRemoveSupported : Basic → Bool
  | .Symbol _ => true
  | .Perturbation _ => true
  | .Num _ => true
  | .Constant _ => true
  | .Add _ dict => Basic.isRemoveSupportedAdd dict
  | .Mul _ dict => Basic.isRemoveSupportedMul dict
  | .Pow _ _ => false
  | .NonElecFunction _ _ _ => true
  | .TwoElecEnergy _ _ _ _ _ => false
  | .CompositeFunction _ _ _ => false
  | .ExchCorrEnergy _ _ _ => false
  | .FunctionSymbol _ _ => false
  | .ZeroMatrix _ _ => true
  | .LagMultiplier _ _ => false
  | .ElectronicState _ _ => false
  | .OneElecDensity _ _ => true
  | .OneElecOperator _ _ _ => true
  | .TwoElecOperator _ state _ _ => Basic.isRemoveSupported state
  | .ExchCorrPotential _ _ _ => false
  | .TemporumOperator target _ => Basic.isRemoveSupported target
  | .TemporumOverlap _ _ => true
  | .ZeroOperator => false
  | .MatrixSymbol _ => false
  | .Trace arg => Basic.isRemoveSupported arg
  | .ConjugateMatrix _ => true
  | .Transpose _ => true
  | .MatrixAdd args => !args.isEmpty && Basic.isRemoveSupportedArgs args
  | .MatrixMul args => !args.isEmpty && Basic.isRemoveSupportedArgs args
  | .MatrixDerivative _ _ => true
  | .Other _ _ => false
termination_by structural x => x
/-- Every term of the dictionary of a sum is supported by Remove. -/
def Basic.isRemoveSupportedAdd : List (Basic × Number) → Bool
  | [] => true
  | (t, _) :: rest => Basic.isRemoveSupported t && Basic.isRemoveSupportedAdd rest
termination_by structural x => x
/-- Every base and exponent of the dictionary of a product is supported by Remove. -/
def Basic.isRemoveSupportedMul : List (Basic × Basic) → Bool
  | [] => true
  | (b, e) :: rest =>
    Basic.isRemoveSupported b && Basic.isRemoveSupported e && Basic.isRemoveSupportedMul rest
termination_by structural x => x
/-- Every operand of the list is supported by Remove. -/
def Basic.isRemoveSupportedArgs : List Basic → Bool
  | [] => true
  | arg :: rest => Basic.isRemoveSupported arg && Basic.isRemoveSupportedArgs rest
termination_by structural x => x
end

mutual
/-- The nodes, coefficients, multipliers and pairs to which the Remove traversal of an
expression applies the predicate when no test succeeds: the node itself for the kinds whose
rule tests it, the coefficient of a sum or product, each pair of a sum as a singleton sum and
its multiplier, each pair of a product as a power, and what the visits of the operands
test. -/
def RemoveVisitor.tested (alg : Algebra) : Basic → List Basic
  | .Symbol n => [.Symbol n]
  | .Perturbation p => [.Perturbation p]
  | .Num n => [.Num n]
  | .Constant n => [.Constant n]
  | .Add coef dict => .Add coef dict :: .Num coef :: RemoveVisitor.testedAdd alg dict
  | .Mul coef dict => .Mul coef dict :: .Num coef :: RemoveVisitor.testedMul alg dict
  | .Pow _ _ => []
  | .NonElecFunction n dep der => [.NonElecFunction n dep der]
  | .TwoElecEnergy _ _ _ _ _ => []
  | .CompositeFunction _ _ _ => []
  | .ExchCorrEnergy _ _ _ => []
  | .FunctionSymbol _ _ => []
  | .ZeroMatrix m n => [.ZeroMatrix m n]
  | .LagMultiplier _ _ => []
  | .ElectronicState _ _ => []
  | .OneElecDensity n der => [.OneElecDensity n der]
  | .OneElecOperator n dep der => [.OneElecOperator n dep der]
  | .TwoElecOperator n state dep der =>
    .TwoElecOperator n state dep der :: RemoveVisitor.tested alg state
  | .ExchCorrPotential _ _ _ => []
  | .TemporumOperator target ty => .TemporumOperator target ty :: RemoveVisitor.tested alg target
  | .TemporumOverlap dep der => [.TemporumOverlap dep der]
  | .ZeroOperator => []
  | .MatrixSymbol _ => []
  | .Trace arg => .Trace arg :: RemoveVisitor.tested alg arg
  | .ConjugateMatrix arg => [.ConjugateMatrix arg]
  | .Transpose arg => [.Transpose arg]
  | .MatrixAdd args => .MatrixAdd args :: RemoveVisitor.testedArgs alg args
  | .MatrixMul args => .MatrixMul args :: RemoveVisitor.testedArgs alg args
  | .MatrixDerivative arg der => [.MatrixDerivative arg der]
  | .Other _ _ => []
termination_by structural x => x
/-- What the loop of the sum rule of Remove tests. -/
def RemoveVisitor.testedAdd (alg : Algebra) : List (Basic × Number) → List Basic
  | [] => []
  | (t, c) :: rest =>
    alg.add_from_dict zero [(t, c)] ::
      (RemoveVisitor.tested alg t ++ .Num c :: RemoveVisitor.testedAdd alg rest)
termination_by structural x => x
/-- What the loop of the product rule of Remove tests. -/
def RemoveVisitor.testedMul (alg : Algebra) : List (Basic × Basic) → List Basic
  | [] => []
  | (b, e) :: rest =>
    .Pow b e ::
      (RemoveVisitor.tested alg b ++ RemoveVisitor.tested alg e
        ++ RemoveVisitor.testedMul alg rest)
termination_by structural x => x
/-- What the loops of the matrix-sum and matrix-product rules of Remove test. -/
def RemoveVisitor.testedArgs (alg : Algebra) : List Basic → List Basic
  | [] => []
  | arg :: rest => RemoveVisitor.tested alg arg ++ RemoveVisitor.testedArgs alg rest
termination_by structural x => x
end

mutual
/-- The expression that the Remove traversal builds when no test succeeds: every sum, product,
matrix sum and matrix product is made again by the constructors of the algebra from its
rebuilt parts, and every other node is returned as it is. -/
def RemoveVisitor.rebuilt (alg : Algebra) : Basic → Basic
  | .Add coef dict =>
    alg.add_from_dict (RemoveVisitor.rebuiltAdd alg dict (coef, [])).1
      (RemoveVisitor.rebuiltAdd alg dict (coef, [])).2
  | .Mul coef dict =>
    alg.mul_from_dict (RemoveVisitor.rebuiltMul alg dict (coef, [])).1
      (RemoveVisitor.rebuiltMul alg dict (coef, [])).2
  | .TwoElecOperator n state dep der =>
    .TwoElecOperator n (RemoveVisitor.rebuilt alg state) dep der
  | .TemporumOperator target ty => .TemporumOperator (RemoveVisitor.rebuilt alg target) ty
  | .Trace arg => .Trace (RemoveVisitor.rebuilt alg arg)
  | .MatrixAdd args => alg.matrix_add (RemoveVisitor.rebuiltArgs alg args)
  | .MatrixMul args => alg.matrix_mul (RemoveVisitor.rebuiltArgs alg args)
  | .Symbol n => .Symbol n
  | .Perturbation p => .Perturbation p
  | .Num n => .Num n
  | .Constant n => .Constant n
  | .Pow b e => .Pow b e
  | .NonElecFunction n dep der => .NonElecFunction n dep der
  | .TwoElecEnergy n i o dep der => .TwoElecEnergy n i o dep der
  | .CompositeFunction n i k => .CompositeFunction n i k
  | .ExchCorrEnergy n a e => .ExchCorrEnergy n a e
  | .FunctionSymbol n a => .FunctionSymbol n a
  | .ZeroMatrix m n => .ZeroMatrix m n
  | .LagMultiplier n der => .LagMultiplier n der
  | .ElectronicState n der => .ElectronicState n der
  | .OneElecDensity n der => .OneElecDensity n der
  | .OneElecOperator n dep der => .OneElecOperator n dep der
  | .ExchCorrPotential n a p => .ExchCorrPotential n a p
  | .TemporumOverlap dep der => .TemporumOverlap dep der
  | .ZeroOperator => .ZeroOperator
  | .MatrixSymbol n => .MatrixSymbol n
  | .ConjugateMatrix arg => .ConjugateMatrix arg
  | .Transpose arg => .Transpose arg
  | .MatrixDerivative arg der => .MatrixDerivative arg der
  | .Other k a => .Other k a
termination_by structural x => x
/-- The coefficient and dictionary that the loop of the sum rule builds from the rebuilt
terms. -/
def RemoveVisitor.rebuiltAdd (alg : Algebra) :
    List (Basic × Number) → Number × List (Basic × Number) → Number × List (Basic × Number)
  | [], acc => acc
  | (t, c) :: rest, acc =>
    RemoveVisitor.rebuiltAdd alg rest
      (alg.coef_dict_add_term acc c (RemoveVisitor.rebuilt alg t))
termination_by structural x => x
/-- The coefficient and dictionary that the loop of the product rule builds from the rebuilt
bases and exponents. -/
def RemoveVisitor.rebuiltMul (alg : Algebra) :
    List (Basic × Basic) → Number × List (Basic × Basic) → Number × List (Basic × Basic)
  | [], acc => acc
  | (b, e) :: rest, acc =>
    RemoveVisitor.rebuiltMul alg rest
      (alg.dict_add_term_new acc (RemoveVisitor.rebuilt alg e) (RemoveVisitor.rebuilt alg b))
termination_by structural x => x
/-- The rebuilt operands of a matrix sum or product. -/
def RemoveVisitor.rebuiltArgs (alg : Algebra) : List Basic → List Basic
  | [] => []
  | arg :: rest => RemoveVisitor.rebuilt alg arg :: RemoveVisitor.rebuiltArgs alg rest
termination_by structural x => x
end

/-- The exchange-correlation potential `Vxc` of the density `D`. -/
def sample.Vxc : Basic := .ExchCorrPotential "Vxc" [sample.D] sample.D
/-- The matrix sum of the trace of `D V` and of the time derivative of `D`. -/
def sample.trace_sum : Basic :=
  .MatrixAdd [.Trace (.MatrixMul [sample.D, sample.V]), .TemporumOperator sample.D .Ket]

/-! ## Derivative multisets of electronic states -/

/-- The elements of a `SymEngine::multiset_basic` after the insertion of `p`: the container
keeps its elements in the order of its key comparison `le` (`RCPBasicKeyLess`, a total order
under which two tags are equivalent exactly when they are equal), which is a parameter. -/
def multiset_basic.insert (le : Perturbation → Perturbation → Prop) [DecidableRel le]
    (p : Perturbation) (stored : PertMultichain) : PertMultichain :=
  List.orderedInsert le p stored

/-- The elements of the `SymEngine::multiset_basic` that holds the given tags, inserted one
after the other; it is the member `derivative_` of the state
`ElectronicState(name, derivative)`. -/
def multiset_basic.from_tags (le : Perturbation → Perturbation → Prop) [DecidableRel le]
    (tags : List Perturbation) : PertMultichain :=
  tags.foldl (fun stored p => multiset_basic.insert le p stored) []

/-- A key of a number for the key comparison of the sample inputs. -/
def Number.key : Number → List Int
  | .Integer v => [0, v]
  | .Rational n d => [1, n, d]
  | .Complex a b c d => [2, a, b, c, d]

/-- A key of a perturbation for the key comparison of the sample inputs: the name, then the
frequency, then the components. -/
def Perturbation.key (p : Perturbation) : Lex (String × Lex (List Int × List Nat)) :=
  toLex (p.name, toLex (p.frequency.key, p.components))

/-- A key comparison for the sample inputs: the lexicographic order of the keys. -/
def Perturbation.le (p q : Perturbation) : Prop := p.key ≤ q.key

instance Perturbation.decidableLe : DecidableRel Perturbation.le :=
  fun p q => inferInstanceAs (Decidable (p.key ≤ q.key))

/-- Perturbation `a` with zero frequency. -/
def sample.pert_a : Perturbation := ⟨"a", zero, []⟩
/-- Perturbation `b` with zero frequency. -/
def sample.pert_b : Perturbation := ⟨"b", zero, []⟩

/-- The exchange-correlation energy functional and potential operator, the two kinds whose
rules in `RemoveVisitor` and `KeepVisitor` have an empty body. -/
def Basic.isExchCorr : Basic → Bool
  | .ExchCorrEnergy _ _ _ => true
  | .ExchCorrPotential _ _ _ => true
  | _ => false

/-- The exchange-correlation energy functional `Exc` of the density `D`. -/
def sample.Exc : Basic := .ExchCorrEnergy "Exc" [sample.D] sample.x
/-- The Lagrangian multiplier `lambda`. -/
def sample.lambda : Basic := .LagMultiplier "lambda" []
/-- The product node with the pairs `(y, 1)` and `(P, 1)`, where `P` is the product node with
the single pair `(x, 1)`. -/
def sample.unit_power : Basic := .Mul one [(sample.y, .Num one), (sample.single, .Num one)]

/-! ## Notions used to state the properties of the sum rules of Keep -/

/-- Function `h` without electronic dependence, a scalar leaf. -/
def sample.h : Basic := .NonElecFunction "h" [] []
/-- Kinds for which `RemoveVisitor` and `KeepVisitor` have no rule: the kinds for which no
traversal has one (`Basic.isUnclassified`) and the two-electron energy, the composite function,
the Lagrangian multiplier and the zero operator, which only Find classifies. -/
def Basic.hasNoRemoveRule : Basic → Bool
  | .Pow _ _ => true
  | .TwoElecEnergy _ _ _ _ _ => true
  | .CompositeFunction _ _ _ => true
  | .FunctionSymbol _ _ => true
  | .LagMultiplier _ _ => true
  | .ElectronicState _ _ => true
  | .ZeroOperator => true
  | .MatrixSymbol _ => true
  | .Other _ _ => true
  | _ => false

mutual
/-- The nodes that `RemoveVisitor::apply(x)` visits when `result_` is `r` before the call: the
node `x` and the nodes that the rule of `x` visits. A rule goes into its operands only if the
predicate does not hold for the node (for a conjugate and a transpose, only if it holds); the
operand of a matrix-derivative is not visited. -/
def RemoveVisitor.visited (alg : Algebra) (cond : Basic → Bool) :
    Basic → Option Basic → List Basic
  | .Add coef dict, r =>
    .Add coef dict ::
      (if cond (.Add coef dict) then [] else RemoveVisitor.visitedAdd alg cond dict r)
  | .Mul coef dict, r =>
    .Mul coef dict ::
      (if cond (.Mul coef dict) then []
       else if cond (.Num coef) then []
       else RemoveVisitor.visitedMul alg cond dict r)
  | .TwoElecOperator n state dep der, r =>
    .TwoElecOperator n state dep der ::
      (if cond (.TwoElecOperator n state dep der) then []
       else RemoveVisitor.visited alg cond state r)
  | .TemporumOperator target ty, r =>
    .TemporumOperator target ty ::
      (if cond (.TemporumOperator target ty) then []
       else RemoveVisitor.visited alg cond target r)
  | .Trace arg, r =>
    .Trace arg :: (if cond (.Trace arg) then [] else RemoveVisitor.visited alg cond arg r)
  | .ConjugateMatrix arg, r =>
    .ConjugateMatrix arg ::
      (if cond (.ConjugateMatrix arg) then RemoveVisitor.visited alg cond arg r else [])
  | .Transpose arg, r =>
    .Transpose arg ::
      (if cond (.Transpose arg) then RemoveVisitor.visited alg cond arg r else [])
  | .MatrixAdd args, r =>
    .MatrixAdd args ::
      (if cond (.MatrixAdd args) then [] else RemoveVisitor.visitedMatrixAdd alg cond args r)
  | .MatrixMul args, r =>
    .MatrixMul args ::
      (if cond (.MatrixMul args) then [] else RemoveVisitor.visitedMatrixMul alg cond args r)
  | .Symbol n, _ => [.Symbol n]
  | .Perturbation p, _ => [.Perturbation p]
  | .Num n, _ => [.Num n]
  | .Constant n, _ => [.Constant n]
  | .Pow b e, _ => [.Pow b e]
  | .NonElecFunction n dep der, _ => [.NonElecFunction n dep der]
  | .TwoElecEnergy n i o dep der, _ => [.TwoElecEnergy n i o dep der]
  | .CompositeFunction n i k, _ => [.CompositeFunction n i k]
  | .ExchCorrEnergy n a e, _ => [.ExchCorrEnergy n a e]
  | .FunctionSymbol n a, _ => [.FunctionSymbol n a]
  | .ZeroMatrix m n, _ => [.ZeroMatrix m n]
  | .LagMultiplier n der, _ => [.LagMultiplier n der]
  | .ElectronicState n der, _ => [.ElectronicState n der]
  | .OneElecDensity n der, _ => [.OneElecDensity n der]
  | .OneElecOperator n dep der, _ => [.OneElecOperator n dep der]
  | .ExchCorrPotential n a p, _ => [.ExchCorrPotential n a p]
  | .TemporumOverlap dep der, _ => [.TemporumOverlap dep der]
  | .ZeroOperator, _ => [.ZeroOperator]
  | .MatrixSymbol n, _ => [.MatrixSymbol n]
  | .MatrixDerivative arg der, _ => [.MatrixDerivative arg der]
  | .Other k a, _ => [.Other k a]
termination_by structural x => x
/-- The nodes that the loop of `RemoveVisitor::bvisit(const Add&)` visits: the terms of the
pairs that the predicate does not match as a singleton sum, up to a fault. -/
def RemoveVisitor.visitedAdd (alg : Algebra) (cond : Basic → Bool) :
    List (Basic × Number) → Option Basic → List Basic
  | [], _ => []
  | (t, c) :: rest, r =>
    if cond (alg.add_from_dict zero [(t, c)]) then RemoveVisitor.visitedAdd alg cond rest r
    else
      RemoveVisitor.visited alg cond t r ++
        (match RemoveVisitor.apply alg cond t r with
         | .error _ => []
         | .ok new_key => RemoveVisitor.visitedAdd alg cond rest new_key)
termination_by structural x => x
/-- The nodes that the loop of `RemoveVisitor::bvisit(const Mul&)` visits: the base of a pair
and, if the base survives, its exponent, up to a pair that the predicate matches as a unit, a
removed base or a fault. -/
def RemoveVisitor.visitedMul (alg : Algebra) (cond : Basic → Bool) :
    List (Basic × Basic) → Option Basic → List Basic
  | [], _ => []
  | (b, e) :: rest, r =>
    if cond (.Pow b e) then []
    else
      RemoveVisitor.visited alg cond b r ++
        (match RemoveVisitor.apply alg cond b r with
         | .ok (some new_key) =>
           RemoveVisitor.visited alg cond e (some new_key) ++
             (match RemoveVisitor.apply alg cond e (some new_key) with
              | .ok (some new_value) => RemoveVisitor.visitedMul alg cond rest (some new_value)
              | _ => [])
         | _ => [])
termination_by structural x => x
/-- The nodes that the loop of `RemoveVisitor::bvisit(const MatrixAdd&)` visits: every
operand, up to a fault. -/
def RemoveVisitor.visitedMatrixAdd (alg : Algebra) (cond : Basic → Bool) :
    List Basic → Option Basic → List Basic
  | [], _ => []
  | arg :: rest, r =>
    RemoveVisitor.visited alg cond arg r ++
      (match RemoveVisitor.apply alg cond arg r with
       | .error _ => []
       | .ok new_arg => RemoveVisitor.visitedMatrixAdd alg cond rest new_arg)
termination_by structural x => x
/-- The nodes that the loop of `RemoveVisitor::bvisit(const MatrixMul&)` visits: the operands
up to a removed operand or a fault. -/
def RemoveVisitor.visitedMatrixMul (alg : Algebra) (cond : Basic → Bool) :
    List Basic → Option Basic → List Basic
  | [], _ => []
  | arg :: rest, r =>
    RemoveVisitor.visited alg cond arg r ++
      (match RemoveVisitor.apply alg cond arg r with
       | .ok (some new_arg) => RemoveVisitor.visitedMatrixMul alg cond rest (some new_arg)
       | _ => [])
termination_by structural x => x
end
mutual
/-- The nodes that `FindAllVisitor::apply(x)` of a visitor for the target `symbol` visits when
`result_` is `result` before the call, the visits of the new visitors that the wrapper rules
start for the wrapped operand of the target included: the node `x` and the nodes that its rule
visits. A rule does not go into the operands of a node that matches the target as a whole; the
operand of a matrix-derivative is not visited. -/
def FindAllVisitor.visited (alg : Algebra) : Basic → Basic → List Basic → List Basic
  | .Add coef dict, symbol, result =>
    .Add coef dict ::
      (if find_equivalence symbol (.Add coef dict) then []
       else if find_equivalence symbol (.Num coef) then []
       else FindAllVisitor.visitedAdd alg dict symbol result)
  | .Mul coef dict, symbol, result =>
    .Mul coef dict ::
      (if find_equivalence symbol (.Mul coef dict) then []
       else if find_equivalence symbol (.Num coef) then []
       else FindAllVisitor.visitedMul alg dict symbol result)
  | .TwoElecEnergy n inner outer dep der, symbol, result =>
    .TwoElecEnergy n inner outer dep der ::
      (if find_with_dependencies symbol (.TwoElecEnergy n inner outer dep der) then []
       else
        FindAllVisitor.visited alg inner symbol result ++
          (match FindAllVisitor.apply alg inner symbol result with
           | .error _ => []
           | .ok result1 => FindAllVisitor.visited alg outer symbol result1))
  | .CompositeFunction n inner k, symbol, result =>
    .CompositeFunction n inner k ::
      (if (match symbol with
          | .CompositeFunction m inner2 _ => decide (n = m) && Basic.eq inner inner2
          | _ => false)
       then [] else FindAllVisitor.visited alg inner symbol result)
  | .ExchCorrEnergy n args energy, symbol, result =>
    .ExchCorrEnergy n args energy ::
      (if (match symbol with
          | .ExchCorrEnergy m args2 _ => decide (n = m) && Basic.eqArgs args args2
          | _ => false)
       then [] else FindAllVisitor.visited alg energy symbol result)
  | .TwoElecOperator n state dep der, symbol, result =>
    .TwoElecOperator n state dep der ::
      (if find_with_dependencies symbol (.TwoElecOperator n state dep der) then []
       else FindAllVisitor.visited alg state symbol result)
  | .ExchCorrPotential n args potential, symbol, result =>
    .ExchCorrPotential n args potential ::
      (if (match symbol with
          | .ExchCorrPotential m args2 _ => decide (n = m) && Basic.eqArgs args args2
          | _ => false)
       then [] else FindAllVisitor.visited alg potential symbol result)
  | .TemporumOperator target ty, symbol, result =>
    .TemporumOperator target ty ::
      (match symbol with
       | .TemporumOperator target2 _ => FindAllVisitor.visited alg target target2 []
       | _ => FindAllVisitor.visited alg target symbol result)
  | .Trace arg, symbol, result =>
    .Trace arg ::
      (match symbol with
       | .Trace arg2 => FindAllVisitor.visited alg arg arg2 []
       | _ => FindAllVisitor.visited alg arg symbol result)
  | .ConjugateMatrix arg, symbol, result =>
    .ConjugateMatrix arg ::
      (match symbol with
       | .ConjugateMatrix arg2 => FindAllVisitor.visited alg arg arg2 []
       | _ => FindAllVisitor.visited alg arg symbol result)
  | .Transpose arg, symbol, result =>
    .Transpose arg ::
      (match symbol with
       | .Transpose arg2 => FindAllVisitor.visited alg arg arg2 []
       | _ => FindAllVisitor.visited alg arg symbol result)
  | .MatrixAdd args, symbol, result =>
    .MatrixAdd args ::
      (if find_equivalence symbol (.MatrixAdd args) then []
       else FindAllVisitor.visitedArgs alg args symbol result)
  | .MatrixMul args, symbol, result =>
    .MatrixMul args ::
      (if find_equivalence symbol (.MatrixMul args) then []
       else FindAllVisitor.visitedArgs alg args symbol result)
  | .Symbol n, _, _ => [.Symbol n]
  | .Perturbation p, _, _ => [.Perturbation p]
  | .Num n, _, _ => [.Num n]
  | .Constant n, _, _ => [.Constant n]
  | .Pow b e, _, _ => [.Pow b e]
  | .NonElecFunction n dep der, _, _ => [.NonElecFunction n dep der]
  | .FunctionSymbol n a, _, _ => [.FunctionSymbol n a]
  | .ZeroMatrix m n, _, _ => [.ZeroMatrix m n]
  | .LagMultiplier n der, _, _ => [.LagMultiplier n der]
  | .ElectronicState n der, _, _ => [.ElectronicState n der]
  | .OneElecDensity n der, _, _ => [.OneElecDensity n der]
  | .OneElecOperator n dep der, _, _ => [.OneElecOperator n dep der]
  | .TemporumOverlap dep der, _, _ => [.TemporumOverlap dep der]
  | .ZeroOperator, _, _ => [.ZeroOperator]
  | .MatrixSymbol n, _, _ => [.MatrixSymbol n]
  | .MatrixDerivative arg der, _, _ => [.MatrixDerivative arg der]
  | .Other k a, _, _ => [.Other k a]
termination_by structural x => x
/-- The nodes that the loop of `FindAllVisitor::bvisit(const Add&)` visits: the terms of the
pairs that do not match the target by their multiplier or as a singleton sum, up to a fault. -/
def FindAllVisitor.visitedAdd (alg : Algebra) :
    List (Basic × Number) → Basic → List Basic → List Basic
  | [], _, _ => []
  | (t, c) :: rest, symbol, result =>
    if find_equivalence symbol (.Num c)
    then FindAllVisitor.visitedAdd alg rest symbol (set_insert result (.Num c))
    else if find_equivalence symbol (alg.add_from_dict zero [(t, c)])
    then FindAllVisitor.visitedAdd alg rest symbol
      (set_insert result (alg.add_from_dict zero [(t, c)]))
    else
      FindAllVisitor.visited alg t symbol result ++
        (match FindAllVisitor.apply alg t symbol result with
         | .error _ => []
         | .ok result1 => FindAllVisitor.visitedAdd alg rest symbol result1)
termination_by structural x => x
/-- The nodes that the loop of `FindAllVisitor::bvisit(const Mul&)` visits: the base and the
exponent of the pairs that do not match the target as a unit, up to a fault. -/
def FindAllVisitor.visitedMul (alg : Algebra) :
    List (Basic × Basic) → Basic → List Basic → List Basic
  | [], _, _ => []
  | (b, e) :: rest, symbol, result =>
    if find_equivalence symbol (.Pow b e)
    then FindAllVisitor.visitedMul alg rest symbol (set_insert result (.Pow b e))
    else
      FindAllVisitor.visited alg b symbol result ++
        (match FindAllVisitor.apply alg b symbol result with
         | .error _ => []
         | .ok result1 =>
           FindAllVisitor.visited alg e symbol result1 ++
             (match FindAllVisitor.apply alg e symbol result1 with
              | .error _ => []
              | .ok result2 => FindAllVisitor.visitedMul alg rest symbol result2))
termination_by structural x => x
/-- The nodes that the loop of `FindAllVisitor::bvisit` for `MatrixAdd` and `MatrixMul`
visits: every operand, up to a fault. -/
def FindAllVisitor.visitedArgs (alg : Algebra) :
    List Basic → Basic → List Basic → List Basic
  | [], _, _ => []
  | arg :: rest, symbol, result =>
    FindAllVisitor.visited alg arg symbol result ++
      (match FindAllVisitor.apply alg arg symbol result with
       | .error _ => []
       | .ok result1 => FindAllVisitor.visitedArgs alg rest symbol result1)
termination_by structural x => x
end
mutual
/-- The nodes that `x->accept(*this)` visits for a `KeepVisitor` when `result_` is `r` before
the call: the node `x` and the nodes that its rule visits through `KeepVisitor::apply`, which
visits a node only if it is structurally equal to no member of the symbol set. The coefficient
of a product goes through `apply` too. -/
def KeepVisitor.visited (alg : Algebra) (symbols : List Basic) :
    Basic → Option Basic → List Basic
  | .Add coef dict, r => .Add coef dict :: KeepVisitor.visitedAdd alg symbols dict r
  | .Mul coef dict, _ =>
    .Mul coef dict ::
      (if is_not_equal symbols (.Mul coef dict) then
        (if is_not_equal symbols (.Num coef) then [.Num coef] else []) ++
          (match KeepVisitor.applyNumber symbols coef with
           | .error _ => []
           | .ok none => KeepVisitor.visitedMul alg symbols dict none
           | .ok (some new_coef) =>
             if Basic.eq (.Num coef) new_coef then []
             else KeepVisitor.visitedMul alg symbols dict (some new_coef))
       else [])
  | .TwoElecOperator n state dep der, r =>
    .TwoElecOperator n state dep der ::
      (if is_not_equal symbols (.TwoElecOperator n state dep der) then
        (if is_not_equal symbols state then KeepVisitor.visited alg symbols state r else [])
       else [])
  | .TemporumOperator target ty, r =>
    .TemporumOperator target ty ::
      (if is_not_equal symbols (.TemporumOperator target ty) then
        (if is_not_equal symbols target then KeepVisitor.visited alg symbols target r else [])
       else [])
  | .Trace arg, r =>
    .Trace arg ::
      (if is_not_equal symbols (.Trace arg) then
        (if is_not_equal symbols arg then KeepVisitor.visited alg symbols arg r else [])
       else [])
  | .ConjugateMatrix arg, r =>
    .ConjugateMatrix arg ::
      (if is_not_equal symbols (.ConjugateMatrix arg) then
        (if is_not_equal symbols arg then KeepVisitor.visited alg symbols arg r else [])
       else [])
  | .Transpose arg, r =>
    .Transpose arg ::
      (if is_not_equal symbols (.Transpose arg) then
        (if is_not_equal symbols arg then KeepVisitor.visited alg symbols arg r else [])
       else [])
  | .MatrixAdd args, r => .MatrixAdd args :: KeepVisitor.visitedMatrixAdd alg symbols args r
  | .MatrixMul args, r =>
    .MatrixMul args ::
      (if is_not_equal symbols (.MatrixMul args)
       then KeepVisitor.visitedMatrixMul alg symbols args r else [])
  | .Symbol n, _ => [.Symbol n]
  | .Perturbation p, _ => [.Perturbation p]
  | .Num n, _ => [.Num n]
  | .Constant n, _ => [.Constant n]
  | .Pow b e, _ => [.Pow b e]
  | .NonElecFunction n dep der, _ => [.NonElecFunction n dep der]
  | .TwoElecEnergy n inner outer dep der, _ => [.TwoElecEnergy n inner outer dep der]
  | .CompositeFunction n inner k, _ => [.CompositeFunction n inner k]
  | .ExchCorrEnergy n args energy, _ => [.ExchCorrEnergy n args energy]
  | .FunctionSymbol n args, _ => [.FunctionSymbol n args]
  | .ZeroMatrix m n, _ => [.ZeroMatrix m n]
  | .LagMultiplier n der, _ => [.LagMultiplier n der]
  | .ElectronicState n der, _ => [.ElectronicState n der]
  | .OneElecDensity n der, _ => [.OneElecDensity n der]
  | .OneElecOperator n dep der, _ => [.OneElecOperator n dep der]
  | .ExchCorrPotential n args potential, _ => [.ExchCorrPotential n args potential]
  | .TemporumOverlap dep der, _ => [.TemporumOverlap dep der]
  | .ZeroOperator, _ => [.ZeroOperator]
  | .MatrixSymbol n, _ => [.MatrixSymbol n]
  | .MatrixDerivative arg der, _ => [.MatrixDerivative arg der]
  | .Other k args, _ => [.Other k args]
termination_by structural x => x
/-- The nodes that the loop of the sum rule of Keep visits: the terms that are not in the
symbol set, up to a fault. -/
def KeepVisitor.visitedAdd (alg : Algebra) (symbols : List Basic) :
    List (Basic × Number) → Option Basic → List Basic
  | [], _ => []
  | (t, _) :: rest, r =>
    (if is_not_equal symbols t then KeepVisitor.visited alg symbols t r else []) ++
      (match KeepVisitor.guarded symbols t (KeepVisitor.bvisit alg symbols t r) with
       | .error _ => []
       | .ok new_key => KeepVisitor.visitedAdd alg symbols rest new_key)
termination_by structural x => x
/-- The nodes that the loop of `KeepVisitor::bvisit(const Mul&)` visits: the base of a pair
and, if the base is kept in part, its exponent, up to a pair or a base that is kept whole or a
fault. -/
def KeepVisitor.visitedMul (alg : Algebra) (symbols : List Basic) :
    List (Basic × Basic) → Option Basic → List Basic
  | [], _ => []
  | (b, e) :: rest, r =>
    if is_not_equal symbols (.Pow b e) then
      (if is_not_equal symbols b then KeepVisitor.visited alg symbols b r else []) ++
        (match KeepVisitor.guarded symbols b (KeepVisitor.bvisit alg symbols b r) with
         | .error _ => []
         | .ok none => KeepVisitor.visitedMul alg symbols rest none
         | .ok (some new_key) =>
           if Basic.eq b new_key then []
           else
             (if is_not_equal symbols e then KeepVisitor.visited alg symbols e (some new_key)
              else []) ++
               (match KeepVisitor.guarded symbols e
                  (KeepVisitor.bvisit alg symbols e (some new_key)) with
                | .ok (some new_value) =>
                  KeepVisitor.visitedMul alg symbols rest (some new_value)
                | _ => []))
    else []
termination_by structural x => x
/-- The nodes that the loop of the matrix-sum rule of Keep visits: the operands that are not in
the symbol set, up to a fault. -/
def KeepVisitor.visitedMatrixAdd (alg : Algebra) (symbols : List Basic) :
    List Basic → Option Basic → List Basic
  | [], _ => []
  | arg :: rest, r =>
    (if is_not_equal symbols arg then KeepVisitor.visited alg symbols arg r else []) ++
      (match KeepVisitor.guarded symbols arg (KeepVisitor.bvisit alg symbols arg r) with
       | .error _ => []
       | .ok new_arg => KeepVisitor.visitedMatrixAdd alg symbols rest new_arg)
termination_by structural x => x
/-- The nodes that the loop of `KeepVisitor::bvisit(const MatrixMul&)` visits: the operands
that are not in the symbol set, up to an operand that is kept whole or a fault. -/
def KeepVisitor.visitedMatrixMul (alg : Algebra) (symbols : List Basic) :
    List Basic → Option Basic → List Basic
  | [], _ => []
  | arg :: rest, r =>
    (if is_not_equal symbols arg then KeepVisitor.visited alg symbols arg r else []) ++
      (match KeepVisitor.guarded symbols arg (KeepVisitor.bvisit alg symbols arg r) with
       | .error _ => []
       | .ok none => KeepVisitor.visitedMatrixMul alg symbols rest none
       | .ok (some new_arg) =>
         if Basic.eq arg new_arg then []
         else KeepVisitor.visitedMatrixMul alg symbols rest (some new_arg))
termination_by structural x => x
end

/-- Kinds whose Remove rule rebuilds the node from its operands: sum, product, two-electron
operator, time-derivative operator, trace, matrix sum and matrix product. -/
def Basic.isRebuilt : Basic → Bool
  | .Add _ _ => true
  | .Mul _ _ => true
  | .TwoElecOperator _ _ _ _ => true
  | .TemporumOperator _ _ => true
  | .Trace _ => true
  | .MatrixAdd _ => true
  | .MatrixMul _ => true
  | _ => false

mutual
/-- Expressions in canonical form as far as the Remove traversal rebuilds them: a product has a
non-zero coefficient and either two pairs at least or one pair and a coefficient other than
one, as the products that `Mul::from_dict` returns; the nodes of the kinds that Remove does not rebuild
satisfy `leaf`. -/
def Basic.isCanonical (leaf : Basic → Bool) : Basic → Bool
  | .Add _ dict => Basic.isCanonicalAdd leaf dict
  | .Mul coef dict =>
    decide (coef ≠ zero) && !dict.isEmpty
      && (decide (2 ≤ dict.length) || decide (coef ≠ one)) && Basic.isCanonicalMul leaf dict
  | .TwoElecOperator _ state _ _ => Basic.isCanonical leaf state
  | .TemporumOperator target _ => Basic.isCanonical leaf target
  | .Trace arg => Basic.isCanonical leaf arg
  | .MatrixAdd args => Basic.isCanonicalArgs leaf args
  | .MatrixMul args => Basic.isCanonicalArgs leaf args
  | x => leaf x
termination_by structural x => x
/-- Every term of the dictionary of a sum is in canonical form. -/
def Basic.isCanonicalAdd (leaf : Basic → Bool) : List (Basic × Number) → Bool
  | [] => true
  | (t, _) :: rest => Basic.isCanonical leaf t && Basic.isCanonicalAdd leaf rest
termination_by structural x => x
/-- Every base and exponent of the dictionary of a product is in canonical form. -/
def Basic.isCanonicalMul (leaf : Basic → Bool) : List (Basic × Basic) → Bool
  | [] => true
  | (b, e) :: rest =>
    Basic.isCanonical leaf b && Basic.isCanonical leaf e && Basic.isCanonicalMul leaf rest
termination_by structural x => x
/-- Every operand of the list is in canonical form. -/
def Basic.isCanonicalArgs (leaf : Basic → Bool) : List Basic → Bool
  | [] => true
  | arg :: rest => Basic.isCanonical leaf arg && Basic.isCanonicalArgs leaf rest
termination_by structural x => x
end

/-- The dictionary of a product after `Mul::dict_add_term_new` in an algebra that merges the
factors of equal base, as SymEngine does: the exponent of a base that is already a key of the
dictionary is increased (two integer exponents are added up, any other two exponents give
their sum); a new base is appended. -/
def mergingAlgebra.merge (e t : Basic) : List (Basic × Basic) → List (Basic × Basic)
  | [] => [(t, e)]
  | (t0, e0) :: rest =>
    if Basic.eq t0 t then
      (match e0, e with
       | .Num (.Integer k), .Num (.Integer m) => (t0, .Num (.Integer (k + m))) :: rest
       | _, _ => (t0, .Add zero [(e0, one), (e, one)]) :: rest)
    else (t0, e0) :: mergingAlgebra.merge e t rest

/-- The algebra without simplification but for the factors of a product: a factor whose base is
already in the dictionary is merged into the factor of that base. -/
def mergingAlgebra : Algebra where
  add_from_dict := freeAlgebra.add_from_dict
  coef_dict_add_term := fun acc c t => (acc.1, acc.2 ++ [(t, c)])
  mul_from_dict := freeAlgebra.mul_from_dict
  dict_add_term_new := fun acc e t => (acc.1, mergingAlgebra.merge e t acc.2)
  matrix_add := freeAlgebra.matrix_op Basic.MatrixAdd
  matrix_mul := freeAlgebra.matrix_op Basic.MatrixMul
  subnum := freeAlgebra.subnum
  sub := fun a b => .Add zero [(a, one), (b, minus_one)]

/-- C1. For every leaf-like node `x` (generic symbol, integer, rational, complex, constant, zero
matrix, matrix-derivative) and every removal predicate, the Remove traversal of `x` returns
absent if the predicate holds for `x` and `x` itself otherwise, whatever `result_` was before and
whatever the operand of a matrix-derivative is: the operand is never visited. -/
theorem remove_leaf_like (alg : Algebra) (cond : Basic → Bool) (x : Basic) (r : Option Basic)
    (hx : x.isLeafLike = true) :
    RemoveVisitor.apply alg cond x r = .ok (if cond x then none else some x) := by
  cases x <;> simp [Basic.isLeafLike] at hx <;>
    simp only [RemoveVisitor.apply, remove_if_symbol_like] <;> split <;> rfl

/-- Witness of C1: the matrix-derivative of `D` is kept as a whole by `remove_if` with the
symbol set `{D}`, although its operand `D` is in the set. -/
theorem remove_leaf_like_witness :
    (Basic.MatrixDerivative sample.D []).isLeafLike = true ∧
      remove_if freeAlgebra (.MatrixDerivative sample.D []) [sample.D]
        = .ok (some (.MatrixDerivative sample.D [])) :=
  ⟨rfl, remove_leaf_like freeAlgebra (is_equal [sample.D]) (.MatrixDerivative sample.D []) none
    rfl⟩

/-- The removal predicate of a set of leaf symbols holds for no numeric literal. -/
theorem is_equal_num_of_symbols (S : List Basic) (hS : ∀ s ∈ S, ∃ n, s = Basic.Symbol n)
    (c : Number) : is_equal S (.Num c) = false := by
  simp only [is_equal, List.any_eq_false]
  intro s hs
  obtain ⟨n, rfl⟩ := hS s hs
  simp [Basic.eq]

/-- The removal predicate of a set of leaf symbols holds for no sum node. -/
theorem is_equal_add_of_symbols (S : List Basic) (hS : ∀ s ∈ S, ∃ n, s = Basic.Symbol n)
    (c : Number) (d : List (Basic × Number)) : is_equal S (.Add c d) = false := by
  simp only [is_equal, List.any_eq_false]
  intro s hs
  obtain ⟨n, rfl⟩ := hS s hs
  simp [Basic.eq]

/-- The loop of the sum rule over leaf symbols with unit multipliers keeps exactly the symbols
for which the predicate does not hold, in order. -/
theorem remove_add_loop_symbols (alg : Algebra) (S : List Basic)
    (hS : ∀ s ∈ S, ∃ n, s = Basic.Symbol n)
    (hsingle : ∀ n, alg.add_from_dict zero [(Basic.Symbol n, one)] = Basic.Symbol n)
    (hterm : ∀ coef d n, (∀ p ∈ d, p.1 ≠ Basic.Symbol n) →
      alg.coef_dict_add_term (coef, d) one (Basic.Symbol n)
        = (coef, d ++ [(Basic.Symbol n, one)])) :
    ∀ (names : List String) (d : List (Basic × Number)) (r : Option Basic),
      names.Nodup → (∀ p ∈ d, ∀ n ∈ names, p.1 ≠ Basic.Symbol n) →
      RemoveVisitor.bvisitAdd alg (is_equal S) (names.map (fun n => (Basic.Symbol n, one)))
          (zero, d) r
        = .ok (zero, d ++ (names.filter (fun n => !is_equal S (.Symbol n))).map
            (fun n => (Basic.Symbol n, one))) := by
  intro names
  induction names with
  | nil => intro d r _ _; simp [RemoveVisitor.bvisitAdd]
  | cons n rest ih =>
    intro d r hnd hd
    have hrest : rest.Nodup := (List.nodup_cons.1 hnd).2
    have hn : n ∉ rest := (List.nodup_cons.1 hnd).1
    simp only [List.map_cons]
    rw [RemoveVisitor.bvisitAdd, hsingle]
    by_cases hc : is_equal S (.Symbol n) = true
    · simp only [hc, if_true]
      rw [ih d r hrest (fun p hp m hm => hd p hp m (List.mem_cons_of_mem _ hm))]
      simp [List.filter_cons, hc]
    · have hc2 : is_equal S (.Symbol n) = false := by simpa using hc
      simp only [hc2, RemoveVisitor.apply, remove_if_symbol_like, Bool.false_eq_true, if_false,
        is_equal_num_of_symbols S hS]
      rw [hterm zero d n (fun p hp => hd p hp n (List.mem_cons_self _ _))]
      rw [ih _ _ hrest]
      · simp [List.filter_cons, hc2]
      · intro p hp m hm
        rcases List.mem_append.1 hp with hp | hp
        · exact hd p hp m (List.mem_cons_of_mem _ hm)
        · simp at hp
          subst hp
          simp
          rintro rfl
          exact hn hm

/-- C2. For every sum `E` of pairwise distinct leaf symbols with zero additive coefficient and
unit multipliers and every set `S` of leaf symbols, `remove_if(E, S)` is the sum that the algebra
builds from exactly those terms of `E` that are not in `S`, each with its unit multiplier, and it
is the zero element of the algebra, not absent, when every term is in `S`. The hypotheses on the
algebra are the behaviour of `Add::from_dict` and `Add::coef_dict_add_term` at leaf symbols: the
empty sum is the coefficient, the sum of one symbol is the symbol, and a symbol that is not yet a
key of the dictionary is entered with its multiplier. -/
theorem remove_if_sum_of_symbols (alg : Algebra) (names : List String) (S : List Basic)
    (hnames : names.Nodup)
    (hS : ∀ s ∈ S, ∃ n, s = Basic.Symbol n)
    (hempty : alg.add_from_dict zero [] = .Num zero)
    (hsingle : ∀ n, alg.add_from_dict zero [(Basic.Symbol n, one)] = Basic.Symbol n)
    (hterm : ∀ coef d n, (∀ p ∈ d, p.1 ≠ Basic.Symbol n) →
      alg.coef_dict_add_term (coef, d) one (Basic.Symbol n)
        = (coef, d ++ [(Basic.Symbol n, one)])) :
    remove_if alg (symbol_sum names) S
        = .ok (some (alg.add_from_dict zero
            ((names.filter (fun n => !is_equal S (.Symbol n))).map
              (fun n => (Basic.Symbol n, one)))))
      ∧ ((∀ n ∈ names, is_equal S (.Symbol n) = true) →
          remove_if alg (symbol_sum names) S = .ok (some (.Num zero))) := by
  have main : remove_if alg (symbol_sum names) S
        = .ok (some (alg.add_from_dict zero
            ((names.filter (fun n => !is_equal S (.Symbol n))).map
              (fun n => (Basic.Symbol n, one))))) := by
    simp only [remove_if, symbol_sum, RemoveVisitor.apply, is_equal_add_of_symbols S hS,
      is_equal_num_of_symbols S hS, Bool.false_eq_true, if_false]
    rw [remove_add_loop_symbols alg S hS hsingle hterm names [] none hnames (by simp)]
    simp
  refine ⟨main, fun hall => ?_⟩
  rw [main]
  have : names.filter (fun n => !is_equal S (.Symbol n)) = [] := by
    simp only [List.filter_eq_nil_iff]
    intro n hn
    simp [hall n hn]
  rw [this]
  simp [hempty]

/-- Witness of C2: `remove_if(a + b + c, {b}) = a + c` in the algebra without simplification. -/
theorem remove_if_sum_of_symbols_witness :
    ["a", "b", "c"].Nodup ∧
      remove_if freeAlgebra (symbol_sum ["a", "b", "c"]) [sample.b]
        = .ok (some (.Add zero [(sample.a, one), (sample.c, one)])) :=
  ⟨by decide,
    (remove_if_sum_of_symbols freeAlgebra ["a", "b", "c"] [sample.b] (by decide)
      (by intro s hs; exact ⟨"b", by simpa [sample.b] using hs⟩) rfl (fun _ => rfl)
      (fun _ _ _ _ => rfl)).1⟩

/-- A loop over the pairs of a product that ends with a dictionary has met no pair that the
predicate matches as a unit, and every base it reached survived. -/
theorem mul_loop_some (alg : Algebra) (cond : Basic → Bool) :
    ∀ (dict : List (Basic × Basic)) (acc acc2 : Number × List (Basic × Basic))
      (r : Option Basic),
      RemoveVisitor.bvisitMul alg cond dict acc r = .ok (some acc2) →
        (∀ p ∈ dict, cond (.Pow p.1 p.2) = false) ∧
        (∀ w ∈ RemoveVisitor.mulVisits alg cond dict r,
          ∃ nk, RemoveVisitor.apply alg cond w.1.1 w.2 = .ok (some nk)) := by
  intro dict
  induction dict with
  | nil => intro acc acc2 r _; simp [RemoveVisitor.mulVisits]
  | cons p rest ih =>
    obtain ⟨b, e⟩ := p
    intro acc acc2 r h
    rw [RemoveVisitor.bvisitMul] at h
    rw [RemoveVisitor.mulVisits]
    split at h
    · simp at h
    · rename_i hc
      split at h
      · simp at h
      · simp at h
      · rename_i nk hb
        split at h
        · simp at h
        · simp at h
        · rename_i nv he
          have ih2 := ih _ _ _ h
          simp only [hc, hb, he]
          constructor
          · intro p hp
            rcases List.mem_cons.1 hp with rfl | hp
            · simpa using hc
            · exact ih2.1 p hp
          · intro w hw
            simp only [Bool.false_eq_true, if_false, List.mem_cons] at hw
            rcases hw with rfl | hw
            · exact ⟨nk, hb⟩
            · exact ih2.2 w hw

/-- A loop over the pairs of a product that removes the whole product has met a pair that the
predicate matches as a unit or a base whose recursive removal is absent. -/
theorem mul_loop_none (alg : Algebra) (cond : Basic → Bool) :
    ∀ (dict : List (Basic × Basic)) (acc : Number × List (Basic × Basic)) (r : Option Basic),
      RemoveVisitor.bvisitMul alg cond dict acc r = .ok none →
        (∃ p ∈ dict, cond (.Pow p.1 p.2) = true) ∨
        (∃ w ∈ RemoveVisitor.mulVisits alg cond dict r,
          RemoveVisitor.apply alg cond w.1.1 w.2 = .ok none) := by
  intro dict
  induction dict with
  | nil => intro acc r h; simp [RemoveVisitor.bvisitMul] at h
  | cons p rest ih =>
    obtain ⟨b, e⟩ := p
    intro acc r h
    rw [RemoveVisitor.bvisitMul] at h
    rw [RemoveVisitor.mulVisits]
    split at h
    · rename_i hc
      exact Or.inl ⟨(b, e), List.mem_cons_self _ _, hc⟩
    · rename_i hc
      split at h
      · simp at h
      · rename_i hb
        exact Or.inr ⟨((b, e), r), List.mem_cons_self _ _, hb⟩
      · rename_i nk hb
        split at h
        · simp at h
        · simp at h
        · rename_i nv he
          simp only [hc, hb, he]
          rcases ih _ _ h with ⟨p, hp, hpc⟩ | ⟨w, hw, hwb⟩
          · exact Or.inl ⟨p, List.mem_cons_of_mem _ hp, hpc⟩
          · exact Or.inr ⟨w, List.mem_cons_of_mem _ hw, hwb⟩

/-- C3. For every product `E` and predicate for which the Remove traversal of `E` finishes
without raising a fault, the result is absent if and only if the predicate holds for `E`, or for
the coefficient of `E`, or some base^exponent pair of `E` satisfies the predicate as a unit, or
the recursive removal of some base that the traversal reaches is absent. -/
theorem remove_mul_absent_iff (alg : Algebra) (cond : Basic → Bool) (coef : Number)
    (dict : List (Basic × Basic)) (r v : Option Basic)
    (h : RemoveVisitor.apply alg cond (.Mul coef dict) r = .ok v) :
    v = none ↔
      (cond (.Mul coef dict) = true ∨ cond (.Num coef) = true ∨
        (∃ p ∈ dict, cond (.Pow p.1 p.2) = true) ∨
        (∃ w ∈ RemoveVisitor.mulVisits alg cond dict r,
          RemoveVisitor.apply alg cond w.1.1 w.2 = .ok none)) := by
  rw [RemoveVisitor.apply] at h
  split at h
  · rename_i hE
    simp only [Except.ok.injEq] at h
    simp [← h, hE]
  · rename_i hE
    split at h
    · rename_i hcoef
      simp only [Except.ok.injEq] at h
      simp [← h, hcoef]
    · rename_i hcoef
      split at h
      · simp at h
      · rename_i hloop
        simp only [Except.ok.injEq] at h
        have := mul_loop_none alg cond dict _ _ hloop
        constructor
        · intro _
          exact Or.inr (Or.inr this)
        · intro _
          exact h.symm
      · rename_i acc hloop
        simp only [Except.ok.injEq] at h
        have hs := mul_loop_some alg cond dict _ _ _ hloop
        constructor
        · intro hv
          rw [← h] at hv
          simp at hv
        · rintro (h1 | h1 | ⟨p, hp, hpc⟩ | ⟨w, hw, hwb⟩)
          · exact absurd h1 hE
          · exact absurd h1 hcoef
          · rw [hs.1 p hp] at hpc
            simp at hpc
          · obtain ⟨nk, hnk⟩ := hs.2 w hw
            rw [hnk] at hwb
            simp at hwb

/-- Witness of C3: `remove_if(x*y, {x})` is absent, because the removal of the base `x` is. -/
theorem remove_mul_absent_iff_witness :
    remove_if freeAlgebra (.Mul one [(sample.x, .Num one), (sample.y, .Num one)]) [sample.x]
        = .ok none ∧
      ((none : Option Basic) = none ↔
        (is_equal [sample.x] (.Mul one [(sample.x, .Num one), (sample.y, .Num one)]) = true ∨
          is_equal [sample.x] (.Num one) = true ∨
          (∃ p ∈ [(sample.x, Basic.Num one), (sample.y, Basic.Num one)],
            is_equal [sample.x] (.Pow p.1 p.2) = true) ∨
          (∃ w ∈ RemoveVisitor.mulVisits freeAlgebra (is_equal [sample.x])
              [(sample.x, .Num one), (sample.y, .Num one)] none,
            RemoveVisitor.apply freeAlgebra (is_equal [sample.x]) w.1.1 w.2 = .ok none))) :=
  ⟨rfl, remove_mul_absent_iff freeAlgebra (is_equal [sample.x]) one
    [(sample.x, .Num one), (sample.y, .Num one)] none none rfl⟩

/-- The loop over the pairs of a product when no pair is matched as a unit, every reached base
survives and no recursive removal of a reached exponent raises a fault of its own: the loop
raises the exponent fault exactly when the removal of a reached exponent is absent, and
otherwise ends with the rewritten pairs added to the dictionary in order. -/
theorem mul_loop_exponent (alg : Algebra) (cond : Basic → Bool) :
    ∀ (dict : List (Basic × Basic)) (acc : Number × List (Basic × Basic)) (r : Option Basic),
      (∀ p ∈ dict, cond (.Pow p.1 p.2) = false) →
      (∀ w ∈ RemoveVisitor.mulVisits alg cond dict r,
        ∃ nk, RemoveVisitor.apply alg cond w.1.1 w.2 = .ok (some nk)) →
      (∀ w ∈ RemoveVisitor.mulVisits alg cond dict r, ∀ nk,
        RemoveVisitor.apply alg cond w.1.1 w.2 = .ok (some nk) →
          ∃ nv, RemoveVisitor.apply alg cond w.1.2 (some nk) = .ok nv) →
      (RemoveVisitor.bvisitMul alg cond dict acc r = .error .SymEngineException ↔
        ∃ w ∈ RemoveVisitor.mulVisits alg cond dict r, ∃ nk,
          RemoveVisitor.apply alg cond w.1.1 w.2 = .ok (some nk) ∧
            RemoveVisitor.apply alg cond w.1.2 (some nk) = .ok none) ∧
      ((¬ ∃ w ∈ RemoveVisitor.mulVisits alg cond dict r, ∃ nk,
          RemoveVisitor.apply alg cond w.1.1 w.2 = .ok (some nk) ∧
            RemoveVisitor.apply alg cond w.1.2 (some nk) = .ok none) →
        RemoveVisitor.bvisitMul alg cond dict acc r
          = .ok (some ((RemoveVisitor.mulRewritten alg cond
              (RemoveVisitor.mulVisits alg cond dict r)).foldl
                (fun acc p => alg.dict_add_term_new acc p.2 p.1) acc))) := by
  intro dict
  induction dict with
  | nil =>
    intro acc r _ _ _
    simp [RemoveVisitor.bvisitMul, RemoveVisitor.mulVisits, RemoveVisitor.mulRewritten]
  | cons p rest ih =>
    obtain ⟨b, e⟩ := p
    intro acc r hpair hbase hexp
    have hc : cond (.Pow b e) = false := hpair (b, e) (List.mem_cons_self _ _)
    have hhead : ((b, e), r) ∈ RemoveVisitor.mulVisits alg cond ((b, e) :: rest) r := by
      rw [RemoveVisitor.mulVisits]; exact List.mem_cons_self _ _
    obtain ⟨nk, hb⟩ := hbase _ hhead
    obtain ⟨nv, he⟩ := hexp _ hhead nk hb
    have hb2 : RemoveVisitor.apply alg cond b r = .ok (some nk) := hb
    have he2 : RemoveVisitor.apply alg cond e (some nk) = .ok nv := he
    cases nv with
    | none =>
      have hloop : RemoveVisitor.bvisitMul alg cond ((b, e) :: rest) acc r
          = .error .SymEngineException := by
        rw [RemoveVisitor.bvisitMul]; simp [hc, hb2, he2]
      have hex : ∃ w ∈ RemoveVisitor.mulVisits alg cond ((b, e) :: rest) r, ∃ nk,
          RemoveVisitor.apply alg cond w.1.1 w.2 = .ok (some nk) ∧
            RemoveVisitor.apply alg cond w.1.2 (some nk) = .ok none :=
        ⟨_, hhead, nk, hb, he⟩
      exact ⟨⟨fun _ => hex, fun _ => hloop⟩, fun hn => absurd hex hn⟩
    | some nv =>
      have hvis : RemoveVisitor.mulVisits alg cond ((b, e) :: rest) r
          = ((b, e), r) :: RemoveVisitor.mulVisits alg cond rest (some nv) := by
        rw [RemoveVisitor.mulVisits]; simp [hc, hb2, he2]
      have hloop : RemoveVisitor.bvisitMul alg cond ((b, e) :: rest) acc r
          = RemoveVisitor.bvisitMul alg cond rest (alg.dict_add_term_new acc nv nk)
              (some nv) := by
        rw [RemoveVisitor.bvisitMul]; simp [hc, hb2, he2]
      rw [hvis] at hbase hexp
      have ih2 := ih (alg.dict_add_term_new acc nv nk) (some nv)
        (fun p hp => hpair p (List.mem_cons_of_mem _ hp))
        (fun w hw => hbase w (List.mem_cons_of_mem _ hw))
        (fun w hw => hexp w (List.mem_cons_of_mem _ hw))
      have hiff : (∃ w ∈ ((b, e), r) :: RemoveVisitor.mulVisits alg cond rest (some nv), ∃ nk,
          RemoveVisitor.apply alg cond w.1.1 w.2 = .ok (some nk) ∧
            RemoveVisitor.apply alg cond w.1.2 (some nk) = .ok none) ↔
          (∃ w ∈ RemoveVisitor.mulVisits alg cond rest (some nv), ∃ nk,
          RemoveVisitor.apply alg cond w.1.1 w.2 = .ok (some nk) ∧
            RemoveVisitor.apply alg cond w.1.2 (some nk) = .ok none) := by
        constructor
        · rintro ⟨w, hw, nk2, h1, h2⟩
          rcases List.mem_cons.1 hw with rfl | hw
          · rw [hb] at h1
            simp only [Except.ok.injEq, Option.some.injEq] at h1
            subst h1
            rw [he] at h2
            simp at h2
          · exact ⟨w, hw, nk2, h1, h2⟩
        · rintro ⟨w, hw, rest2⟩
          exact ⟨w, List.mem_cons_of_mem _ hw, rest2⟩
      have hrew : RemoveVisitor.mulRewritten alg cond
          (((b, e), r) :: RemoveVisitor.mulVisits alg cond rest (some nv))
          = (nk, nv) :: RemoveVisitor.mulRewritten alg cond
              (RemoveVisitor.mulVisits alg cond rest (some nv)) := by
        simp [RemoveVisitor.mulRewritten, List.filterMap_cons, hb2, he2]
      rw [hvis, hloop, hiff, hrew, List.foldl_cons]
      exact ih2

/-- C4 (amended). For every product `E` such that the predicate holds neither for `E`, nor for
its coefficient, nor for any base^exponent pair taken as a unit, such that the recursive removal
of every base that the traversal reaches returns a node, and such that no recursive removal of a
reached exponent raises a fault of its own: the Remove traversal raises the
non-representable-rewrite fault if and only if the recursive removal of at least one reached
exponent is absent, and otherwise returns the product rebuilt from the coefficient and the
rewritten base/exponent pairs. -/
theorem remove_mul_exponent_rule (alg : Algebra) (cond : Basic → Bool) (coef : Number)
    (dict : List (Basic × Basic)) (r : Option Basic)
    (hE : cond (.Mul coef dict) = false) (hcoef : cond (.Num coef) = false)
    (hpair : ∀ p ∈ dict, cond (.Pow p.1 p.2) = false)
    (hbase : ∀ w ∈ RemoveVisitor.mulVisits alg cond dict r,
      ∃ nk, RemoveVisitor.apply alg cond w.1.1 w.2 = .ok (some nk))
    (hexp : ∀ w ∈ RemoveVisitor.mulVisits alg cond dict r, ∀ nk,
      RemoveVisitor.apply alg cond w.1.1 w.2 = .ok (some nk) →
        ∃ nv, RemoveVisitor.apply alg cond w.1.2 (some nk) = .ok nv) :
    (RemoveVisitor.apply alg cond (.Mul coef dict) r = .error .SymEngineException ↔
      ∃ w ∈ RemoveVisitor.mulVisits alg cond dict r, ∃ nk,
        RemoveVisitor.apply alg cond w.1.1 w.2 = .ok (some nk) ∧
          RemoveVisitor.apply alg cond w.1.2 (some nk) = .ok none) ∧
    ((¬ ∃ w ∈ RemoveVisitor.mulVisits alg cond dict r, ∃ nk,
        RemoveVisitor.apply alg cond w.1.1 w.2 = .ok (some nk) ∧
          RemoveVisitor.apply alg cond w.1.2 (some nk) = .ok none) →
      RemoveVisitor.apply alg cond (.Mul coef dict) r
        = .ok (some (RemoveVisitor.mulRebuilt alg cond coef dict r))) := by
  have hl := mul_loop_exponent alg cond dict (coef, []) r hpair hbase hexp
  rw [RemoveVisitor.apply]
  simp only [hE, hcoef, Bool.false_eq_true, if_false]
  constructor
  · rw [← hl.1]
    constructor
    · intro h
      split at h
      · rename_i f hf
        rw [hf]
        simp only [Except.error.injEq] at h
        rw [h]
      · simp at h
      · simp at h
    · intro h
      rw [h]
  · intro hn
    rw [hl.2 hn]
    rfl

/-- Witness of C4 (amended): the product node with the single pair `(x, y)` and `S = {y}`;
the removal of the exponent `y` is absent and `remove_if` raises the fault. -/
theorem remove_mul_exponent_rule_witness :
    is_equal [sample.y] (.Mul one [(sample.x, sample.y)]) = false ∧
      remove_if freeAlgebra (.Mul one [(sample.x, sample.y)]) [sample.y]
        = .error .SymEngineException := by
  have hv : RemoveVisitor.mulVisits freeAlgebra (is_equal [sample.y]) [(sample.x, sample.y)] none
      = [((sample.x, sample.y), none)] := rfl
  refine ⟨rfl, ?_⟩
  exact (remove_mul_exponent_rule freeAlgebra (is_equal [sample.y]) one
    [(sample.x, sample.y)] none rfl rfl
    (by intro p hp; rw [List.mem_singleton] at hp; subst hp; rfl)
    (by intro w hw; rw [hv, List.mem_singleton] at hw; subst hw; exact ⟨sample.x, rfl⟩)
    (by intro w hw nk _; rw [hv, List.mem_singleton] at hw; subst hw; exact ⟨none, rfl⟩)).1.2
    ⟨((sample.x, sample.y), none), by rw [hv]; exact List.mem_singleton.2 rfl, sample.x, rfl, rfl⟩

/-- Counterexample to C4 as stated: in `x^(y^2) * z` with the empty symbol set the predicate
holds for nothing, the removal of the reached base `x` returns `x`, and no removal of an exponent
is absent, so the claim promises the rebuilt product; but the exponent `y^2` is a power, for which
`RemoveVisitor` has no rule, and the traversal raises the unclassified-node fault. -/
theorem remove_mul_exponent_rule_counterexample :
    is_equal [] sample.power_product = false ∧ is_equal [] (.Num one) = false ∧
      (∀ p ∈ sample.power_dict, is_equal [] (.Pow p.1 p.2) = false) ∧
      (∀ w ∈ RemoveVisitor.mulVisits freeAlgebra (is_equal []) sample.power_dict none,
        ∃ nk, RemoveVisitor.apply freeAlgebra (is_equal []) w.1.1 w.2 = .ok (some nk)) ∧
      (¬ ∃ w ∈ RemoveVisitor.mulVisits freeAlgebra (is_equal []) sample.power_dict none, ∃ nk,
        RemoveVisitor.apply freeAlgebra (is_equal []) w.1.1 w.2 = .ok (some nk) ∧
          RemoveVisitor.apply freeAlgebra (is_equal []) w.1.2 (some nk) = .ok none) ∧
      remove_if freeAlgebra sample.power_product [] = .error .NotImplementedError := by
  have hv : RemoveVisitor.mulVisits freeAlgebra (is_equal []) sample.power_dict none
      = [((sample.x, .Pow sample.y (.Num (.Integer 2))), none)] := rfl
  refine ⟨rfl, rfl, fun p _ => rfl, ?_, ?_, rfl⟩
  · intro w hw
    rw [hv, List.mem_singleton] at hw
    subst hw
    exact ⟨sample.x, rfl⟩
  · rintro ⟨w, hw, nk, h1, h2⟩
    rw [hv, List.mem_singleton] at hw
    subst hw
    have h3 : RemoveVisitor.apply freeAlgebra (is_equal []) sample.x none
        = .ok (some sample.x) := rfl
    rw [h3] at h1
    simp only [Except.ok.injEq, Option.some.injEq] at h1
    subst h1
    have h4 : RemoveVisitor.apply freeAlgebra (is_equal [])
        (Basic.Pow sample.y (.Num (.Integer 2))) (some sample.x)
          = .error .NotImplementedError := rfl
    rw [h4] at h2
    simp at h2

/-- A reached pair of a product that is not matched as a unit, whose base survives and whose
exponent is removed makes the loop raise the exponent fault. -/
theorem mul_loop_fault (alg : Algebra) (cond : Basic → Bool) :
    ∀ (dict : List (Basic × Basic)) (acc : Number × List (Basic × Basic)) (r : Option Basic)
      (w : (Basic × Basic) × Option Basic) (nk : Basic),
      w ∈ RemoveVisitor.mulVisits alg cond dict r →
      cond (.Pow w.1.1 w.1.2) = false →
      RemoveVisitor.apply alg cond w.1.1 w.2 = .ok (some nk) →
      RemoveVisitor.apply alg cond w.1.2 (some nk) = .ok none →
      RemoveVisitor.bvisitMul alg cond dict acc r = .error .SymEngineException := by
  intro dict
  induction dict with
  | nil => intro acc r w nk hw; simp [RemoveVisitor.mulVisits] at hw
  | cons p rest ih =>
    obtain ⟨b, e⟩ := p
    intro acc r w nk hw hc hb he
    rw [RemoveVisitor.mulVisits] at hw
    rw [RemoveVisitor.bvisitMul]
    rcases List.mem_cons.1 hw with rfl | hw
    · have hb2 : RemoveVisitor.apply alg cond b r = .ok (some nk) := hb
      have he2 : RemoveVisitor.apply alg cond e (some nk) = .ok none := he
      have hc2 : cond (.Pow b e) = false := hc
      simp [hc2, hb2, he2]
    · split at hw
      · simp at hw
      · rename_i hcb
        split at hw
        · rename_i nk2 hb2
          split at hw
          · rename_i nv2 he2
            simp only [hcb, hb2, he2]
            exact ih _ _ w nk hw hc hb he
          · simp at hw
        · simp at hw

/-- C5 (amended). Exponent invariant: for every product `E` such that the predicate holds
neither for `E` nor for its coefficient, and every base^exponent pair that the traversal reaches
(no earlier pair is matched as a unit or loses its base, and every earlier exponent survives)
which is not matched as a unit, whose base survives the recursive removal and whose exponent the
recursive removal eliminates: the Remove traversal raises the non-representable-rewrite fault and
returns no result of any kind, neither an expression nor absent. -/
theorem remove_mul_exponent_fault (alg : Algebra) (cond : Basic → Bool) (coef : Number)
    (dict : List (Basic × Basic)) (r : Option Basic) (w : (Basic × Basic) × Option Basic)
    (nk : Basic)
    (hE : cond (.Mul coef dict) = false) (hcoef : cond (.Num coef) = false)
    (hw : w ∈ RemoveVisitor.mulVisits alg cond dict r)
    (hunit : cond (.Pow w.1.1 w.1.2) = false)
    (hbase : RemoveVisitor.apply alg cond w.1.1 w.2 = .ok (some nk))
    (hexp : RemoveVisitor.apply alg cond w.1.2 (some nk) = .ok none) :
    RemoveVisitor.apply alg cond (.Mul coef dict) r = .error .SymEngineException ∧
      ∀ v, RemoveVisitor.apply alg cond (.Mul coef dict) r ≠ .ok v := by
  have hl := mul_loop_fault alg cond dict (coef, []) r w nk hw hunit hbase hexp
  have : RemoveVisitor.apply alg cond (.Mul coef dict) r = .error .SymEngineException := by
    rw [RemoveVisitor.apply]
    simp [hE, hcoef, hl]
  exact ⟨this, fun v hv => by rw [this] at hv; simp at hv⟩

/-- Witness of C5 (amended): in `x * z^y` with `S = {y}` the traversal reaches the pair
`(z, y)` after the pair `(x, 1)`; the base `z` survives, the exponent `y` is removed and
`remove_if` raises the fault. -/
theorem remove_mul_exponent_fault_witness :
    ((sample.z, sample.y), some (Basic.Num one)) ∈
        RemoveVisitor.mulVisits freeAlgebra (is_equal [sample.y]) sample.exponent_dict none ∧
      remove_if freeAlgebra sample.exponent_product [sample.y] = .error .SymEngineException := by
  have hv : RemoveVisitor.mulVisits freeAlgebra (is_equal [sample.y]) sample.exponent_dict none
      = [((sample.x, .Num one), none), ((sample.z, sample.y), some (.Num one))] := rfl
  have hw : ((sample.z, sample.y), some (Basic.Num one)) ∈
      RemoveVisitor.mulVisits freeAlgebra (is_equal [sample.y]) sample.exponent_dict none := by
    rw [hv]; exact List.mem_cons_of_mem _ (List.mem_singleton.2 rfl)
  exact ⟨hw, (remove_mul_exponent_fault freeAlgebra (is_equal [sample.y]) one
    sample.exponent_dict none ((sample.z, sample.y), some (.Num one)) sample.z rfl rfl hw rfl
    rfl rfl).1⟩

/-- Counterexample to C5 as stated: in `x * z^y` with `S = {y, z}` the product contains the pair
`(z, y)` whose exponent `y` the predicate eliminates, but the base `z` is removed first and the
traversal returns absent instead of raising the fault. -/
theorem remove_mul_exponent_fault_counterexample :
    (sample.z, sample.y) ∈ sample.exponent_dict ∧
      remove_if freeAlgebra sample.y [sample.y, sample.z] = .ok none ∧
      remove_if freeAlgebra sample.exponent_product [sample.y, sample.z] = .ok none :=
  ⟨List.mem_cons_of_mem _ (List.mem_singleton.2 rfl), rfl, rfl⟩

/-- The loop over the operands of a matrix product when no recursive removal of a reached
operand raises a fault: it removes the whole product if the removal of a reached operand is
absent, and otherwise appends the results of all operands in order. -/
theorem matrix_mul_loop (alg : Algebra) (cond : Basic → Bool) :
    ∀ (args factors : List Basic) (r : Option Basic),
      (∀ w ∈ RemoveVisitor.matrixMulVisits alg cond args r,
        ∃ v, RemoveVisitor.apply alg cond w.1 w.2 = .ok v) →
      ((∃ w ∈ RemoveVisitor.matrixMulVisits alg cond args r,
          RemoveVisitor.apply alg cond w.1 w.2 = .ok none) →
        RemoveVisitor.bvisitMatrixMul alg cond args factors r = .ok none) ∧
      ((¬ ∃ w ∈ RemoveVisitor.matrixMulVisits alg cond args r,
          RemoveVisitor.apply alg cond w.1 w.2 = .ok none) →
        ∃ fs, RemoveVisitor.bvisitMatrixMul alg cond args factors r = .ok (some (factors ++ fs)) ∧
          List.Forall₂ (fun w f => RemoveVisitor.apply alg cond w.1 w.2 = .ok (some f))
            (RemoveVisitor.matrixMulVisits alg cond args r) fs ∧
          (RemoveVisitor.matrixMulVisits alg cond args r).map Prod.fst = args) := by
  intro args
  induction args with
  | nil =>
    intro factors r _
    simp [RemoveVisitor.bvisitMatrixMul, RemoveVisitor.matrixMulVisits]
  | cons a rest ih =>
    intro factors r hok
    have hhead : (a, r) ∈ RemoveVisitor.matrixMulVisits alg cond (a :: rest) r := by
      rw [RemoveVisitor.matrixMulVisits]; exact List.mem_cons_self _ _
    obtain ⟨v, ha⟩ := hok _ hhead
    have ha2 : RemoveVisitor.apply alg cond a r = .ok v := ha
    cases v with
    | none =>
      have hloop : RemoveVisitor.bvisitMatrixMul alg cond (a :: rest) factors r = .ok none := by
        rw [RemoveVisitor.bvisitMatrixMul]; simp [ha2]
      exact ⟨fun _ => hloop, fun hn => absurd ⟨(a, r), hhead, ha⟩ hn⟩
    | some na =>
      have hvis : RemoveVisitor.matrixMulVisits alg cond (a :: rest) r
          = (a, r) :: RemoveVisitor.matrixMulVisits alg cond rest (some na) := by
        rw [RemoveVisitor.matrixMulVisits]; simp [ha2]
      have hloop : RemoveVisitor.bvisitMatrixMul alg cond (a :: rest) factors r
          = RemoveVisitor.bvisitMatrixMul alg cond rest (factors ++ [na]) (some na) := by
        rw [RemoveVisitor.bvisitMatrixMul]; simp [ha2]
      rw [hvis] at hok
      have ih2 := ih (factors ++ [na]) (some na) (fun w hw => hok w (List.mem_cons_of_mem _ hw))
      rw [hvis, hloop]
      constructor
      · rintro ⟨w, hw, hwn⟩
        rcases List.mem_cons.1 hw with rfl | hw
        · rw [ha] at hwn
          simp at hwn
        · exact ih2.1 ⟨w, hw, hwn⟩
      · intro hn
        obtain ⟨fs, h1, h2, h3⟩ := ih2.2 (fun ⟨w, hw, hwn⟩ =>
          hn ⟨w, List.mem_cons_of_mem _ hw, hwn⟩)
        refine ⟨na :: fs, ?_, List.Forall₂.cons ha h2, ?_⟩
        · rw [h1]; simp
        · simp [h3]

/-- C6 (amended). For every matrix-product `M` with a non-empty operand list `[A1, ..., An]`
that does not itself satisfy the predicate, and such that no recursive removal of an operand that
the traversal reaches raises a fault: the Remove traversal returns absent if the recursive
removal of a reached operand is absent, and otherwise returns the matrix-product built from the
list `[remove(A1), ..., remove(An)]` in exactly the original left-to-right order: the traversal
reaches every operand, and the i-th factor is the result for the i-th operand. -/
theorem remove_matrix_mul (alg : Algebra) (cond : Basic → Bool) (args : List Basic)
    (r : Option Basic)
    (hM : cond (.MatrixMul args) = false) (hne : args ≠ [])
    (hok : ∀ w ∈ RemoveVisitor.matrixMulVisits alg cond args r,
      ∃ v, RemoveVisitor.apply alg cond w.1 w.2 = .ok v) :
    ((∃ w ∈ RemoveVisitor.matrixMulVisits alg cond args r,
        RemoveVisitor.apply alg cond w.1 w.2 = .ok none) →
      RemoveVisitor.apply alg cond (.MatrixMul args) r = .ok none) ∧
    ((¬ ∃ w ∈ RemoveVisitor.matrixMulVisits alg cond args r,
        RemoveVisitor.apply alg cond w.1 w.2 = .ok none) →
      ∃ factors, RemoveVisitor.apply alg cond (.MatrixMul args) r
          = .ok (some (alg.matrix_mul factors)) ∧
        List.Forall₂ (fun w f => RemoveVisitor.apply alg cond w.1 w.2 = .ok (some f))
          (RemoveVisitor.matrixMulVisits alg cond args r) factors ∧
        (RemoveVisitor.matrixMulVisits alg cond args r).map Prod.fst = args) := by
  have hl := matrix_mul_loop alg cond args [] r hok
  constructor
  · intro h
    rw [RemoveVisitor.apply]
    simp [hM, hl.1 h]
  · intro h
    obtain ⟨fs, h1, h2, h3⟩ := hl.2 h
    refine ⟨fs, ?_, h2, h3⟩
    have hfs : fs ≠ [] := by
      rintro rfl
      rw [List.forall₂_nil_right_iff] at h2
      rw [h2] at h3
      exact hne h3.symm
    rw [RemoveVisitor.apply]
    simp only [hM, h1, Bool.false_eq_true, if_false, List.nil_append]
    cases fs with
    | nil => exact absurd rfl hfs
    | cons f fs => simp

/-- Witness of C6 (amended): the matrix product `D * V * T` with the empty symbol set; every
operand is reached, none is removed, and the result is the matrix product of the three results
in the original order. -/
theorem remove_matrix_mul_witness :
    is_equal [] (.MatrixMul [sample.D, sample.V, sample.T]) = false ∧
      ∃ factors, remove_if freeAlgebra (.MatrixMul [sample.D, sample.V, sample.T]) []
          = .ok (some (freeAlgebra.matrix_mul factors)) ∧
        List.Forall₂
          (fun w f => RemoveVisitor.apply freeAlgebra (is_equal []) w.1 w.2 = .ok (some f))
          (RemoveVisitor.matrixMulVisits freeAlgebra (is_equal [])
            [sample.D, sample.V, sample.T] none) factors ∧
        (RemoveVisitor.matrixMulVisits freeAlgebra (is_equal [])
          [sample.D, sample.V, sample.T] none).map Prod.fst
            = [sample.D, sample.V, sample.T] := by
  have hv : RemoveVisitor.matrixMulVisits freeAlgebra (is_equal [])
      [sample.D, sample.V, sample.T] none
      = [(sample.D, none), (sample.V, some sample.D), (sample.T, some sample.V)] := rfl
  have hok : ∀ w ∈ RemoveVisitor.matrixMulVisits freeAlgebra (is_equal [])
      [sample.D, sample.V, sample.T] none,
      RemoveVisitor.apply freeAlgebra (is_equal []) w.1 w.2 = .ok (some w.1) := by
    intro w hw
    rw [hv] at hw
    simp only [List.mem_cons, List.mem_singleton, List.not_mem_nil, or_false] at hw
    rcases hw with rfl | rfl | rfl <;> rfl
  exact ⟨rfl, (remove_matrix_mul freeAlgebra (is_equal [])
    [sample.D, sample.V, sample.T] none rfl (by simp) (fun w hw => ⟨_, hok w hw⟩)).2
    (by rintro ⟨w, hw, hwn⟩; rw [hok w hw] at hwn; simp at hwn)⟩

/-- Counterexample to C6 as stated: the matrix product `A * D` with `S = {D}` does not satisfy
the predicate and the removal of its operand `D` is absent, so the claim promises absent; but
the operand `A` is a generic matrix symbol, for which `RemoveVisitor::bvisit(MatrixSymbol)` has no
rule, and the traversal raises the unclassified-node fault. -/
theorem remove_matrix_mul_counterexample :
    is_equal [sample.D] (.MatrixMul [sample.A, sample.D]) = false ∧
      remove_if freeAlgebra sample.D [sample.D] = .ok none ∧
      remove_if freeAlgebra (.MatrixMul [sample.A, sample.D]) [sample.D]
        = .error .NotImplementedError :=
  ⟨rfl, rfl, rfl⟩

/-- The loop over the operands of a matrix sum when no recursive removal of a reached operand
raises a fault: every operand is reached and the loop appends the non-absent results in
order. -/
theorem matrix_add_loop (alg : Algebra) (cond : Basic → Bool) :
    ∀ (args terms : List Basic) (r : Option Basic),
      (∀ w ∈ RemoveVisitor.matrixAddVisits alg cond args r,
        ∃ v, RemoveVisitor.apply alg cond w.1 w.2 = .ok v) →
      RemoveVisitor.bvisitMatrixAdd alg cond args terms r
          = .ok (terms ++ RemoveVisitor.survivors alg cond
              (RemoveVisitor.matrixAddVisits alg cond args r)) ∧
        (RemoveVisitor.matrixAddVisits alg cond args r).map Prod.fst = args := by
  intro args
  induction args with
  | nil =>
    intro terms r _
    simp [RemoveVisitor.bvisitMatrixAdd, RemoveVisitor.matrixAddVisits, RemoveVisitor.survivors]
  | cons a rest ih =>
    intro terms r hok
    have hhead : (a, r) ∈ RemoveVisitor.matrixAddVisits alg cond (a :: rest) r := by
      rw [RemoveVisitor.matrixAddVisits]; exact List.mem_cons_self _ _
    obtain ⟨v, ha⟩ := hok _ hhead
    have ha2 : RemoveVisitor.apply alg cond a r = .ok v := ha
    have hvis : RemoveVisitor.matrixAddVisits alg cond (a :: rest) r
        = (a, r) :: RemoveVisitor.matrixAddVisits alg cond rest v := by
      rw [RemoveVisitor.matrixAddVisits]; simp [ha2]
    rw [hvis] at hok
    cases v with
    | none =>
      have hloop : RemoveVisitor.bvisitMatrixAdd alg cond (a :: rest) terms r
          = RemoveVisitor.bvisitMatrixAdd alg cond rest terms none := by
        rw [RemoveVisitor.bvisitMatrixAdd]; simp [ha2]
      have ih2 := ih terms none (fun w hw => hok w (List.mem_cons_of_mem _ hw))
      rw [hvis, hloop, ih2.1]
      constructor
      · simp [RemoveVisitor.survivors, List.filterMap_cons, ha2]
      · simp [ih2.2]
    | some na =>
      have hloop : RemoveVisitor.bvisitMatrixAdd alg cond (a :: rest) terms r
          = RemoveVisitor.bvisitMatrixAdd alg cond rest (terms ++ [na]) (some na) := by
        rw [RemoveVisitor.bvisitMatrixAdd]; simp [ha2]
      have ih2 := ih (terms ++ [na]) (some na) (fun w hw => hok w (List.mem_cons_of_mem _ hw))
      rw [hvis, hloop, ih2.1]
      constructor
      · simp [RemoveVisitor.survivors, List.filterMap_cons, ha2]
      · simp [ih2.2]

/-- When no recursive removal of a reached operand raises a fault, no operand survives exactly
when the removal of every reached operand is absent. -/
theorem survivors_eq_nil_iff (alg : Algebra) (cond : Basic → Bool)
    (visits : List (Basic × Option Basic))
    (hok : ∀ w ∈ visits, ∃ v, RemoveVisitor.apply alg cond w.1 w.2 = .ok v) :
    RemoveVisitor.survivors alg cond visits = [] ↔
      ∀ w ∈ visits, RemoveVisitor.apply alg cond w.1 w.2 = .ok none := by
  simp only [RemoveVisitor.survivors, List.filterMap_eq_nil_iff]
  constructor
  · intro h w hw
    obtain ⟨v, hv⟩ := hok w hw
    have := h w hw
    rw [hv] at this
    cases v with
    | none => exact hv
    | some t => simp at this
  · intro h w hw
    rw [h w hw]

/-- C7 (amended). For every matrix-sum `M` and predicate such that no recursive removal of an
operand that the traversal reaches raises a fault: the Remove traversal returns absent if the
predicate holds for `M` or if the recursive removal of every operand is absent; otherwise it
returns the matrix-sum built from the non-absent results `remove(Ai)`, in the original operand
order (the traversal reaches every operand). -/
theorem remove_matrix_add (alg : Algebra) (cond : Basic → Bool) (args : List Basic)
    (r : Option Basic)
    (hok : ∀ w ∈ RemoveVisitor.matrixAddVisits alg cond args r,
      ∃ v, RemoveVisitor.apply alg cond w.1 w.2 = .ok v) :
    ((cond (.MatrixAdd args) = true ∨
        ∀ w ∈ RemoveVisitor.matrixAddVisits alg cond args r,
          RemoveVisitor.apply alg cond w.1 w.2 = .ok none) →
      RemoveVisitor.apply alg cond (.MatrixAdd args) r = .ok none) ∧
    (¬ (cond (.MatrixAdd args) = true ∨
        ∀ w ∈ RemoveVisitor.matrixAddVisits alg cond args r,
          RemoveVisitor.apply alg cond w.1 w.2 = .ok none) →
      RemoveVisitor.apply alg cond (.MatrixAdd args) r
        = .ok (some (alg.matrix_add (RemoveVisitor.survivors alg cond
            (RemoveVisitor.matrixAddVisits alg cond args r))))) ∧
    (RemoveVisitor.matrixAddVisits alg cond args r).map Prod.fst = args := by
  have hl := matrix_add_loop alg cond args [] r hok
  have hs := survivors_eq_nil_iff alg cond _ hok
  refine ⟨?_, ?_, hl.2⟩
  · rintro (hM | hall)
    · rw [RemoveVisitor.apply]
      simp [hM]
    · rw [RemoveVisitor.apply]
      by_cases hM : cond (.MatrixAdd args) = true
      · simp [hM]
      · simp [hM, hl.1, hs.2 hall]
  · intro hn
    have hM : cond (.MatrixAdd args) = false := by
      cases h : cond (.MatrixAdd args)
      · rfl
      · exact absurd (Or.inl h) hn
    have hne : RemoveVisitor.survivors alg cond
        (RemoveVisitor.matrixAddVisits alg cond args r) ≠ [] :=
      fun h => hn (Or.inr (hs.1 h))
    rw [RemoveVisitor.apply]
    simp only [hM, hl.1, Bool.false_eq_true, if_false, List.nil_append]
    cases hsv : RemoveVisitor.survivors alg cond
        (RemoveVisitor.matrixAddVisits alg cond args r) with
    | nil => exact absurd hsv hne
    | cons t ts => simp

/-- Witness of C7 (amended): `remove_if(D + V + T, {V}) = D + T` in the algebra without
simplification. -/
theorem remove_matrix_add_witness :
    remove_if freeAlgebra (.MatrixAdd [sample.D, sample.V, sample.T]) [sample.V]
      = .ok (some (.MatrixAdd [sample.D, sample.T])) := by
  have hv : RemoveVisitor.matrixAddVisits freeAlgebra (is_equal [sample.V])
      [sample.D, sample.V, sample.T] none
      = [(sample.D, none), (sample.V, some sample.D), (sample.T, none)] := rfl
  have hD : RemoveVisitor.apply freeAlgebra (is_equal [sample.V]) sample.D none
      = .ok (some sample.D) := rfl
  exact (remove_matrix_add freeAlgebra (is_equal [sample.V])
    [sample.D, sample.V, sample.T] none
    (by
      intro w hw
      rw [hv] at hw
      simp only [List.mem_cons, List.mem_singleton, List.not_mem_nil, or_false] at hw
      rcases hw with rfl | rfl | rfl
      · exact ⟨some sample.D, rfl⟩
      · exact ⟨none, rfl⟩
      · exact ⟨some sample.T, rfl⟩)).2.1
    (by
      rintro (h | h)
      · exact absurd h (by decide)
      · have := h (sample.D, none) (by rw [hv]; exact List.mem_cons_self _ _)
        rw [hD] at this
        simp at this)

/-- Counterexample to C7 as stated: the matrix sum `D + A` with the empty symbol set does not
satisfy the predicate and the removal of its operand `D` is not absent, so the claim promises a
matrix sum of the surviving operands; but the operand `A` is a generic matrix symbol, for which
`RemoveVisitor::bvisit(MatrixSymbol)` has no rule, and the traversal raises the
unclassified-node fault. -/
theorem remove_matrix_add_counterexample :
    is_equal [] (.MatrixAdd [sample.D, sample.A]) = false ∧
      remove_if freeAlgebra sample.D [] = .ok (some sample.D) ∧
      remove_if freeAlgebra (.MatrixAdd [sample.D, sample.A]) []
        = .error .NotImplementedError :=
  ⟨rfl, rfl, rfl⟩

/-- C8, at the failing input. The recursive removal of the density matrix `D` with `S = {D}`
is absent, and the trace of `D` is removed with it; but `RemoveVisitor::bvisit` for `Transpose`
and `ConjugateMatrix` calls `remove_ifnot_one_arg_f`, which keeps a wrapper for which the
predicate does not hold without visiting its operand: `remove_if(transpose(D), {D})` and
`remove_if(conjugate(D), {D})` return the wrapper unchanged instead of absent. -/
theorem remove_transpose_failing_input :
    remove_if freeAlgebra sample.D [sample.D] = .ok none ∧
      remove_if freeAlgebra (.Trace sample.D) [sample.D] = .ok none ∧
      remove_if freeAlgebra (.Transpose sample.D) [sample.D]
        = .ok (some (.Transpose sample.D)) ∧
      remove_if freeAlgebra (.ConjugateMatrix sample.D) [sample.D]
        = .ok (some (.ConjugateMatrix sample.D)) :=
  ⟨rfl, rfl, rfl, rfl⟩

/-! ## Properties of the Keep traversal -/

mutual
/-- Structural equality is reflexive. -/
theorem Basic.eq_refl : ∀ x : Basic, Basic.eq x x = true
  | .Symbol a => by simp [Basic.eq]
  | .Perturbation p => by simp [Basic.eq]
  | .Num n => by simp [Basic.eq]
  | .Constant a => by simp [Basic.eq]
  | .Add c d => by simp [Basic.eq, Basic.eqAddDict_refl d]
  | .Mul c d => by simp [Basic.eq, Basic.eqMulDict_refl d]
  | .Pow b e => by simp [Basic.eq, Basic.eq_refl b, Basic.eq_refl e]
  | .NonElecFunction n dep der => by simp [Basic.eq]
  | .TwoElecEnergy n i o dep der => by simp [Basic.eq, Basic.eq_refl i, Basic.eq_refl o]
  | .CompositeFunction n i k => by simp [Basic.eq, Basic.eq_refl i]
  | .ExchCorrEnergy n a e => by simp [Basic.eq, Basic.eqArgs_refl a, Basic.eq_refl e]
  | .FunctionSymbol n a => by simp [Basic.eq, Basic.eqArgs_refl a]
  | .ZeroMatrix r c => by simp [Basic.eq]
  | .LagMultiplier n der => by simp [Basic.eq]
  | .ElectronicState n der => by simp [Basic.eq]
  | .OneElecDensity n der => by simp [Basic.eq]
  | .OneElecOperator n dep der => by simp [Basic.eq]
  | .TwoElecOperator n s dep der => by simp [Basic.eq, Basic.eq_refl s]
  | .ExchCorrPotential n a p => by simp [Basic.eq, Basic.eqArgs_refl a, Basic.eq_refl p]
  | .TemporumOperator t ty => by simp [Basic.eq, Basic.eq_refl t]
  | .TemporumOverlap dep der => by simp [Basic.eq]
  | .ZeroOperator => by simp [Basic.eq]
  | .MatrixSymbol n => by simp [Basic.eq]
  | .Trace a => by simp [Basic.eq, Basic.eq_refl a]
  | .ConjugateMatrix a => by simp [Basic.eq, Basic.eq_refl a]
  | .Transpose a => by simp [Basic.eq, Basic.eq_refl a]
  | .MatrixAdd a => by simp [Basic.eq, Basic.eqArgs_refl a]
  | .MatrixMul a => by simp [Basic.eq, Basic.eqArgs_refl a]
  | .MatrixDerivative a der => by simp [Basic.eq, Basic.eq_refl a]
  | .Other k a => by simp [Basic.eq, Basic.eqArgs_refl a]
termination_by structural x => x
/-- Element-wise equality of operand lists is reflexive. -/
theorem Basic.eqArgs_refl : ∀ xs : List Basic, Basic.eqArgs xs xs = true
  | [] => by simp [Basic.eqArgs]
  | x :: xs => by simp [Basic.eqArgs, Basic.eq_refl x, Basic.eqArgs_refl xs]
termination_by structural x => x
/-- Entry-wise equality of sum dictionaries is reflexive. -/
theorem Basic.eqAddDict_refl : ∀ xs : List (Basic × Number), Basic.eqAddDict xs xs = true
  | [] => by simp [Basic.eqAddDict]
  | (x, c) :: xs => by simp [Basic.eqAddDict, Basic.eq_refl x, Basic.eqAddDict_refl xs]
termination_by structural x => x
/-- Entry-wise equality of product dictionaries is reflexive. -/
theorem Basic.eqMulDict_refl : ∀ xs : List (Basic × Basic), Basic.eqMulDict xs xs = true
  | [] => by simp [Basic.eqMulDict]
  | (x, e) :: xs => by
    simp [Basic.eqMulDict, Basic.eq_refl x, Basic.eq_refl e, Basic.eqMulDict_refl xs]
termination_by structural x => x
end

/-- The predicate of Keep does not hold for a node that is structurally equal to a member of
the symbol set. -/
theorem is_not_equal_of_mem (S : List Basic) (x : Basic)
    (hx : ∃ s ∈ S, Basic.eq x s = true) : is_not_equal S x = false := by
  obtain ⟨s, hs, he⟩ := hx
  cases h : is_not_equal S x
  · rfl
  · simp only [is_not_equal, List.all_eq_true] at h
    have := h s hs
    simp [he] at this

/-- Claim C12: an expression that is structurally equal to a member of the symbol set is
returned whole by the Keep traversal, whatever the register holds and without any visit of the
node, and so it is the outcome of `keep_if` before the removal of zero quantities. -/
theorem keep_member_unvisited (alg : Algebra) (remove_zeros : Basic → Basic) (S : List Basic)
    (x : Basic) (r : Option Basic) (hx : ∃ s ∈ S, Basic.eq x s = true) :
    KeepVisitor.apply alg S x r = .ok (some x) ∧
      keep_if alg remove_zeros x S false = .ok (some x) := by
  have h : ∀ r, KeepVisitor.apply alg S x r = .ok (some x) := by
    intro r
    simp [KeepVisitor.apply, KeepVisitor.guarded, is_not_equal_of_mem S x hx]
  refine ⟨h r, ?_⟩
  simp [keep_if, h none]

/-- Claim C12 at the generic matrix symbol `A` with the set `[A]`: a visit of `A` would raise
the unclassified-node fault, yet `keep_if` returns `A`. -/
theorem keep_member_unvisited_witness :
    (∃ s ∈ [sample.A], Basic.eq sample.A s = true) ∧
      KeepVisitor.bvisit freeAlgebra [sample.A] sample.A none = .error .NotImplementedError ∧
      keep_if freeAlgebra (fun e => e) sample.A [sample.A] false = .ok (some sample.A) :=
  ⟨⟨sample.A, List.mem_singleton.2 rfl, rfl⟩, rfl,
    (keep_member_unvisited freeAlgebra (fun e => e) [sample.A] sample.A none
      ⟨sample.A, List.mem_singleton.2 rfl, rfl⟩).2⟩

/-- Claim C19: `keep_if` is absent exactly when the Keep traversal from an empty register is
absent, whatever the flag; with the flag cleared it is the outcome of the traversal; with the
flag set a result `R` of the traversal becomes `remove_zeros R`; and the flag is set when it
is not given. -/
theorem keep_if_zero_cleanup (alg : Algebra) (remove_zeros : Basic → Basic) (x : Basic)
    (S : List Basic) :
    (∀ f, keep_if alg remove_zeros x S f = .ok none ↔
        KeepVisitor.apply alg S x none = .ok none) ∧
      keep_if alg remove_zeros x S false = KeepVisitor.apply alg S x none ∧
      (∀ R, KeepVisitor.apply alg S x none = .ok (some R) →
        keep_if alg remove_zeros x S true = .ok (some (remove_zeros R))) ∧
      keep_if_default alg remove_zeros x S = keep_if alg remove_zeros x S true := by
  refine ⟨?_, ?_, ?_, rfl⟩
  · intro f
    unfold keep_if
    cases h : KeepVisitor.apply alg S x none with
    | error e => simp
    | ok v => cases v <;> simp
  · unfold keep_if
    cases h : KeepVisitor.apply alg S x none with
    | error e => rfl
    | ok v => cases v <;> simp
  · intro R h
    simp [keep_if, h]

/-- Claim C19 at the product `x * y` with the set `[x]` and a zero remover that sends every
expression to zero: the flag decides whether the remover is applied. -/
theorem keep_if_zero_cleanup_witness :
    keep_if freeAlgebra (fun _ => Basic.Num zero) sample.xy [sample.x] true
        = .ok (some (.Num zero)) ∧
      keep_if freeAlgebra (fun _ => Basic.Num zero) sample.xy [sample.x] false
        = .ok (some sample.xy) :=
  ⟨(keep_if_zero_cleanup freeAlgebra (fun _ => Basic.Num zero) sample.xy
      [sample.x]).2.2.1 sample.xy rfl,
    rfl⟩

/-- The product rule of Keep never gives absent: it ends with the whole product or with the
product made by `Mul::from_dict`. -/
theorem keep_mul_not_absent (alg : Algebra) (S : List Basic) (coef : Number)
    (dict : List (Basic × Basic)) (r : Option Basic) :
    KeepVisitor.apply alg S (.Mul coef dict) r ≠ .ok none := by
  have hfin : ∀ loop, KeepVisitor.finishMul alg (.Mul coef dict) loop ≠ .ok none := by
    intro loop
    unfold KeepVisitor.finishMul
    split <;> simp
  simp only [KeepVisitor.apply, KeepVisitor.guarded, KeepVisitor.bvisit]
  split
  · split
    · simp
    · exact hfin _
    · split
      · simp
      · exact hfin _
  · simp

/-- Claim C15, divergence: the Keep traversal of a scalar product is never absent, whatever
the symbol set. At the failing input `x * y` with the set `[z]` neither the product, nor its
coefficient, nor a pair is in the set and the kept form of each base is absent, yet `keep_if`
returns `x * y`. -/
theorem keep_mul_unmatched_not_absent :
    (∀ (alg : Algebra) (remove_zeros : Basic → Basic) (S : List Basic) (coef : Number)
        (dict : List (Basic × Basic)) (f : Bool),
        keep_if alg remove_zeros (.Mul coef dict) S f ≠ .ok none) ∧
      is_not_equal [sample.z] sample.xy = true ∧
      is_not_equal [sample.z] (.Num one) = true ∧
      is_not_equal [sample.z] (.Pow sample.x (.Num one)) = true ∧
      is_not_equal [sample.z] (.Pow sample.y (.Num one)) = true ∧
      KeepVisitor.apply freeAlgebra [sample.z] sample.x none = .ok none ∧
      KeepVisitor.apply freeAlgebra [sample.z] sample.y none = .ok none ∧
      keep_if freeAlgebra (fun e => e) sample.xy [sample.z] false = .ok (some sample.xy) := by
  refine ⟨?_, rfl, rfl, rfl, rfl, rfl, rfl, rfl⟩
  intro alg remove_zeros S coef dict f
  have h := keep_mul_not_absent alg S coef dict none
  unfold keep_if
  cases hk : KeepVisitor.apply alg S (.Mul coef dict) none with
  | error e => simp
  | ok v =>
    cases v with
    | none => exact absurd hk h
    | some w => simp

/-- The Keep traversal of a node of a symbol-like kind: absent if the node is structurally
equal to no member of the symbol set, otherwise the node. -/
theorem keep_symbol_like (alg : Algebra) (S : List Basic) (x : Basic) (r : Option Basic)
    (hx : x.isSymbolLike = true) :
    KeepVisitor.apply alg S x r = if is_not_equal S x then .ok none else .ok (some x) := by
  cases x <;> simp [Basic.isSymbolLike] at hx <;>
    simp only [KeepVisitor.apply, KeepVisitor.guarded, KeepVisitor.bvisit,
      remove_if_symbol_like] <;>
    split <;> rfl

/-- The loop of the product rule of Keep over pairs with symbol-like bases, one of which is in
the symbol set, ends with the early return that keeps the whole product. -/
theorem keep_mul_loop_whole (alg : Algebra) (S : List Basic) :
    ∀ (dict : List (Basic × Basic)) (acc : Number × List (Basic × Basic)) (r : Option Basic),
      (∀ p ∈ dict, p.1.isSymbolLike = true) →
      (∃ p ∈ dict, is_not_equal S p.1 = false) →
      KeepVisitor.bvisitMul alg S dict acc r = .ok .whole := by
  intro dict
  induction dict with
  | nil => intro acc r _ h; simp at h
  | cons p rest ih =>
    intro acc r hleaf hkept
    obtain ⟨b, e⟩ := p
    have hb : b.isSymbolLike = true := hleaf (b, e) (List.mem_cons_self _ _)
    have hk := keep_symbol_like alg S b r hb
    simp only [KeepVisitor.apply] at hk
    rw [KeepVisitor.bvisitMul]
    split
    · rw [hk]
      cases hnb : is_not_equal S b
      · simp [Basic.eq_refl]
      · simp only [if_true]
        apply ih
        · intro p hp; exact hleaf p (List.mem_cons_of_mem _ hp)
        · obtain ⟨p, hp, hpk⟩ := hkept
          rcases List.mem_cons.1 hp with h | h
          · subst h; simp [hnb] at hpk
          · exact ⟨p, h, hpk⟩
    · rfl

/-- Claim C14: for a product all of whose bases are of symbol-like kinds (the leaf kinds are
among them), if some base is structurally equal to a member of the symbol set, then the Keep
traversal returns the whole product, for every coefficient, every list of pairs in whatever
order, every exponent and every value of the register; so does `keep_if` before the removal of
zero quantities. -/
theorem keep_mul_whole (alg : Algebra) (remove_zeros : Basic → Basic) (S : List Basic)
    (coef : Number) (dict : List (Basic × Basic)) (r : Option Basic)
    (hleaf : ∀ p ∈ dict, p.1.isSymbolLike = true)
    (hkept : ∃ p ∈ dict, is_not_equal S p.1 = false) :
    KeepVisitor.apply alg S (.Mul coef dict) r = .ok (some (.Mul coef dict)) ∧
      keep_if alg remove_zeros (.Mul coef dict) S false = .ok (some (.Mul coef dict)) := by
  have h : ∀ r, KeepVisitor.apply alg S (.Mul coef dict) r = .ok (some (.Mul coef dict)) := by
    intro r
    simp only [KeepVisitor.apply, KeepVisitor.guarded, KeepVisitor.bvisit,
      KeepVisitor.applyNumber, remove_if_symbol_like]
    cases hE : is_not_equal S (.Mul coef dict)
    · simp
    · cases hc : is_not_equal S (.Num coef)
      · simp [Basic.eq_refl]
      · simp [keep_mul_loop_whole alg S dict _ _ hleaf hkept, KeepVisitor.finishMul]
  refine ⟨h r, ?_⟩
  simp [keep_if, h none]

/-- Claim C14 at the products `x * y` and `y * x` with the set `[x]`. -/
theorem keep_mul_whole_witness :
    keep_if freeAlgebra (fun e => e) sample.xy [sample.x] false = .ok (some sample.xy) ∧
      KeepVisitor.apply freeAlgebra [sample.x]
          (.Mul one [(sample.y, .Num one), (sample.x, .Num one)]) none
        = .ok (some (.Mul one [(sample.y, .Num one), (sample.x, .Num one)])) :=
  ⟨(keep_mul_whole freeAlgebra (fun e => e) [sample.x] one
      [(sample.x, .Num one), (sample.y, .Num one)] none
      (by intro p hp; simp at hp; rcases hp with h | h <;> subst h <;> rfl)
      ⟨(sample.x, .Num one), List.mem_cons_self _ _, rfl⟩).2,
    (keep_mul_whole freeAlgebra (fun e => e) [sample.x] one
      [(sample.y, .Num one), (sample.x, .Num one)] none
      (by intro p hp; simp at hp; rcases hp with h | h <;> subst h <;> rfl)
      ⟨(sample.x, .Num one), by simp, rfl⟩).1⟩

/-- The loop of the matrix-product rule of Keep when the kept form of every reached operand is
absent or differs from the operand: every operand is reached, the loop ends with the
remainders of the operands appended to `factors`, and the flag `factors_kept` is set if some
operand has a kept form. -/
theorem keep_matrix_mul_loop (alg : Algebra) (S : List Basic) :
    ∀ (args : List Basic) (acc : List Basic × Bool) (r : Option Basic),
      (∀ w ∈ KeepVisitor.matrixMulVisits alg S args r,
        KeepVisitor.apply alg S w.1 w.2 = .ok none ∨
          ∃ v, KeepVisitor.apply alg S w.1 w.2 = .ok (some v) ∧ Basic.eq w.1 v = false) →
      KeepVisitor.bvisitMatrixMul alg S args acc r
          = .ok (.finished
              (acc.1 ++ KeepVisitor.remainders alg S (KeepVisitor.matrixMulVisits alg S args r),
                acc.2 || KeepVisitor.anyKept alg S (KeepVisitor.matrixMulVisits alg S args r))) ∧
        (KeepVisitor.matrixMulVisits alg S args r).map Prod.fst = args := by
  intro args
  induction args with
  | nil =>
    intro acc r _
    simp [KeepVisitor.bvisitMatrixMul, KeepVisitor.matrixMulVisits, KeepVisitor.remainders,
      KeepVisitor.anyKept]
  | cons arg rest ih =>
    intro acc r h
    have hhead := h (arg, r) (by simp [KeepVisitor.matrixMulVisits])
    rcases hhead with h0 | ⟨v, hv, hne⟩
    · have hrest : ∀ w ∈ KeepVisitor.matrixMulVisits alg S rest none,
          KeepVisitor.apply alg S w.1 w.2 = .ok none ∨
            ∃ v, KeepVisitor.apply alg S w.1 w.2 = .ok (some v) ∧ Basic.eq w.1 v = false := by
        intro w hw
        apply h w
        simp only at h0
        simp [KeepVisitor.matrixMulVisits, h0, hw]
      simp only at h0
      obtain ⟨h1, h2⟩ := ih (acc.1 ++ [arg], acc.2) none hrest
      have h0g := h0
      simp only [KeepVisitor.apply] at h0g
      refine ⟨?_, ?_⟩
      · rw [KeepVisitor.bvisitMatrixMul, h0g]
        simp only [h1]
        simp [KeepVisitor.matrixMulVisits, KeepVisitor.remainders, KeepVisitor.anyKept, h0]
      · simp [KeepVisitor.matrixMulVisits, h0, h2]
    · simp only at hv hne
      have hrest : ∀ w ∈ KeepVisitor.matrixMulVisits alg S rest (some v),
          KeepVisitor.apply alg S w.1 w.2 = .ok none ∨
            ∃ v, KeepVisitor.apply alg S w.1 w.2 = .ok (some v) ∧ Basic.eq w.1 v = false := by
        intro w hw
        apply h w
        simp [KeepVisitor.matrixMulVisits, hv, hne, hw]
      obtain ⟨h1, h2⟩ := ih
        (acc.1 ++ [alg.matrix_add [arg, alg.matrix_mul [.Num minus_one, v]]], true) (some v) hrest
      have hvg := hv
      simp only [KeepVisitor.apply] at hvg
      refine ⟨?_, ?_⟩
      · rw [KeepVisitor.bvisitMatrixMul, hvg]
        simp only [hne, h1]
        simp [KeepVisitor.matrixMulVisits, KeepVisitor.remainders, KeepVisitor.anyKept, hv, hne]
      · simp [KeepVisitor.matrixMulVisits, hv, hne, h2]

/-- The remainders of reached operands whose kept forms are all absent are the operands. -/
theorem keep_remainders_absent (alg : Algebra) (S : List Basic)
    (visits : List (Basic × Option Basic))
    (h : ∀ w ∈ visits, KeepVisitor.apply alg S w.1 w.2 = .ok none) :
    KeepVisitor.remainders alg S visits = visits.map Prod.fst ∧
      KeepVisitor.anyKept alg S visits = false := by
  induction visits with
  | nil => simp [KeepVisitor.remainders, KeepVisitor.anyKept]
  | cons w rest ih =>
    have hw := h w (List.mem_cons_self _ _)
    have ih2 := ih (fun w hw => h w (List.mem_cons_of_mem _ hw))
    simp only [KeepVisitor.remainders, KeepVisitor.anyKept] at ih2 ⊢
    simp [hw, ih2.1, ih2.2]

/-- Claim C16: for a matrix product that is structurally equal to no member of the symbol set,
if the kept form of every operand that the loop reaches is absent, then every operand is
reached and the Keep traversal of the product is absent. -/
theorem keep_matrix_mul_absent (alg : Algebra) (S : List Basic) (args : List Basic)
    (r : Option Basic) (hM : is_not_equal S (.MatrixMul args) = true)
    (habs : ∀ w ∈ KeepVisitor.matrixMulVisits alg S args r,
      KeepVisitor.apply alg S w.1 w.2 = .ok none) :
    KeepVisitor.apply alg S (.MatrixMul args) r = .ok none ∧
      (KeepVisitor.matrixMulVisits alg S args r).map Prod.fst = args := by
  obtain ⟨h1, h2⟩ := keep_matrix_mul_loop alg S args ([.Num minus_one], false) r
    (fun w hw => Or.inl (habs w hw))
  obtain ⟨-, h4⟩ := keep_remainders_absent alg S _ habs
  refine ⟨?_, h2⟩
  simp [KeepVisitor.apply, KeepVisitor.guarded, KeepVisitor.bvisit, hM, h1, h4,
    KeepVisitor.finishMatrixMul]

/-- Claim C16 at the matrix product `D * V` with the set `[T]`: the kept forms of `D` and of
`V` are absent and so is `keep_if`. -/
theorem keep_matrix_mul_absent_witness :
    KeepVisitor.apply freeAlgebra [sample.T] sample.D none = .ok none ∧
      KeepVisitor.apply freeAlgebra [sample.T] sample.V none = .ok none ∧
      KeepVisitor.apply freeAlgebra [sample.T] (.MatrixMul [sample.D, sample.V]) none
        = .ok none :=
  ⟨rfl, rfl,
    (keep_matrix_mul_absent freeAlgebra [sample.T] [sample.D, sample.V] none rfl
      (by
        intro w hw
        have hv : KeepVisitor.matrixMulVisits freeAlgebra [sample.T] [sample.D, sample.V] none
            = [(sample.D, none), (sample.V, none)] := rfl
        rw [hv] at hw
        simp at hw
        rcases hw with h | h <;> subst h <;> rfl)).1⟩

set_option maxHeartbeats 4000000 in
mutual
theorem Basic.eq_sound : ∀ x y : Basic, Basic.eq x y = true → x = y
  | .Symbol a, y, h => by cases y <;> simp_all [Basic.eq]
  | .Perturbation p, y, h => by cases y <;> simp_all [Basic.eq]
  | .Num n, y, h => by cases y <;> simp_all [Basic.eq]
  | .Constant a, y, h => by cases y <;> simp_all [Basic.eq]
  | .Add c d, y, h => by
    cases y <;> simp [Basic.eq] at h
    exact congrArg₂ _ h.1 (Basic.eqAddDict_sound _ _ h.2)
  | .Mul c d, y, h => by
    cases y <;> simp [Basic.eq] at h
    exact congrArg₂ _ h.1 (Basic.eqMulDict_sound _ _ h.2)
  | .Pow b e, y, h => by
    cases y <;> simp [Basic.eq] at h
    exact congrArg₂ _ (Basic.eq_sound _ _ h.1) (Basic.eq_sound _ _ h.2)
  | .NonElecFunction n dep der, y, h => by cases y <;> simp_all [Basic.eq]
  | .TwoElecEnergy n i o dep der, y, h => by
    cases y <;> simp [Basic.eq] at h
    obtain ⟨⟨⟨⟨h1, h2⟩, h3⟩, h4⟩, h5⟩ := h
    rw [h1, Basic.eq_sound _ _ h2, Basic.eq_sound _ _ h3, h4, h5]
  | .CompositeFunction n i k, y, h => by
    cases y <;> simp [Basic.eq] at h
    obtain ⟨⟨h1, h2⟩, h3⟩ := h
    rw [h1, Basic.eq_sound _ _ h2, h3]
  | .ExchCorrEnergy n a e, y, h => by
    cases y <;> simp [Basic.eq] at h
    obtain ⟨⟨h1, h2⟩, h3⟩ := h
    rw [h1, Basic.eqArgs_sound _ _ h2, Basic.eq_sound _ _ h3]
  | .FunctionSymbol n a, y, h => by
    cases y <;> simp [Basic.eq] at h
    rw [h.1, Basic.eqArgs_sound _ _ h.2]
  | .ZeroMatrix r c, y, h => by cases y <;> simp_all [Basic.eq]
  | .LagMultiplier n der, y, h => by cases y <;> simp_all [Basic.eq]
  | .ElectronicState n der, y, h => by cases y <;> simp_all [Basic.eq]
  | .OneElecDensity n der, y, h => by cases y <;> simp_all [Basic.eq]
  | .OneElecOperator n dep der, y, h => by cases y <;> simp_all [Basic.eq]
  | .TwoElecOperator n s dep der, y, h => by
    cases y <;> simp [Basic.eq] at h
    obtain ⟨⟨⟨h1, h2⟩, h3⟩, h4⟩ := h
    rw [h1, Basic.eq_sound _ _ h2, h3, h4]
  | .ExchCorrPotential n a p, y, h => by
    cases y <;> simp [Basic.eq] at h
    obtain ⟨⟨h1, h2⟩, h3⟩ := h
    rw [h1, Basic.eqArgs_sound _ _ h2, Basic.eq_sound _ _ h3]
  | .TemporumOperator t ty, y, h => by
    cases y <;> simp [Basic.eq] at h
    rw [Basic.eq_sound _ _ h.1, h.2]
  | .TemporumOverlap dep der, y, h => by cases y <;> simp_all [Basic.eq]
  | .ZeroOperator, y, h => by cases y <;> simp_all [Basic.eq]
  | .MatrixSymbol n, y, h => by cases y <;> simp_all [Basic.eq]
  | .Trace a, y, h => by
    cases y <;> simp [Basic.eq] at h
    rw [Basic.eq_sound _ _ h]
  | .ConjugateMatrix a, y, h => by
    cases y <;> simp [Basic.eq] at h
    rw [Basic.eq_sound _ _ h]
  | .Transpose a, y, h => by
    cases y <;> simp [Basic.eq] at h
    rw [Basic.eq_sound _ _ h]
  | .MatrixAdd a, y, h => by
    cases y <;> simp [Basic.eq] at h
    rw [Basic.eqArgs_sound _ _ h]
  | .MatrixMul a, y, h => by
    cases y <;> simp [Basic.eq] at h
    rw [Basic.eqArgs_sound _ _ h]
  | .MatrixDerivative a der, y, h => by
    cases y <;> simp [Basic.eq] at h
    rw [Basic.eq_sound _ _ h.1, h.2]
  | .Other k a, y, h => by
    cases y <;> simp [Basic.eq] at h
    rw [h.1, Basic.eqArgs_sound _ _ h.2]
termination_by structural x => x
theorem Basic.eqArgs_sound : ∀ xs ys : List Basic, Basic.eqArgs xs ys = true → xs = ys
  | [], ys, h => by cases ys <;> simp_all [Basic.eqArgs]
  | x :: xs, ys, h => by
    cases ys <;> simp [Basic.eqArgs] at h
    rw [Basic.eq_sound _ _ h.1, Basic.eqArgs_sound _ _ h.2]
termination_by structural x => x
theorem Basic.eqAddDict_sound :
    ∀ xs ys : List (Basic × Number), Basic.eqAddDict xs ys = true → xs = ys
  | [], ys, h => by cases ys <;> simp_all [Basic.eqAddDict]
  | (x, c) :: xs, ys, h => by
    cases ys with
    | nil => simp [Basic.eqAddDict] at h
    | cons y ys =>
      obtain ⟨y, c2⟩ := y
      simp [Basic.eqAddDict] at h
      rw [Basic.eq_sound _ _ h.1.1, h.1.2, Basic.eqAddDict_sound _ _ h.2]
termination_by structural x => x
theorem Basic.eqMulDict_sound :
    ∀ xs ys : List (Basic × Basic), Basic.eqMulDict xs ys = true → xs = ys
  | [], ys, h => by cases ys <;> simp_all [Basic.eqMulDict]
  | (x, e) :: xs, ys, h => by
    cases ys with
    | nil => simp [Basic.eqMulDict] at h
    | cons y ys =>
      obtain ⟨y, e2⟩ := y
      simp [Basic.eqMulDict] at h
      rw [Basic.eq_sound _ _ h.1.1, Basic.eq_sound _ _ h.1.2, Basic.eqMulDict_sound _ _ h.2]
termination_by structural x => x
end

/-! ## Properties of the Find traversal -/

/-- The wrapper rule of Find for a target of the same wrapper kind, started from an empty result
set: the fault of the inner search, or the wrapper alone if the inner search found a node, or
the empty set. -/
theorem find_promote_nil (x : Basic) (inner : Except Fault (List Basic)) :
    find_promote x [] inner
      = match inner with
        | .error f => .error f
        | .ok found => .ok (if found.isEmpty then [] else [x]) := by
  cases inner with
  | error f => rfl
  | ok found => cases found <;> simp [find_promote, set_insert]

/-- Claim C21 as amended: for a trace, a conjugate or a transpose `K(X)` and a target `K(T)` of
the same kind, `find_all(K(X), K(T))` raises the fault that `find_all(X, T)` raises, and
otherwise is the singleton of `K(X)` if `find_all(X, T)` is not empty and the empty set if it
is empty; for a target `t` that is not of the kind `K`, `find_all(K(X), t)` is
`find_all(X, t)`. -/
theorem find_all_wrapper (alg : Algebra) (X T t : Basic) :
    (find_all alg (.Trace X) (.Trace T)
        = match find_all alg X T with
          | .error f => .error f
          | .ok found => .ok (if found.isEmpty then [] else [.Trace X])) ∧
      (find_all alg (.ConjugateMatrix X) (.ConjugateMatrix T)
        = match find_all alg X T with
          | .error f => .error f
          | .ok found => .ok (if found.isEmpty then [] else [.ConjugateMatrix X])) ∧
      (find_all alg (.Transpose X) (.Transpose T)
        = match find_all alg X T with
          | .error f => .error f
          | .ok found => .ok (if found.isEmpty then [] else [.Transpose X])) ∧
      ((∀ T, t ≠ .Trace T) → find_all alg (.Trace X) t = find_all alg X t) ∧
      ((∀ T, t ≠ .ConjugateMatrix T) →
        find_all alg (.ConjugateMatrix X) t = find_all alg X t) ∧
      ((∀ T, t ≠ .Transpose T) → find_all alg (.Transpose X) t = find_all alg X t) := by
  refine ⟨?_, ?_, ?_, ?_, ?_, ?_⟩
  · simp only [find_all, FindAllVisitor.apply, find_promote_nil]
  · simp only [find_all, FindAllVisitor.apply, find_promote_nil]
  · simp only [find_all, FindAllVisitor.apply, find_promote_nil]
  · intro h
    cases t <;> simp [find_all, FindAllVisitor.apply] at h ⊢
  · intro h
    cases t <;> simp [find_all, FindAllVisitor.apply] at h ⊢
  · intro h
    cases t <;> simp [find_all, FindAllVisitor.apply] at h ⊢

/-- Claim C21 as amended, at the trace of the density `D`: with the target `tr(D)` the result
is the trace alone, with the target `tr(V)` it is empty, and with the target `D`, which is not
a trace, it is the density found in the operand. -/
theorem find_all_wrapper_witness :
    find_all freeAlgebra (.Trace sample.D) (.Trace sample.D) = .ok [.Trace sample.D] ∧
      find_all freeAlgebra (.Trace sample.D) (.Trace sample.V) = .ok [] ∧
      find_all freeAlgebra (.Trace sample.D) sample.D = .ok [sample.D] :=
  ⟨(find_all_wrapper freeAlgebra sample.D sample.D sample.D).1,
    (find_all_wrapper freeAlgebra sample.D sample.V sample.D).1,
    ((find_all_wrapper freeAlgebra sample.D sample.D sample.D).2.2.2.1
      (by intro T h; cases h)).trans rfl⟩

/-- Claim C21 as stated fails at the trace of a generic matrix symbol `A` with the target
`tr(D)`: `find_all(A, D)` is not a non-empty set, yet `find_all(tr(A), tr(D))` is not the empty
set: it raises the unclassified-node fault. -/
theorem find_all_wrapper_counterexample :
    find_all freeAlgebra sample.A sample.D = .error .NotImplementedError ∧
      find_all freeAlgebra (.Trace sample.A) (.Trace sample.D)
        = .error .NotImplementedError :=
  ⟨rfl, rfl⟩

/-- Claim C22: for a matrix-derivative node with operand `A` and every target `t`, `find_all`
is the singleton of the node if `A` is structurally equal to `t`, and the empty set
otherwise. -/
theorem find_all_matrix_derivative (alg : Algebra) (A : Basic) (der : PertMultichain)
    (t : Basic) :
    find_all alg (.MatrixDerivative A der) t
      = .ok (if Basic.eq A t then [.MatrixDerivative A der] else []) := by
  simp [find_all, FindAllVisitor.apply, set_insert]

/-- Claim C22 at the derivative of the density `D`: it is found for the target `D` and not for
the target `V`, nor for the derivative itself. -/
theorem find_all_matrix_derivative_witness :
    find_all freeAlgebra (.MatrixDerivative sample.D []) sample.D
        = .ok [.MatrixDerivative sample.D []] ∧
      find_all freeAlgebra (.MatrixDerivative sample.D []) sample.V = .ok [] :=
  ⟨(find_all_matrix_derivative freeAlgebra sample.D [] sample.D).trans rfl,
    (find_all_matrix_derivative freeAlgebra sample.D [] sample.V).trans rfl⟩

/-- Claim C27 as amended: for time-derivative nodes `N` (target `X`, type tag `t1`) and `T`
(target `Y`, type tag `t2`), `find_all(N, T)` returns a set that contains `N` if and only if
`find_all(X, Y)` returns a non-empty set, whatever the type tags are; the set is then the
singleton of `N`. -/
theorem find_all_temporum (alg : Algebra) (X Y : Basic) (t1 t2 : TemporumType) :
    ((∃ found, find_all alg (.TemporumOperator X t1) (.TemporumOperator Y t2) = .ok found ∧
        Basic.TemporumOperator X t1 ∈ found) ↔
      ∃ inner, find_all alg X Y = .ok inner ∧ inner ≠ []) ∧
    (find_all alg (.TemporumOperator X t1) (.TemporumOperator Y t2)
      = match find_all alg X Y with
        | .error f => .error f
        | .ok inner => .ok (if inner.isEmpty then [] else [.TemporumOperator X t1])) := by
  have h : find_all alg (.TemporumOperator X t1) (.TemporumOperator Y t2)
      = match find_all alg X Y with
        | .error f => .error f
        | .ok inner => .ok (if inner.isEmpty then [] else [.TemporumOperator X t1]) := by
    simp only [find_all, FindAllVisitor.apply, find_promote_nil]
  refine ⟨?_, h⟩
  rw [h]
  cases find_all alg X Y with
  | error f => simp
  | ok inner => cases inner <;> simp

/-- Claim C27 as amended, at the time derivative of the density `D` on the bra side with the
time derivative of `D` on the ket side as target. -/
theorem find_all_temporum_witness :
    ∃ found, find_all freeAlgebra (.TemporumOperator sample.D .Bra)
        (.TemporumOperator sample.D .Ket) = .ok found ∧
      Basic.TemporumOperator sample.D .Bra ∈ found :=
  (find_all_temporum freeAlgebra sample.D sample.D .Bra .Ket).1.2 ⟨[sample.D], rfl, by simp⟩

/-- Claim C27 as stated fails at the time derivative of the density `D` on the bra side with
the time derivative of `D` on the ket side as target: the type tags differ and the node is
found. -/
theorem find_all_temporum_counterexample :
    TemporumType.Bra ≠ TemporumType.Ket ∧
      find_all freeAlgebra sample.D sample.D = .ok [sample.D] ∧
      find_all freeAlgebra (.TemporumOperator sample.D .Bra) (.TemporumOperator sample.D .Ket)
        = .ok [.TemporumOperator sample.D .Bra] :=
  ⟨by decide, rfl, rfl⟩
/-- The Find traversal reports an expression for a target equal to itself, alone, if the
expression is of a kind whose rule tests the whole node, or a trace, conjugate, transpose or
time derivative of such an expression. -/
theorem find_all_self (alg : Algebra) :
    ∀ E : Basic, E.isSelfFound = true → find_all alg E E = .ok [E]
  | .Symbol n, h => by
    simp [find_all, FindAllVisitor.apply, find_equivalence, find_only_name,
      find_with_dependencies, dependency_equivalent, Basic.eq_refl, Basic.eqArgs_refl,
      set_insert]
  | .Perturbation p, h => by
    simp [find_all, FindAllVisitor.apply, find_equivalence, find_only_name,
      find_with_dependencies, dependency_equivalent, Basic.eq_refl, Basic.eqArgs_refl,
      set_insert]
  | .Num n, h => by
    simp [find_all, FindAllVisitor.apply, find_equivalence, find_only_name,
      find_with_dependencies, dependency_equivalent, Basic.eq_refl, Basic.eqArgs_refl,
      set_insert]
  | .Constant n, h => by
    simp [find_all, FindAllVisitor.apply, find_equivalence, find_only_name,
      find_with_dependencies, dependency_equivalent, Basic.eq_refl, Basic.eqArgs_refl,
      set_insert]
  | .Add coef dict, h => by
    simp [find_all, FindAllVisitor.apply, find_equivalence, find_only_name,
      find_with_dependencies, dependency_equivalent, Basic.eq_refl, Basic.eqArgs_refl,
      set_insert]
  | .Mul coef dict, h => by
    simp [find_all, FindAllVisitor.apply, find_equivalence, find_only_name,
      find_with_dependencies, dependency_equivalent, Basic.eq_refl, Basic.eqArgs_refl,
      set_insert]
  | .Pow b e, h => by simp [Basic.isSelfFound] at h
  | .NonElecFunction n dep der, h => by
    simp [find_all, FindAllVisitor.apply, find_equivalence, find_only_name,
      find_with_dependencies, dependency_equivalent, Basic.eq_refl, Basic.eqArgs_refl,
      set_insert]
  | .TwoElecEnergy n inner outer dep der, h => by
    simp [find_all, FindAllVisitor.apply, find_equivalence, find_only_name,
      find_with_dependencies, dependency_equivalent, Basic.eq_refl, Basic.eqArgs_refl,
      set_insert]
  | .CompositeFunction n inner k, h => by
    simp [find_all, FindAllVisitor.apply, find_equivalence, find_only_name,
      find_with_dependencies, dependency_equivalent, Basic.eq_refl, Basic.eqArgs_refl,
      set_insert]
  | .ExchCorrEnergy n args energy, h => by
    simp [find_all, FindAllVisitor.apply, find_equivalence, find_only_name,
      find_with_dependencies, dependency_equivalent, Basic.eq_refl, Basic.eqArgs_refl,
      set_insert]
  | .FunctionSymbol n args, h => by simp [Basic.isSelfFound] at h
  | .ZeroMatrix m n, h => by
    simp [find_all, FindAllVisitor.apply, find_equivalence, find_only_name,
      find_with_dependencies, dependency_equivalent, Basic.eq_refl, Basic.eqArgs_refl,
      set_insert]
  | .LagMultiplier n der, h => by
    simp [find_all, FindAllVisitor.apply, find_equivalence, find_only_name,
      find_with_dependencies, dependency_equivalent, Basic.eq_refl, Basic.eqArgs_refl,
      set_insert]
  | .ElectronicState n der, h => by simp [Basic.isSelfFound] at h
  | .OneElecDensity n der, h => by
    simp [find_all, FindAllVisitor.apply, find_equivalence, find_only_name,
      find_with_dependencies, dependency_equivalent, Basic.eq_refl, Basic.eqArgs_refl,
      set_insert]
  | .OneElecOperator n dep der, h => by
    simp [find_all, FindAllVisitor.apply, find_equivalence, find_only_name,
      find_with_dependencies, dependency_equivalent, Basic.eq_refl, Basic.eqArgs_refl,
      set_insert]
  | .TwoElecOperator n state dep der, h => by
    simp [find_all, FindAllVisitor.apply, find_equivalence, find_only_name,
      find_with_dependencies, dependency_equivalent, Basic.eq_refl, Basic.eqArgs_refl,
      set_insert]
  | .ExchCorrPotential n args potential, h => by
    simp [find_all, FindAllVisitor.apply, find_equivalence, find_only_name,
      find_with_dependencies, dependency_equivalent, Basic.eq_refl, Basic.eqArgs_refl,
      set_insert]
  | .TemporumOperator target ty, h => by
    have ih := find_all_self alg target (by simpa [Basic.isSelfFound] using h)
    simp only [find_all] at ih ⊢
    simp [FindAllVisitor.apply, find_promote_nil, ih]
  | .TemporumOverlap dep der, h => by
    simp [find_all, FindAllVisitor.apply, find_equivalence, find_only_name,
      find_with_dependencies, dependency_equivalent, Basic.eq_refl, Basic.eqArgs_refl,
      set_insert]
  | .ZeroOperator, h => by
    simp [find_all, FindAllVisitor.apply, find_equivalence, find_only_name,
      find_with_dependencies, dependency_equivalent, Basic.eq_refl, Basic.eqArgs_refl,
      set_insert]
  | .MatrixSymbol n, h => by simp [Basic.isSelfFound] at h
  | .Trace arg, h => by
    have ih := find_all_self alg arg (by simpa [Basic.isSelfFound] using h)
    simp only [find_all] at ih ⊢
    simp [FindAllVisitor.apply, find_promote_nil, ih]
  | .ConjugateMatrix arg, h => by
    have ih := find_all_self alg arg (by simpa [Basic.isSelfFound] using h)
    simp only [find_all] at ih ⊢
    simp [FindAllVisitor.apply, find_promote_nil, ih]
  | .Transpose arg, h => by
    have ih := find_all_self alg arg (by simpa [Basic.isSelfFound] using h)
    simp only [find_all] at ih ⊢
    simp [FindAllVisitor.apply, find_promote_nil, ih]
  | .MatrixAdd args, h => by
    simp [find_all, FindAllVisitor.apply, find_equivalence, find_only_name,
      find_with_dependencies, dependency_equivalent, Basic.eq_refl, Basic.eqArgs_refl,
      set_insert]
  | .MatrixMul args, h => by
    simp [find_all, FindAllVisitor.apply, find_equivalence, find_only_name,
      find_with_dependencies, dependency_equivalent, Basic.eq_refl, Basic.eqArgs_refl,
      set_insert]
  | .MatrixDerivative arg der, h => by simp [Basic.isSelfFound] at h
  | .Other k args, h => by simp [Basic.isSelfFound] at h

/-- The Find traversal reports nothing for a target equal to the expression if the expression
is a matrix-derivative or a trace, conjugate, transpose or time derivative wrapped around one,
or around a node of a kind without a rule. -/
theorem find_all_not_self (alg : Algebra) :
    ∀ E : Basic, E.isSelfFound = false →
      ∀ found, find_all alg E E = .ok found → found = []
  | .Symbol n, h, found, h2 => by simp [Basic.isSelfFound] at h
  | .Perturbation p, h, found, h2 => by simp [Basic.isSelfFound] at h
  | .Num n, h, found, h2 => by simp [Basic.isSelfFound] at h
  | .Constant n, h, found, h2 => by simp [Basic.isSelfFound] at h
  | .Add coef dict, h, found, h2 => by simp [Basic.isSelfFound] at h
  | .Mul coef dict, h, found, h2 => by simp [Basic.isSelfFound] at h
  | .Pow b e, h, found, h2 => by simp [find_all, FindAllVisitor.apply] at h2
  | .NonElecFunction n dep der, h, found, h2 => by simp [Basic.isSelfFound] at h
  | .TwoElecEnergy n inner outer dep der, h, found, h2 => by simp [Basic.isSelfFound] at h
  | .CompositeFunction n inner k, h, found, h2 => by simp [Basic.isSelfFound] at h
  | .ExchCorrEnergy n args energy, h, found, h2 => by simp [Basic.isSelfFound] at h
  | .FunctionSymbol n args, h, found, h2 => by simp [find_all, FindAllVisitor.apply] at h2
  | .ZeroMatrix m n, h, found, h2 => by simp [Basic.isSelfFound] at h
  | .LagMultiplier n der, h, found, h2 => by simp [Basic.isSelfFound] at h
  | .ElectronicState n der, h, found, h2 => by simp [find_all, FindAllVisitor.apply] at h2
  | .OneElecDensity n der, h, found, h2 => by simp [Basic.isSelfFound] at h
  | .OneElecOperator n dep der, h, found, h2 => by simp [Basic.isSelfFound] at h
  | .TwoElecOperator n state dep der, h, found, h2 => by simp [Basic.isSelfFound] at h
  | .ExchCorrPotential n args potential, h, found, h2 => by simp [Basic.isSelfFound] at h
  | .TemporumOperator target ty, h, found, h2 => by
    have ih := find_all_not_self alg target (by simpa [Basic.isSelfFound] using h)
    simp only [find_all] at ih h2 ⊢
    simp only [FindAllVisitor.apply, find_promote_nil] at h2
    cases hin : FindAllVisitor.apply alg target target [] with
    | error f => simp [hin] at h2
    | ok inner =>
      have := ih inner hin
      subst this
      simpa [hin] using h2.symm
  | .TemporumOverlap dep der, h, found, h2 => by simp [Basic.isSelfFound] at h
  | .ZeroOperator, h, found, h2 => by simp [Basic.isSelfFound] at h
  | .MatrixSymbol n, h, found, h2 => by simp [find_all, FindAllVisitor.apply] at h2
  | .Trace arg, h, found, h2 => by
    have ih := find_all_not_self alg arg (by simpa [Basic.isSelfFound] using h)
    simp only [find_all] at ih h2 ⊢
    simp only [FindAllVisitor.apply, find_promote_nil] at h2
    cases hin : FindAllVisitor.apply alg arg arg [] with
    | error f => simp [hin] at h2
    | ok inner =>
      have := ih inner hin
      subst this
      simpa [hin] using h2.symm
  | .ConjugateMatrix arg, h, found, h2 => by
    have ih := find_all_not_self alg arg (by simpa [Basic.isSelfFound] using h)
    simp only [find_all] at ih h2 ⊢
    simp only [FindAllVisitor.apply, find_promote_nil] at h2
    cases hin : FindAllVisitor.apply alg arg arg [] with
    | error f => simp [hin] at h2
    | ok inner =>
      have := ih inner hin
      subst this
      simpa [hin] using h2.symm
  | .Transpose arg, h, found, h2 => by
    have ih := find_all_not_self alg arg (by simpa [Basic.isSelfFound] using h)
    simp only [find_all] at ih h2 ⊢
    simp only [FindAllVisitor.apply, find_promote_nil] at h2
    cases hin : FindAllVisitor.apply alg arg arg [] with
    | error f => simp [hin] at h2
    | ok inner =>
      have := ih inner hin
      subst this
      simpa [hin] using h2.symm
  | .MatrixAdd args, h, found, h2 => by simp [Basic.isSelfFound] at h
  | .MatrixMul args, h, found, h2 => by simp [Basic.isSelfFound] at h
  | .MatrixDerivative arg der, h, found, h2 => by
    have hne : Basic.eq arg (.MatrixDerivative arg der) = false := by
      cases hq : Basic.eq arg (.MatrixDerivative arg der)
      · rfl
      · have := congrArg sizeOf (Basic.eq_sound _ _ hq)
        simp at this
        omega
    simpa [find_all, FindAllVisitor.apply, hne] using h2.symm
  | .Other k args, h, found, h2 => by simp [find_all, FindAllVisitor.apply] at h2

/-- Claim C25 as amended: `find_all(E, E)` is the singleton of `E` for every expression `E`
that is of a kind whose Find rule tests the whole node against the target (every kind with a
rule but the matrix-derivative and the four wrappers), or a trace, conjugate, transpose or
time derivative wrapped around such an expression; for every other expression `find_all(E, E)`
does not contain `E`: it raises the fault or is empty. -/
theorem find_all_itself (alg : Algebra) (E : Basic) :
    (E.isSelfFound = true → find_all alg E E = .ok [E]) ∧
      (E.isSelfFound = false → ∀ found, find_all alg E E = .ok found → found = []) :=
  ⟨find_all_self alg E, find_all_not_self alg E⟩

/-- Claim C25 as amended, at the sum `a + c` and at the trace of the conjugate of the density
`D`. -/
theorem find_all_itself_witness :
    find_all freeAlgebra sample.a_plus_c sample.a_plus_c = .ok [sample.a_plus_c] ∧
      find_all freeAlgebra (.Trace (.ConjugateMatrix sample.D))
          (.Trace (.ConjugateMatrix sample.D))
        = .ok [.Trace (.ConjugateMatrix sample.D)] :=
  ⟨(find_all_itself freeAlgebra sample.a_plus_c).1 rfl,
    (find_all_itself freeAlgebra (.Trace (.ConjugateMatrix sample.D))).1 rfl⟩

/-- Claim C25 as stated fails at the derivative of the density `D` and at its trace, which
are built from kinds that Find supports: `find_all(E, E)` is empty, because the rule of the
matrix-derivative compares the operand `D` with the target. -/
theorem find_all_itself_counterexample :
    find_all freeAlgebra (.MatrixDerivative sample.D []) (.MatrixDerivative sample.D [])
        = .ok [] ∧
      find_all freeAlgebra (.Trace (.MatrixDerivative sample.D []))
          (.Trace (.MatrixDerivative sample.D [])) = .ok [] :=
  ⟨rfl, rfl⟩

/-- Insertion of a node equal to `t` into a result set that is empty or the singleton of `t`
gives the singleton of `t`. -/
theorem set_insert_at_most (t x : Basic) (result : List Basic) (hx : Basic.eq x t = true)
    (hP : result = [] ∨ result = [t]) : set_insert result x = [t] := by
  have := Basic.eq_sound _ _ hx
  subst this
  rcases hP with h | h <;> subst h <;> simp [set_insert, Basic.eq_refl]

/-- A leaf rule of Find keeps the result set empty or the singleton of the target. -/
theorem find_leaf_at_most (t x : Basic) (result : List Basic) (m : Bool)
    (hm : m = true → Basic.eq x t = true) (hP : result = [] ∨ result = [t]) :
    FindAllVisitor.atMost t (.ok (if m then set_insert result x else result)) := by
  cases m with
  | false => exact ⟨result, rfl, hP⟩
  | true => exact ⟨_, rfl, Or.inr (set_insert_at_most t x result (hm rfl) hP)⟩

/-- A numeric literal or a generic symbol is matched by name by no node. -/
theorem find_only_name_literal (t x : Basic) (ht : t.isNumberOrSymbol = true) :
    find_only_name t x = false := by
  cases t <;> simp [Basic.isNumberOrSymbol] at ht <;> cases x <;> simp [find_only_name]

/-- A numeric literal or a generic symbol is dependency-equivalent to no node. -/
theorem find_with_dependencies_literal (t x : Basic) (ht : t.isNumberOrSymbol = true) :
    find_with_dependencies t x = false := by
  cases t <;> simp [Basic.isNumberOrSymbol] at ht <;> cases x <;>
    simp [find_with_dependencies]

/-- A matrix symbol is structurally equal to no numeric literal and to no generic symbol. -/
theorem eq_matrix_symbol_literal (t x : Basic) (ht : t.isNumberOrSymbol = true)
    (hx : x.isMatrixSymbol = true) : Basic.eq x t = false := by
  cases t <;> simp [Basic.isNumberOrSymbol] at ht <;> cases x <;>
    simp [Basic.isMatrixSymbol] at hx <;> simp [Basic.eq]

mutual
/-- For a target that is a numeric literal or a generic symbol and an expression built from
node kinds that Find supports, the traversal raises no fault and keeps a result set that is
empty or the singleton of the target. -/
theorem find_at_most (alg : Algebra) (t : Basic) (ht : t.isNumberOrSymbol = true) :
    ∀ x : Basic, x.isFindSupported = true → ∀ result, (result = [] ∨ result = [t]) →
      FindAllVisitor.atMost t (FindAllVisitor.apply alg x t result)
  | .Symbol n, h, result, hP => by
    simp only [FindAllVisitor.apply]
    exact find_leaf_at_most t _ result _ (fun hm => hm) hP
  | .Perturbation p, h, result, hP => by
    simp only [FindAllVisitor.apply]
    exact find_leaf_at_most t _ result _ (fun hm => hm) hP
  | .Num n, h, result, hP => by
    simp only [FindAllVisitor.apply]
    exact find_leaf_at_most t _ result _ (fun hm => hm) hP
  | .Constant n, h, result, hP => by
    simp only [FindAllVisitor.apply]
    exact find_leaf_at_most t _ result _ (fun hm => hm) hP
  | .Add coef dict, h, result, hP => by
    have ih := find_at_most_add alg t ht _ (by simpa [Basic.isFindSupported] using h)
    simp only [FindAllVisitor.apply]
    split
    · rename_i hm
      exact ⟨_, rfl, Or.inr (set_insert_at_most t _ result hm hP)⟩
    · split
      · rename_i hm
        exact ⟨_, rfl, Or.inr (set_insert_at_most t _ result hm hP)⟩
      · exact ih result hP
  | .Mul coef dict, h, result, hP => by
    have ih := find_at_most_mul alg t ht _ (by simpa [Basic.isFindSupported] using h)
    simp only [FindAllVisitor.apply]
    split
    · rename_i hm
      exact ⟨_, rfl, Or.inr (set_insert_at_most t _ result hm hP)⟩
    · split
      · rename_i hm
        exact ⟨_, rfl, Or.inr (set_insert_at_most t _ result hm hP)⟩
      · exact ih result hP
  | .Pow b e, h, result, hP => by simp [Basic.isFindSupported] at h
  | .NonElecFunction n dep der, h, result, hP => by
    simp only [FindAllVisitor.apply, find_with_dependencies_literal t _ ht]
    exact ⟨result, rfl, hP⟩
  | .TwoElecEnergy n inner outer dep der, h, result, hP => by
    simp only [Basic.isFindSupported, Bool.and_eq_true] at h
    simp only [FindAllVisitor.apply, find_with_dependencies_literal t _ ht]
    obtain ⟨r1, h1, hP1⟩ := find_at_most alg t ht inner h.1 result hP
    simp only [Bool.false_eq_true, if_false, h1]
    exact find_at_most alg t ht outer h.2 r1 hP1
  | .CompositeFunction n inner k, h, result, hP => by
    have ih := find_at_most alg t ht inner (by simpa [Basic.isFindSupported] using h) result hP
    cases t <;> simp [Basic.isNumberOrSymbol] at ht <;>
      simpa [FindAllVisitor.apply, find_with_dependencies] using ih
  | .ExchCorrEnergy n args energy, h, result, hP => by
    have ih := find_at_most alg t ht energy (by simpa [Basic.isFindSupported] using h) result hP
    cases t <;> simp [Basic.isNumberOrSymbol] at ht <;>
      simpa [FindAllVisitor.apply, find_with_dependencies] using ih
  | .FunctionSymbol n args, h, result, hP => by simp [Basic.isFindSupported] at h
  | .ZeroMatrix m n, h, result, hP => by
    simp only [FindAllVisitor.apply]
    exact find_leaf_at_most t _ result _ (fun hm => hm) hP
  | .LagMultiplier n der, h, result, hP => by
    simp only [FindAllVisitor.apply, find_only_name_literal t _ ht]
    exact ⟨result, rfl, hP⟩
  | .ElectronicState n der, h, result, hP => by simp [Basic.isFindSupported] at h
  | .OneElecDensity n der, h, result, hP => by
    simp only [FindAllVisitor.apply, find_only_name_literal t _ ht]
    exact ⟨result, rfl, hP⟩
  | .OneElecOperator n dep der, h, result, hP => by
    simp only [FindAllVisitor.apply, find_with_dependencies_literal t _ ht]
    exact ⟨result, rfl, hP⟩
  | .TwoElecOperator n state dep der, h, result, hP => by
    simp only [Basic.isFindSupported] at h
    simp only [FindAllVisitor.apply, find_with_dependencies_literal t _ ht]
    simp only [Bool.false_eq_true, if_false]
    exact find_at_most alg t ht state h result hP
  | .ExchCorrPotential n args potential, h, result, hP => by
    have ih := find_at_most alg t ht potential (by simpa [Basic.isFindSupported] using h) result hP
    cases t <;> simp [Basic.isNumberOrSymbol] at ht <;>
      simpa [FindAllVisitor.apply, find_with_dependencies] using ih
  | .TemporumOperator target ty, h, result, hP => by
    have ih := find_at_most alg t ht target (by simpa [Basic.isFindSupported] using h) result hP
    cases t <;> simp [Basic.isNumberOrSymbol] at ht <;>
      simpa [FindAllVisitor.apply, find_with_dependencies] using ih
  | .TemporumOverlap dep der, h, result, hP => by
    simp only [FindAllVisitor.apply, find_with_dependencies_literal t _ ht]
    exact ⟨result, rfl, hP⟩
  | .ZeroOperator, h, result, hP => by
    simp only [FindAllVisitor.apply]
    exact find_leaf_at_most t _ result _ (fun hm => hm) hP
  | .MatrixSymbol n, h, result, hP => by simp [Basic.isFindSupported] at h
  | .Trace arg, h, result, hP => by
    have ih := find_at_most alg t ht arg (by simpa [Basic.isFindSupported] using h) result hP
    cases t <;> simp [Basic.isNumberOrSymbol] at ht <;>
      simpa [FindAllVisitor.apply, find_with_dependencies] using ih
  | .ConjugateMatrix arg, h, result, hP => by
    have ih := find_at_most alg t ht arg (by simpa [Basic.isFindSupported] using h) result hP
    cases t <;> simp [Basic.isNumberOrSymbol] at ht <;>
      simpa [FindAllVisitor.apply, find_with_dependencies] using ih
  | .Transpose arg, h, result, hP => by
    have ih := find_at_most alg t ht arg (by simpa [Basic.isFindSupported] using h) result hP
    cases t <;> simp [Basic.isNumberOrSymbol] at ht <;>
      simpa [FindAllVisitor.apply, find_with_dependencies] using ih
  | .MatrixAdd args, h, result, hP => by
    have ih := find_at_most_args alg t ht _ (by simpa [Basic.isFindSupported] using h)
    simp only [FindAllVisitor.apply]
    split
    · rename_i hm
      exact ⟨_, rfl, Or.inr (set_insert_at_most t _ result hm hP)⟩
    · exact ih result hP
  | .MatrixMul args, h, result, hP => by
    have ih := find_at_most_args alg t ht _ (by simpa [Basic.isFindSupported] using h)
    simp only [FindAllVisitor.apply]
    split
    · rename_i hm
      exact ⟨_, rfl, Or.inr (set_insert_at_most t _ result hm hP)⟩
    · exact ih result hP
  | .MatrixDerivative arg der, h, result, hP => by
    simp only [Basic.isFindSupported] at h
    simp only [FindAllVisitor.apply, eq_matrix_symbol_literal t arg ht h]
    exact ⟨result, rfl, hP⟩
  | .Other k args, h, result, hP => by simp [Basic.isFindSupported] at h
termination_by structural x => x
/-- The loop of the sum rule of Find keeps a result set that is empty or the singleton of the
target. -/
theorem find_at_most_add (alg : Algebra) (t : Basic) (ht : t.isNumberOrSymbol = true) :
    ∀ dict : List (Basic × Number), Basic.isFindSupportedAdd dict = true →
      ∀ result, (result = [] ∨ result = [t]) →
      FindAllVisitor.atMost t (FindAllVisitor.bvisitAdd alg dict t result)
  | [], _, result, hP => ⟨result, by simp [FindAllVisitor.bvisitAdd], hP⟩
  | (x, c) :: rest, h, result, hP => by
    simp only [Basic.isFindSupportedAdd, Bool.and_eq_true] at h
    simp only [FindAllVisitor.bvisitAdd]
    split
    · rename_i hm
      exact find_at_most_add alg t ht rest h.2 _
        (Or.inr (set_insert_at_most t _ result hm hP))
    · split
      · rename_i hm
        exact find_at_most_add alg t ht rest h.2 _
          (Or.inr (set_insert_at_most t _ result hm hP))
      · obtain ⟨r1, h1, hP1⟩ := find_at_most alg t ht x h.1 result hP
        simp only [h1]
        exact find_at_most_add alg t ht rest h.2 r1 hP1
termination_by structural x => x
/-- The loop of the product rule of Find keeps a result set that is empty or the singleton of
the target. -/
theorem find_at_most_mul (alg : Algebra) (t : Basic) (ht : t.isNumberOrSymbol = true) :
    ∀ dict : List (Basic × Basic), Basic.isFindSupportedMul dict = true →
      ∀ result, (result = [] ∨ result = [t]) →
      FindAllVisitor.atMost t (FindAllVisitor.bvisitMul alg dict t result)
  | [], _, result, hP => ⟨result, by simp [FindAllVisitor.bvisitMul], hP⟩
  | (b, e) :: rest, h, result, hP => by
    simp only [Basic.isFindSupportedMul, Bool.and_eq_true] at h
    simp only [FindAllVisitor.bvisitMul]
    split
    · rename_i hm
      exact find_at_most_mul alg t ht rest h.2 _
        (Or.inr (set_insert_at_most t _ result hm hP))
    · obtain ⟨r1, h1, hP1⟩ := find_at_most alg t ht b h.1.1 result hP
      obtain ⟨r2, h2, hP2⟩ := find_at_most alg t ht e h.1.2 r1 hP1
      simp only [h1, h2]
      exact find_at_most_mul alg t ht rest h.2 r2 hP2
termination_by structural x => x
/-- The loop of the matrix-sum and matrix-product rules of Find keeps a result set that is
empty or the singleton of the target. -/
theorem find_at_most_args (alg : Algebra) (t : Basic) (ht : t.isNumberOrSymbol = true) :
    ∀ args : List Basic, Basic.isFindSupportedArgs args = true →
      ∀ result, (result = [] ∨ result = [t]) →
      FindAllVisitor.atMost t (FindAllVisitor.bvisitArgs alg args t result)
  | [], _, result, hP => ⟨result, by simp [FindAllVisitor.bvisitArgs], hP⟩
  | x :: rest, h, result, hP => by
    simp only [Basic.isFindSupportedArgs, Bool.and_eq_true] at h
    simp only [FindAllVisitor.bvisitArgs]
    obtain ⟨r1, h1, hP1⟩ := find_at_most alg t ht x h.1 result hP
    simp only [h1]
    exact find_at_most_args alg t ht rest h.2 r1 hP1
termination_by structural x => x
end

/-- Claim C30: for every expression built from node kinds that Find supports (the operand of
a matrix-derivative being a matrix symbol) and every target `t` that is a numeric literal or a
generic symbol, `find_all` raises no fault and returns the empty set or the singleton of `t`,
so that every element of the result is structurally equal to `t`. -/
theorem find_all_literal (alg : Algebra) (E t : Basic) (hE : E.isFindSupported = true)
    (ht : t.isNumberOrSymbol = true) :
    (find_all alg E t = .ok [] ∨ find_all alg E t = .ok [t]) ∧
      ∀ found, find_all alg E t = .ok found → ∀ y ∈ found, Basic.eq y t = true := by
  obtain ⟨result, h, hP⟩ := find_at_most alg t ht E hE [] (Or.inl rfl)
  simp only [find_all]
  refine ⟨?_, ?_⟩
  · rcases hP with hP | hP <;> subst hP
    · exact Or.inl h
    · exact Or.inr h
  · intro found hf y hy
    rw [h] at hf
    cases hf
    rcases hP with hP | hP <;> subst hP
    · simp at hy
    · simp only [List.mem_singleton] at hy
      subst hy
      exact Basic.eq_refl y

/-- Claim C30 at the sum `2 + 2 x + y` with the target `2`, found as the coefficient, and at
the product `x * z^y` with the target `y`, found as an exponent. -/
theorem find_all_literal_witness :
    find_all freeAlgebra sample.two_sum (.Num (.Integer 2)) = .ok [.Num (.Integer 2)] ∧
      find_all freeAlgebra sample.exponent_product sample.y = .ok [sample.y] ∧
      ∀ found, find_all freeAlgebra sample.exponent_product sample.y = .ok found →
        ∀ y ∈ found, Basic.eq y sample.y = true :=
  ⟨rfl, rfl, (find_all_literal freeAlgebra sample.exponent_product sample.y rfl rfl).2⟩

/-- A node is in a result set exactly when the membership test of `set_insert` finds it. -/
theorem any_eq_iff_mem (result : List Basic) (x : Basic) :
    result.any (fun y => Basic.eq x y) = true ↔ x ∈ result := by
  simp only [List.any_eq_true]
  constructor
  · rintro ⟨y, hy, h⟩
    rw [Basic.eq_sound _ _ h]
    exact hy
  · intro h
    exact ⟨x, h, Basic.eq_refl x⟩

/-- Insertion into a result set leaves a set that holds the node unchanged. -/
theorem set_insert_of_mem (result : List Basic) (x : Basic) (h : x ∈ result) :
    set_insert result x = result := by
  simp [set_insert, (any_eq_iff_mem result x).2 h]

/-- Insertion into a result set appends a node that the set does not hold. -/
theorem set_insert_of_not_mem (result : List Basic) (x : Basic) (h : x ∉ result) :
    set_insert result x = result ++ [x] := by
  have : ¬ (result.any (fun y => Basic.eq x y) = true) := fun h2 =>
    h ((any_eq_iff_mem result x).1 h2)
  simp only [set_insert, this, if_false]
  rfl

/-- A result set holds the node that was inserted. -/
theorem mem_set_insert_self (result : List Basic) (x : Basic) : x ∈ set_insert result x := by
  by_cases h : x ∈ result
  · rw [set_insert_of_mem result x h]; exact h
  · rw [set_insert_of_not_mem result x h]; simp

/-- Insertion keeps the nodes of a result set. -/
theorem mem_set_insert_of_mem (result : List Basic) (x y : Basic) (h : y ∈ result) :
    y ∈ set_insert result x := by
  by_cases hx : x ∈ result
  · rw [set_insert_of_mem result x hx]; exact h
  · rw [set_insert_of_not_mem result x hx]; simp [h]

/-- The merge of a set into a result set holds the nodes of the set. -/
theorem mem_set_union_right (found : List Basic) :
    ∀ result y, y ∈ found → y ∈ set_union result found := by
  induction found using List.reverseRecOn with
  | nil => intro result y h; simp at h
  | append_singleton f x ih =>
    intro result y h
    simp only [set_union, List.foldl_append, List.foldl_cons, List.foldl_nil]
    rcases List.mem_append.1 h with h | h
    · exact mem_set_insert_of_mem _ _ _ (ih result y h)
    · simp only [List.mem_singleton] at h
      subst h
      exact mem_set_insert_self _ _

/-- Merging a set with one more node is merging the set and inserting the node. -/
theorem set_union_set_insert (result found : List Basic) (x : Basic) :
    set_union result (set_insert found x) = set_insert (set_union result found) x := by
  by_cases h : x ∈ found
  · rw [set_insert_of_mem found x h,
      set_insert_of_mem _ x (mem_set_union_right found result x h)]
  · rw [set_insert_of_not_mem found x h]
    simp [set_union, List.foldl_append]

/-- Merging is associative. -/
theorem set_union_assoc (r a : List Basic) :
    ∀ b, set_union (set_union r a) b = set_union r (set_union a b) := by
  intro b
  induction b using List.reverseRecOn with
  | nil => rfl
  | append_singleton b x ih =>
    have h1 : ∀ s, set_union s (b ++ [x]) = set_insert (set_union s b) x := by
      intro s; simp [set_union, List.foldl_append]
    rw [h1, h1, ih, set_union_set_insert]

/-- Merging an outcome into a merged result set is merging the merged outcome. -/
theorem merge_merge (r a : List Basic) (out : Except Fault (List Basic)) :
    FindAllVisitor.merge (set_union r a) out
      = FindAllVisitor.merge r (FindAllVisitor.merge a out) := by
  cases out with
  | error f => rfl
  | ok found => simp [FindAllVisitor.merge, set_union_assoc]

/-- Merging an outcome into a result set with one more node. -/
theorem merge_set_insert (r : List Basic) (x : Basic) (out : Except Fault (List Basic)) :
    FindAllVisitor.merge (set_insert r x) out
      = FindAllVisitor.merge r (FindAllVisitor.merge [x] out) :=
  merge_merge r [x] out

mutual
/-- The result set after a visit that starts from the result set `result` is the merge into
`result` of the result set after the same visit started from the empty set, and the visit
raises a fault in both cases or in none. -/
theorem find_thread (alg : Algebra) :
    ∀ (x t : Basic) (result : List Basic),
      FindAllVisitor.apply alg x t result
        = FindAllVisitor.merge result (FindAllVisitor.apply alg x t [])
  | .Symbol n, t, result => by
    simp only [FindAllVisitor.apply, FindAllVisitor.merge]
    split <;> simp [set_union, set_insert]
  | .Perturbation p, t, result => by
    simp only [FindAllVisitor.apply, FindAllVisitor.merge]
    split <;> simp [set_union, set_insert]
  | .Num n, t, result => by
    simp only [FindAllVisitor.apply, FindAllVisitor.merge]
    split <;> simp [set_union, set_insert]
  | .Constant n, t, result => by
    simp only [FindAllVisitor.apply, FindAllVisitor.merge]
    split <;> simp [set_union, set_insert]
  | .Add coef dict, t, result => by
    simp only [FindAllVisitor.apply]
    split
    · simp [FindAllVisitor.merge, set_union, set_insert]
    · split
      · simp [FindAllVisitor.merge, set_union, set_insert]
      · exact find_thread_add alg _ t result
  | .Mul coef dict, t, result => by
    simp only [FindAllVisitor.apply]
    split
    · simp [FindAllVisitor.merge, set_union, set_insert]
    · split
      · simp [FindAllVisitor.merge, set_union, set_insert]
      · exact find_thread_mul alg _ t result
  | .Pow b e, t, result => by simp [FindAllVisitor.apply, FindAllVisitor.merge]
  | .NonElecFunction n dep der, t, result => by
    simp only [FindAllVisitor.apply, FindAllVisitor.merge]
    split <;> simp [set_union, set_insert]
  | .TwoElecEnergy n inner outer dep der, t, result => by
    have ih1 := find_thread alg inner t result
    have ih2 := find_thread alg outer t
    simp only [FindAllVisitor.apply]
    split
    · simp [FindAllVisitor.merge, set_union, set_insert]
    · rw [ih1]
      cases FindAllVisitor.apply alg inner t [] with
      | error f => rfl
      | ok f1 =>
        simp only [FindAllVisitor.merge]
        rw [ih2 (set_union result f1), ih2 f1]
        exact merge_merge result f1 _
  | .CompositeFunction n inner k, t, result => by
    have ih := find_thread alg inner t result
    simp only [FindAllVisitor.apply]
    split
    · simp [FindAllVisitor.merge, set_union, set_insert]
    · exact ih
  | .ExchCorrEnergy n args energy, t, result => by
    have ih := find_thread alg energy t result
    simp only [FindAllVisitor.apply]
    split
    · simp [FindAllVisitor.merge, set_union, set_insert]
    · exact ih
  | .FunctionSymbol n args, t, result => by simp [FindAllVisitor.apply, FindAllVisitor.merge]
  | .ZeroMatrix m n, t, result => by
    simp only [FindAllVisitor.apply, FindAllVisitor.merge]
    split <;> simp [set_union, set_insert]
  | .LagMultiplier n der, t, result => by
    simp only [FindAllVisitor.apply, FindAllVisitor.merge]
    split <;> simp [set_union, set_insert]
  | .ElectronicState n der, t, result => by simp [FindAllVisitor.apply, FindAllVisitor.merge]
  | .OneElecDensity n der, t, result => by
    simp only [FindAllVisitor.apply, FindAllVisitor.merge]
    split <;> simp [set_union, set_insert]
  | .OneElecOperator n dep der, t, result => by
    simp only [FindAllVisitor.apply, FindAllVisitor.merge]
    split <;> simp [set_union, set_insert]
  | .TwoElecOperator n state dep der, t, result => by
    have ih := find_thread alg state t result
    simp only [FindAllVisitor.apply]
    split
    · simp [FindAllVisitor.merge, set_union, set_insert]
    · exact ih
  | .ExchCorrPotential n args potential, t, result => by
    have ih := find_thread alg potential t result
    simp only [FindAllVisitor.apply]
    split
    · simp [FindAllVisitor.merge, set_union, set_insert]
    · exact ih
  | .TemporumOperator target ty, t, result => by
    have ih := find_thread alg target
    cases t <;> simp only [FindAllVisitor.apply] <;>
      first
      | exact ih _ result
      | (cases FindAllVisitor.apply alg target _ [] with
         | error f => rfl
         | ok found =>
           cases found <;> simp [find_promote, FindAllVisitor.merge, set_union, set_insert])
  | .TemporumOverlap dep der, t, result => by
    simp only [FindAllVisitor.apply, FindAllVisitor.merge]
    split <;> simp [set_union, set_insert]
  | .ZeroOperator, t, result => by
    simp only [FindAllVisitor.apply, FindAllVisitor.merge]
    split <;> simp [set_union, set_insert]
  | .MatrixSymbol n, t, result => by simp [FindAllVisitor.apply, FindAllVisitor.merge]
  | .Trace arg, t, result => by
    have ih := find_thread alg arg
    cases t <;> simp only [FindAllVisitor.apply] <;>
      first
      | exact ih _ result
      | (cases FindAllVisitor.apply alg arg _ [] with
         | error f => rfl
         | ok found =>
           cases found <;> simp [find_promote, FindAllVisitor.merge, set_union, set_insert])
  | .ConjugateMatrix arg, t, result => by
    have ih := find_thread alg arg
    cases t <;> simp only [FindAllVisitor.apply] <;>
      first
      | exact ih _ result
      | (cases FindAllVisitor.apply alg arg _ [] with
         | error f => rfl
         | ok found =>
           cases found <;> simp [find_promote, FindAllVisitor.merge, set_union, set_insert])
  | .Transpose arg, t, result => by
    have ih := find_thread alg arg
    cases t <;> simp only [FindAllVisitor.apply] <;>
      first
      | exact ih _ result
      | (cases FindAllVisitor.apply alg arg _ [] with
         | error f => rfl
         | ok found =>
           cases found <;> simp [find_promote, FindAllVisitor.merge, set_union, set_insert])
  | .MatrixAdd args, t, result => by
    simp only [FindAllVisitor.apply]
    split
    · simp [FindAllVisitor.merge, set_union, set_insert]
    · exact find_thread_args alg _ t result
  | .MatrixMul args, t, result => by
    simp only [FindAllVisitor.apply]
    split
    · simp [FindAllVisitor.merge, set_union, set_insert]
    · exact find_thread_args alg _ t result
  | .MatrixDerivative arg der, t, result => by
    simp only [FindAllVisitor.apply, FindAllVisitor.merge]
    split <;> simp [set_union, set_insert]
  | .Other k args, t, result => by simp [FindAllVisitor.apply, FindAllVisitor.merge]
termination_by structural x => x
/-- The loop of the sum rule of Find merges what it finds into the result set. -/
theorem find_thread_add (alg : Algebra) :
    ∀ (dict : List (Basic × Number)) (t : Basic) (result : List Basic),
      FindAllVisitor.bvisitAdd alg dict t result
        = FindAllVisitor.merge result (FindAllVisitor.bvisitAdd alg dict t [])
  | [], t, result => by simp [FindAllVisitor.bvisitAdd, FindAllVisitor.merge, set_union]
  | (x, c) :: rest, t, result => by
    have ihr := find_thread_add alg rest t
    have ihx := find_thread alg x t result
    simp only [FindAllVisitor.bvisitAdd]
    split
    · rw [ihr (set_insert result _), ihr (set_insert [] _)]
      exact merge_merge result [_] _
    · split
      · rw [ihr (set_insert result _), ihr (set_insert [] _)]
        exact merge_merge result [_] _
      · rw [ihx]
        cases FindAllVisitor.apply alg x t [] with
        | error f => rfl
        | ok f1 =>
          simp only [FindAllVisitor.merge]
          rw [ihr (set_union result f1), ihr f1]
          exact merge_merge result f1 _
termination_by structural x => x
/-- The loop of the product rule of Find merges what it finds into the result set. -/
theorem find_thread_mul (alg : Algebra) :
    ∀ (dict : List (Basic × Basic)) (t : Basic) (result : List Basic),
      FindAllVisitor.bvisitMul alg dict t result
        = FindAllVisitor.merge result (FindAllVisitor.bvisitMul alg dict t [])
  | [], t, result => by simp [FindAllVisitor.bvisitMul, FindAllVisitor.merge, set_union]
  | (b, e) :: rest, t, result => by
    have ihr := find_thread_mul alg rest t
    have ihb := find_thread alg b t result
    have ihe := find_thread alg e t
    simp only [FindAllVisitor.bvisitMul]
    split
    · rw [ihr (set_insert result _), ihr (set_insert [] _)]
      exact merge_merge result [_] _
    · rw [ihb]
      cases FindAllVisitor.apply alg b t [] with
      | error f => rfl
      | ok f1 =>
        simp only [FindAllVisitor.merge]
        rw [ihe (set_union result f1), ihe f1]
        cases FindAllVisitor.apply alg e t [] with
        | error f => rfl
        | ok f2 =>
          simp only [FindAllVisitor.merge]
          rw [ihr (set_union (set_union result f1) f2), ihr (set_union f1 f2),
            set_union_assoc]
          exact merge_merge result _ _
termination_by structural x => x
/-- The loop of the matrix-sum and matrix-product rules of Find merges what it finds into the
result set. -/
theorem find_thread_args (alg : Algebra) :
    ∀ (args : List Basic) (t : Basic) (result : List Basic),
      FindAllVisitor.bvisitArgs alg args t result
        = FindAllVisitor.merge result (FindAllVisitor.bvisitArgs alg args t [])
  | [], t, result => by simp [FindAllVisitor.bvisitArgs, FindAllVisitor.merge, set_union]
  | x :: rest, t, result => by
    have ihr := find_thread_args alg rest t
    have ihx := find_thread alg x t result
    simp only [FindAllVisitor.bvisitArgs]
    rw [ihx]
    cases FindAllVisitor.apply alg x t [] with
    | error f => rfl
    | ok f1 =>
      simp only [FindAllVisitor.merge]
      rw [ihr (set_union result f1), ihr f1]
      exact merge_merge result f1 _
termination_by structural x => x
end

/-- The loop of the sum rule of Find, which tests the multiplier before the pair, gives what
the procedure of the specification gives, which tests the pair first, when no pair matches the
target both as a singleton sum and through its multiplier. -/
theorem find_pairs_refine (alg : Algebra) (t : Basic) :
    ∀ (dict : List (Basic × Number)) (result : List Basic),
      (∀ p ∈ dict, ¬ (find_equivalence t (alg.add_from_dict zero [p]) = true ∧
        find_equivalence t (.Num p.2) = true)) →
      FindAllVisitor.bvisitAdd alg dict t result = spec_find_pairs alg dict t result := by
  intro dict
  induction dict with
  | nil => intro result _; simp [FindAllVisitor.bvisitAdd, spec_find_pairs]
  | cons p rest ih =>
    intro result hexcl
    obtain ⟨x, c⟩ := p
    have hrest : ∀ p ∈ rest, ¬ (find_equivalence t (alg.add_from_dict zero [p]) = true ∧
        find_equivalence t (.Num p.2) = true) :=
      fun p hp => hexcl p (List.mem_cons_of_mem _ hp)
    have hhead := hexcl (x, c) (List.mem_cons_self _ _)
    simp only [FindAllVisitor.bvisitAdd, spec_find_pairs]
    cases hs : find_equivalence t (alg.add_from_dict zero [(x, c)]) <;>
      cases hc : find_equivalence t (.Num c)
    · simp only [Bool.false_eq_true, if_false]
      rw [find_thread alg x t result]
      simp only [find_all]
      cases FindAllVisitor.apply alg x t [] with
      | error f => rfl
      | ok found => exact ih _ hrest
    · simp only [Bool.false_eq_true, if_false, if_true]
      exact ih _ hrest
    · simp only [Bool.false_eq_true, if_false, if_true]
      exact ih _ hrest
    · exact absurd ⟨hs, hc⟩ hhead

/-- The procedure of the specification for the pairs of a sum of supported terms leaves the
singleton of a target that is a numeric literal or a generic symbol unchanged. -/
theorem spec_find_pairs_singleton (alg : Algebra) (t : Basic)
    (ht : t.isNumberOrSymbol = true) :
    ∀ dict : List (Basic × Number), Basic.isFindSupportedAdd dict = true →
      spec_find_pairs alg dict t [t] = .ok [t] := by
  intro dict
  induction dict with
  | nil => intro _; rfl
  | cons p rest ih =>
    intro h
    obtain ⟨x, c⟩ := p
    simp only [Basic.isFindSupportedAdd, Bool.and_eq_true] at h
    simp only [spec_find_pairs]
    split
    · rename_i hm
      rw [set_insert_at_most t _ [t] hm (Or.inr rfl)]
      exact ih h.2
    · split
      · rename_i hm
        rw [set_insert_at_most t _ [t] hm (Or.inr rfl)]
        exact ih h.2
      · obtain ⟨found, hf, hP⟩ := find_at_most alg t ht x h.1 [] (Or.inl rfl)
        simp only [find_all, hf]
        rcases hP with hP | hP <;> subst hP
        · exact ih h.2
        · have : set_union [t] [t] = [t] := by
            simp [set_union, set_insert, Basic.eq_refl]
          rw [this]
          exact ih h.2

/-- Claim C28 as amended: for a canonical sum (no term is itself a number, and the sum of a
single term is a number only if the term is) and a target `t` such that the terms of the sum
are built from node kinds that Find supports whenever the coefficient matches `t`, `find_all`
returns the set that the procedure of the specification defines, which tests the pair before
the multiplier and goes through the pairs also when the coefficient matches. -/
theorem find_all_sum_refines (alg : Algebra) (coef : Number) (dict : List (Basic × Number))
    (t : Basic)
    (halg : ∀ term c n, alg.add_from_dict zero [(term, c)] = .Num n → ∃ m, term = .Num m)
    (hcanon : ∀ p ∈ dict, ∀ n, p.1 ≠ .Num n)
    (hsup : find_equivalence t (.Num coef) = true → Basic.isFindSupportedAdd dict = true) :
    find_all alg (.Add coef dict) t = spec_find_sum alg coef dict t := by
  have hexcl : ∀ p ∈ dict, ¬ (find_equivalence t (alg.add_from_dict zero [p]) = true ∧
      find_equivalence t (.Num p.2) = true) := by
    rintro ⟨x, c⟩ hp ⟨hs, hc⟩
    have h1 := Basic.eq_sound _ _ hs
    have h2 := Basic.eq_sound _ _ hc
    obtain ⟨m, hm⟩ := halg x c c (h1.trans h2.symm)
    exact hcanon (x, c) hp m hm
  simp only [find_all, FindAllVisitor.apply, spec_find_sum]
  split
  · simp [set_insert]
  · split
    · rename_i hm
      have ht : t = .Num coef := (Basic.eq_sound _ _ hm).symm
      subst ht
      simp only [set_insert, List.any_nil, Bool.false_eq_true, if_false, List.nil_append]
      exact (spec_find_pairs_singleton alg (.Num coef) rfl dict (hsup hm)).symm
    · exact find_pairs_refine alg t dict [] hexcl

/-- The sum of a single term made by the algebra without simplification is a number only if
the term is. -/
theorem freeAlgebra_singleton_number (term : Basic) (c n : Number)
    (h : freeAlgebra.add_from_dict zero [(term, c)] = .Num n) : ∃ m, term = .Num m := by
  simp only [freeAlgebra, freeAlgebra.add_from_dict] at h
  split at h
  · exact ⟨n, h⟩
  · cases h

/-- Claim C28 as amended, at the sum `2 + 2 x + y` with the target `2`, which the coefficient
and the first multiplier match: both procedures return the singleton of `2`. -/
theorem find_all_sum_refines_witness :
    find_all freeAlgebra sample.two_sum (.Num (.Integer 2))
        = spec_find_sum freeAlgebra (.Integer 2) [(sample.x, .Integer 2), (sample.y, one)]
          (.Num (.Integer 2)) ∧
      spec_find_sum freeAlgebra (.Integer 2) [(sample.x, .Integer 2), (sample.y, one)]
          (.Num (.Integer 2)) = .ok [.Num (.Integer 2)] :=
  ⟨find_all_sum_refines freeAlgebra (.Integer 2) [(sample.x, .Integer 2), (sample.y, one)]
      (.Num (.Integer 2)) freeAlgebra_singleton_number
      (by
        intro p hp n
        simp only [List.mem_cons, List.mem_singleton, List.not_mem_nil, or_false] at hp
        rcases hp with h | h <;> subst h <;> intro h2 <;> cases h2)
      (fun _ => rfl),
    rfl⟩

/-- Claim C28 as stated fails at the canonical sum `2 + x^y` with the target `2`: the
coefficient matches, `find_all` skips the pairs and returns the singleton of `2`, whereas the
procedure of the specification goes on to the pair and raises the unclassified-node fault at
the power `x^y`. -/
theorem find_all_sum_refines_counterexample :
    find_all freeAlgebra sample.two_plus_power (.Num (.Integer 2))
        = .ok [.Num (.Integer 2)] ∧
      spec_find_sum freeAlgebra (.Integer 2) [(.Pow sample.x sample.y, one)]
          (.Num (.Integer 2)) = .error .NotImplementedError :=
  ⟨rfl, rfl⟩

/-! ## Properties of the one-operand helpers -/

/-- The predicate of Keep holds for a node that is structurally equal to no member of the
symbol set. -/
theorem is_not_equal_of_not_mem (S : List Basic) (x : Basic)
    (hx : ∀ s ∈ S, Basic.eq x s = false) : is_not_equal S x = true := by
  simp only [is_not_equal, List.all_eq_true]
  intro s hs
  simp [hx s hs]

/-- Claim C29: for a wrapper `x` with the operand `a`, the helper `keep_if_one_arg_f` yields
`x` itself when `x` is structurally equal to a member of the symbol set; otherwise it is absent
when the Keep traversal of `a` is absent, `x` itself when the kept form of `a` is structurally
equal to `a`, and the wrapper rebuilt by the constructor around the kept form in the remaining
case; a fault of the Keep traversal of `a` is passed on. The rules of Keep for trace,
conjugate and transpose give the same outcome. -/
theorem keep_if_one_arg (alg : Algebra) (S : List Basic) (x a : Basic)
    (constructor : Basic → Basic) (r : Option Basic) :
    ((∃ s ∈ S, Basic.eq x s = true) →
        KeepVisitor.keep_if_one_arg_f alg S x a constructor r = .ok (some x)) ∧
      ((∀ s ∈ S, Basic.eq x s = false) →
        (KeepVisitor.apply alg S a r = .ok none →
          KeepVisitor.keep_if_one_arg_f alg S x a constructor r = .ok none) ∧
        (∀ v, KeepVisitor.apply alg S a r = .ok (some v) → Basic.eq a v = true →
          KeepVisitor.keep_if_one_arg_f alg S x a constructor r = .ok (some x)) ∧
        (∀ v, KeepVisitor.apply alg S a r = .ok (some v) → Basic.eq a v = false →
          KeepVisitor.keep_if_one_arg_f alg S x a constructor r
            = .ok (some (constructor v))) ∧
        (∀ f, KeepVisitor.apply alg S a r = .error f →
          KeepVisitor.keep_if_one_arg_f alg S x a constructor r = .error f)) ∧
      KeepVisitor.bvisit alg S (.Trace a) r
        = KeepVisitor.keep_if_one_arg_f alg S (.Trace a) a Basic.Trace r ∧
      KeepVisitor.bvisit alg S (.ConjugateMatrix a) r
        = KeepVisitor.keep_if_one_arg_f alg S (.ConjugateMatrix a) a Basic.ConjugateMatrix r ∧
      KeepVisitor.bvisit alg S (.Transpose a) r
        = KeepVisitor.keep_if_one_arg_f alg S (.Transpose a) a Basic.Transpose r := by
  refine ⟨?_, ?_, ?_, ?_, ?_⟩
  · intro hx
    simp [KeepVisitor.keep_if_one_arg_f, is_not_equal_of_mem S x hx]
  · intro hx
    have hn := is_not_equal_of_not_mem S x hx
    refine ⟨?_, ?_, ?_, ?_⟩
    · intro h; simp [KeepVisitor.keep_if_one_arg_f, hn, h]
    · intro v h hv; simp [KeepVisitor.keep_if_one_arg_f, hn, h, hv]
    · intro v h hv; simp [KeepVisitor.keep_if_one_arg_f, hn, h, hv]
    · intro f h; simp [KeepVisitor.keep_if_one_arg_f, hn, h]
  · simp only [KeepVisitor.bvisit, remove_ifnot_one_arg_f, KeepVisitor.keep_if_one_arg_f,
      KeepVisitor.apply]
  · simp only [KeepVisitor.bvisit, remove_ifnot_one_arg_f, KeepVisitor.keep_if_one_arg_f,
      KeepVisitor.apply]
  · simp only [KeepVisitor.bvisit, remove_ifnot_one_arg_f, KeepVisitor.keep_if_one_arg_f,
      KeepVisitor.apply]

/-- Claim C29 at the trace of the density `D`: it is returned for the set `[tr(D)]`, absent for
the set `[T]`, returned for the set `[D]`, which keeps the operand; and the trace of the
product node `P` with the single pair `(x, 1)`, whose kept form is `x`, is rebuilt as the trace
of `x`. -/
theorem keep_if_one_arg_witness :
    KeepVisitor.keep_if_one_arg_f freeAlgebra [.Trace sample.D] (.Trace sample.D) sample.D
        Basic.Trace none = .ok (some (.Trace sample.D)) ∧
      KeepVisitor.keep_if_one_arg_f freeAlgebra [sample.T] (.Trace sample.D) sample.D
        Basic.Trace none = .ok none ∧
      KeepVisitor.keep_if_one_arg_f freeAlgebra [sample.D] (.Trace sample.D) sample.D
        Basic.Trace none = .ok (some (.Trace sample.D)) ∧
      KeepVisitor.keep_if_one_arg_f freeAlgebra [sample.z] (.Trace sample.single)
        sample.single Basic.Trace none = .ok (some (.Trace sample.x)) :=
  ⟨(keep_if_one_arg freeAlgebra [.Trace sample.D] (.Trace sample.D) sample.D Basic.Trace
      none).1 ⟨.Trace sample.D, List.mem_singleton.2 rfl, rfl⟩,
    ((keep_if_one_arg freeAlgebra [sample.T] (.Trace sample.D) sample.D Basic.Trace
      none).2.1 (by intro s hs; rw [List.mem_singleton.1 hs]; rfl)).1 rfl,
    ((keep_if_one_arg freeAlgebra [sample.D] (.Trace sample.D) sample.D Basic.Trace
      none).2.1 (by intro s hs; rw [List.mem_singleton.1 hs]; rfl)).2.1 sample.D rfl rfl,
    ((keep_if_one_arg freeAlgebra [sample.z] (.Trace sample.single) sample.single Basic.Trace
      none).2.1 (by intro s hs; rw [List.mem_singleton.1 hs]; rfl)).2.2.1 sample.x rfl rfl⟩

/-! ## The Remove traversal when nothing is to be removed -/

mutual
/-- When the predicate holds for nothing that the traversal tests, the Remove traversal of a
supported expression raises no fault and returns the expression rebuilt by the constructors of
the algebra. -/
theorem remove_unaffected (alg : Algebra) (cond : Basic → Bool) :
    ∀ x : Basic, x.isRemoveSupported = true →
      (∀ y ∈ RemoveVisitor.tested alg x, cond y = false) →
      ∀ r, RemoveVisitor.apply alg cond x r = .ok (some (RemoveVisitor.rebuilt alg x))
  | .Symbol n, h, ht, r => by
    have hc := ht (.Symbol n) (by simp [RemoveVisitor.tested])
    simp [RemoveVisitor.apply, remove_if_symbol_like, remove_ifnot_one_arg_f,
      RemoveVisitor.rebuilt, hc]
  | .Perturbation p, h, ht, r => by
    have hc := ht (.Perturbation p) (by simp [RemoveVisitor.tested])
    simp [RemoveVisitor.apply, remove_if_symbol_like, remove_ifnot_one_arg_f,
      RemoveVisitor.rebuilt, hc]
  | .Num n, h, ht, r => by
    have hc := ht (.Num n) (by simp [RemoveVisitor.tested])
    simp [RemoveVisitor.apply, remove_if_symbol_like, remove_ifnot_one_arg_f,
      RemoveVisitor.rebuilt, hc]
  | .Constant n, h, ht, r => by
    have hc := ht (.Constant n) (by simp [RemoveVisitor.tested])
    simp [RemoveVisitor.apply, remove_if_symbol_like, remove_ifnot_one_arg_f,
      RemoveVisitor.rebuilt, hc]
  | .Add coef dict, h, ht, r => by
    have h1 := ht (.Add coef dict) (by simp [RemoveVisitor.tested])
    have h2 := ht (.Num coef) (by simp [RemoveVisitor.tested])
    have ih := remove_unaffected_add alg cond dict (by simpa [Basic.isRemoveSupported] using h)
      (fun y hy => ht y (by simp [RemoveVisitor.tested, hy])) (coef, []) r
    simp [RemoveVisitor.apply, RemoveVisitor.rebuilt, h1, h2, ih]
  | .Mul coef dict, h, ht, r => by
    have h1 := ht (.Mul coef dict) (by simp [RemoveVisitor.tested])
    have h2 := ht (.Num coef) (by simp [RemoveVisitor.tested])
    have ih := remove_unaffected_mul alg cond dict (by simpa [Basic.isRemoveSupported] using h)
      (fun y hy => ht y (by simp [RemoveVisitor.tested, hy])) (coef, []) r
    simp [RemoveVisitor.apply, RemoveVisitor.rebuilt, h1, h2, ih]
  | .Pow b e, h, ht, r => by simp [Basic.isRemoveSupported] at h
  | .NonElecFunction n dep der, h, ht, r => by
    have hc := ht (.NonElecFunction n dep der) (by simp [RemoveVisitor.tested])
    simp [RemoveVisitor.apply, remove_if_symbol_like, remove_ifnot_one_arg_f,
      RemoveVisitor.rebuilt, hc]
  | .TwoElecEnergy n inner outer dep der, h, ht, r => by simp [Basic.isRemoveSupported] at h
  | .CompositeFunction n inner k, h, ht, r => by simp [Basic.isRemoveSupported] at h
  | .ExchCorrEnergy n args energy, h, ht, r => by simp [Basic.isRemoveSupported] at h
  | .FunctionSymbol n args, h, ht, r => by simp [Basic.isRemoveSupported] at h
  | .ZeroMatrix m n, h, ht, r => by
    have hc := ht (.ZeroMatrix m n) (by simp [RemoveVisitor.tested])
    simp [RemoveVisitor.apply, remove_if_symbol_like, remove_ifnot_one_arg_f,
      RemoveVisitor.rebuilt, hc]
  | .LagMultiplier n der, h, ht, r => by simp [Basic.isRemoveSupported] at h
  | .ElectronicState n der, h, ht, r => by simp [Basic.isRemoveSupported] at h
  | .OneElecDensity n der, h, ht, r => by
    have hc := ht (.OneElecDensity n der) (by simp [RemoveVisitor.tested])
    simp [RemoveVisitor.apply, remove_if_symbol_like, remove_ifnot_one_arg_f,
      RemoveVisitor.rebuilt, hc]
  | .OneElecOperator n dep der, h, ht, r => by
    have hc := ht (.OneElecOperator n dep der) (by simp [RemoveVisitor.tested])
    simp [RemoveVisitor.apply, remove_if_symbol_like, remove_ifnot_one_arg_f,
      RemoveVisitor.rebuilt, hc]
  | .TwoElecOperator n state dep der, h, ht, r => by
    have hc := ht (.TwoElecOperator n state dep der) (by simp [RemoveVisitor.tested])
    have ih := remove_unaffected alg cond state (by simpa [Basic.isRemoveSupported] using h)
      (fun y hy => ht y (by simp [RemoveVisitor.tested, hy])) r
    simp [RemoveVisitor.apply, remove_if_one_arg_f, RemoveVisitor.rebuilt, ih, hc]
  | .ExchCorrPotential n args potential, h, ht, r => by simp [Basic.isRemoveSupported] at h
  | .TemporumOperator target ty, h, ht, r => by
    have hc := ht (.TemporumOperator target ty) (by simp [RemoveVisitor.tested])
    have ih := remove_unaffected alg cond target (by simpa [Basic.isRemoveSupported] using h)
      (fun y hy => ht y (by simp [RemoveVisitor.tested, hy])) r
    simp [RemoveVisitor.apply, remove_if_one_arg_f, RemoveVisitor.rebuilt, ih, hc]
  | .TemporumOverlap dep der, h, ht, r => by
    have hc := ht (.TemporumOverlap dep der) (by simp [RemoveVisitor.tested])
    simp [RemoveVisitor.apply, remove_if_symbol_like, remove_ifnot_one_arg_f,
      RemoveVisitor.rebuilt, hc]
  | .ZeroOperator, h, ht, r => by simp [Basic.isRemoveSupported] at h
  | .MatrixSymbol n, h, ht, r => by simp [Basic.isRemoveSupported] at h
  | .Trace arg, h, ht, r => by
    have hc := ht (.Trace arg) (by simp [RemoveVisitor.tested])
    have ih := remove_unaffected alg cond arg (by simpa [Basic.isRemoveSupported] using h)
      (fun y hy => ht y (by simp [RemoveVisitor.tested, hy])) r
    simp [RemoveVisitor.apply, remove_if_one_arg_f, RemoveVisitor.rebuilt, ih, hc]
  | .ConjugateMatrix arg, h, ht, r => by
    have hc := ht (.ConjugateMatrix arg) (by simp [RemoveVisitor.tested])
    simp [RemoveVisitor.apply, remove_if_symbol_like, remove_ifnot_one_arg_f,
      RemoveVisitor.rebuilt, hc]
  | .Transpose arg, h, ht, r => by
    have hc := ht (.Transpose arg) (by simp [RemoveVisitor.tested])
    simp [RemoveVisitor.apply, remove_if_symbol_like, remove_ifnot_one_arg_f,
      RemoveVisitor.rebuilt, hc]
  | .MatrixAdd args, h, ht, r => by
    have h1 := ht (.MatrixAdd args) (by simp [RemoveVisitor.tested])
    simp only [Basic.isRemoveSupported, Bool.and_eq_true, Bool.not_eq_true'] at h
    have ih := remove_unaffected_matrix_add alg cond args h.2
      (fun y hy => ht y (by simp [RemoveVisitor.tested, hy])) [] r
    have hne : (RemoveVisitor.rebuiltArgs alg args).isEmpty = false := by
      cases args with
      | nil => simp at h
      | cons a rest => simp [RemoveVisitor.rebuiltArgs]
    simp [RemoveVisitor.apply, RemoveVisitor.rebuilt, h1, ih, hne]
  | .MatrixMul args, h, ht, r => by
    have h1 := ht (.MatrixMul args) (by simp [RemoveVisitor.tested])
    simp only [Basic.isRemoveSupported, Bool.and_eq_true, Bool.not_eq_true'] at h
    have ih := remove_unaffected_matrix_mul alg cond args h.2
      (fun y hy => ht y (by simp [RemoveVisitor.tested, hy])) [] r
    have hne : (RemoveVisitor.rebuiltArgs alg args).isEmpty = false := by
      cases args with
      | nil => simp at h
      | cons a rest => simp [RemoveVisitor.rebuiltArgs]
    simp [RemoveVisitor.apply, RemoveVisitor.rebuilt, h1, ih, hne]
  | .MatrixDerivative arg der, h, ht, r => by
    have hc := ht (.MatrixDerivative arg der) (by simp [RemoveVisitor.tested])
    simp [RemoveVisitor.apply, remove_if_symbol_like, remove_ifnot_one_arg_f,
      RemoveVisitor.rebuilt, hc]
  | .Other k args, h, ht, r => by simp [Basic.isRemoveSupported] at h
termination_by structural x => x
/-- The loop of the sum rule of Remove when nothing is to be removed. -/
theorem remove_unaffected_add (alg : Algebra) (cond : Basic → Bool) :
    ∀ dict : List (Basic × Number), Basic.isRemoveSupportedAdd dict = true →
      (∀ y ∈ RemoveVisitor.testedAdd alg dict, cond y = false) →
      ∀ acc r, RemoveVisitor.bvisitAdd alg cond dict acc r
        = .ok (RemoveVisitor.rebuiltAdd alg dict acc)
  | [], _, _, acc, r => by simp [RemoveVisitor.bvisitAdd, RemoveVisitor.rebuiltAdd]
  | (t, c) :: rest, h, ht, acc, r => by
    simp only [Basic.isRemoveSupportedAdd, Bool.and_eq_true] at h
    have h1 := ht (alg.add_from_dict zero [(t, c)]) (by simp [RemoveVisitor.testedAdd])
    have h2 := ht (.Num c) (by simp [RemoveVisitor.testedAdd])
    have ih := remove_unaffected alg cond t h.1
      (fun y hy => ht y (by simp [RemoveVisitor.testedAdd, hy])) r
    have ihr := remove_unaffected_add alg cond rest h.2
      (fun y hy => ht y (by simp [RemoveVisitor.testedAdd, hy]))
    simp [RemoveVisitor.bvisitAdd, RemoveVisitor.rebuiltAdd, h1, h2, ih, ihr]
termination_by structural x => x
/-- The loop of the product rule of Remove when nothing is to be removed. -/
theorem remove_unaffected_mul (alg : Algebra) (cond : Basic → Bool) :
    ∀ dict : List (Basic × Basic), Basic.isRemoveSupportedMul dict = true →
      (∀ y ∈ RemoveVisitor.testedMul alg dict, cond y = false) →
      ∀ acc r, RemoveVisitor.bvisitMul alg cond dict acc r
        = .ok (some (RemoveVisitor.rebuiltMul alg dict acc))
  | [], _, _, acc, r => by simp [RemoveVisitor.bvisitMul, RemoveVisitor.rebuiltMul]
  | (b, e) :: rest, h, ht, acc, r => by
    simp only [Basic.isRemoveSupportedMul, Bool.and_eq_true] at h
    have h1 := ht (.Pow b e) (by simp [RemoveVisitor.testedMul])
    have ihb := remove_unaffected alg cond b h.1.1
      (fun y hy => ht y (by simp [RemoveVisitor.testedMul, hy])) r
    have ihe := remove_unaffected alg cond e h.1.2
      (fun y hy => ht y (by simp [RemoveVisitor.testedMul, hy]))
    have ihr := remove_unaffected_mul alg cond rest h.2
      (fun y hy => ht y (by simp [RemoveVisitor.testedMul, hy]))
    simp [RemoveVisitor.bvisitMul, RemoveVisitor.rebuiltMul, h1, ihb, ihe, ihr]
termination_by structural x => x
/-- The loop of the matrix-sum rule of Remove when nothing is to be removed. -/
theorem remove_unaffected_matrix_add (alg : Algebra) (cond : Basic → Bool) :
    ∀ args : List Basic, Basic.isRemoveSupportedArgs args = true →
      (∀ y ∈ RemoveVisitor.testedArgs alg args, cond y = false) →
      ∀ terms r, RemoveVisitor.bvisitMatrixAdd alg cond args terms r
        = .ok (terms ++ RemoveVisitor.rebuiltArgs alg args)
  | [], _, _, terms, r => by simp [RemoveVisitor.bvisitMatrixAdd, RemoveVisitor.rebuiltArgs]
  | a :: rest, h, ht, terms, r => by
    simp only [Basic.isRemoveSupportedArgs, Bool.and_eq_true] at h
    have ih := remove_unaffected alg cond a h.1
      (fun y hy => ht y (by simp [RemoveVisitor.testedArgs, hy])) r
    have ihr := remove_unaffected_matrix_add alg cond rest h.2
      (fun y hy => ht y (by simp [RemoveVisitor.testedArgs, hy]))
    simp [RemoveVisitor.bvisitMatrixAdd, RemoveVisitor.rebuiltArgs, ih, ihr]
termination_by structural x => x
/-- The loop of the matrix-product rule of Remove when nothing is to be removed. -/
theorem remove_unaffected_matrix_mul (alg : Algebra) (cond : Basic → Bool) :
    ∀ args : List Basic, Basic.isRemoveSupportedArgs args = true →
      (∀ y ∈ RemoveVisitor.testedArgs alg args, cond y = false) →
      ∀ factors r, RemoveVisitor.bvisitMatrixMul alg cond args factors r
        = .ok (some (factors ++ RemoveVisitor.rebuiltArgs alg args))
  | [], _, _, factors, r => by simp [RemoveVisitor.bvisitMatrixMul, RemoveVisitor.rebuiltArgs]
  | a :: rest, h, ht, factors, r => by
    simp only [Basic.isRemoveSupportedArgs, Bool.and_eq_true] at h
    have ih := remove_unaffected alg cond a h.1
      (fun y hy => ht y (by simp [RemoveVisitor.testedArgs, hy])) r
    have ihr := remove_unaffected_matrix_mul alg cond rest h.2
      (fun y hy => ht y (by simp [RemoveVisitor.testedArgs, hy]))
    simp [RemoveVisitor.bvisitMatrixMul, RemoveVisitor.rebuiltArgs, ih, ihr]
termination_by structural x => x
end


/-- Claim C23 as amended: for an expression built only from node kinds that have a Remove rule
with a body (the exchange-correlation energy and potential, whose rules are empty, are left
out), whose sums and products the constructors of the algebra rebuild from their own parts,
and a symbol set none of whose members is structurally equal to a node, coefficient,
multiplier or pair tested during the traversal, `remove_if` raises no fault and returns the
expression; so it does for the empty symbol set. -/
theorem remove_if_unaffected (alg : Algebra) (E : Basic) (S : List Basic)
    (hE : E.isRemoveSupported = true)
    (hS : (RemoveVisitor.tested alg E).all (fun y => !(is_equal S y)) = true)
    (hrebuilt : RemoveVisitor.rebuilt alg E = E) :
    remove_if alg E S = .ok (some E) ∧ remove_if alg E [] = .ok (some E) ∧
      Basic.eq E E = true := by
  refine ⟨?_, ?_, Basic.eq_refl E⟩
  · have h := remove_unaffected alg (is_equal S) E hE
      (fun y hy => by
        have := List.all_eq_true.1 hS y hy
        simpa using this) none
    rw [hrebuilt] at h
    exact h
  · have h := remove_unaffected alg (is_equal []) E hE
      (fun y _ => by simp [is_equal]) none
    rw [hrebuilt] at h
    exact h

/-- Claim C23 as amended, at the sum `2 + 2 x + y` and at the matrix sum of the trace of `D V`
and of the time derivative of `D`, with the set `[z]`. -/
theorem remove_if_unaffected_witness :
    remove_if freeAlgebra sample.two_sum [sample.z] = .ok (some sample.two_sum) ∧
      remove_if freeAlgebra sample.trace_sum [sample.z] = .ok (some sample.trace_sum) :=
  ⟨(remove_if_unaffected freeAlgebra sample.two_sum [sample.z] rfl rfl rfl).1,
    (remove_if_unaffected freeAlgebra sample.trace_sum [sample.z] rfl rfl rfl).1⟩

/-- Claim C23 as stated fails at the exchange-correlation potential `Vxc`, a kind with a Remove
rule, and the empty symbol set: the rule is empty, so `remove_if` returns the null result of
the new visitor, that is absent; in the matrix sum `D + Vxc` the visit of `Vxc` leaves the
result `D` of the operand before it, and `remove_if` returns `D + D`. -/
theorem remove_if_unaffected_counterexample :
    remove_if freeAlgebra sample.Vxc [] = .ok none ∧
      remove_if freeAlgebra (.ExchCorrEnergy "Exc" [sample.D] sample.x) [] = .ok none ∧
      remove_if freeAlgebra (.MatrixAdd [sample.D, sample.Vxc]) []
        = .ok (some (.MatrixAdd [sample.D, sample.D])) :=
  ⟨rfl, rfl, rfl⟩

/-! ## Equality of electronic states -/

/-- The container holds the tags inserted into it, with their multiplicities. -/
theorem multiset_basic_perm (le : Perturbation → Perturbation → Prop) [DecidableRel le] :
    ∀ (tags stored : List Perturbation),
      (tags.foldl (fun stored p => multiset_basic.insert le p stored) stored).Perm
        (stored ++ tags) := by
  intro tags
  induction tags with
  | nil => intro stored; simp
  | cons p rest ih =>
    intro stored
    simp only [List.foldl_cons]
    refine (ih _).trans ?_
    have h1 : (multiset_basic.insert le p stored).Perm (p :: stored) :=
      List.perm_orderedInsert le p stored
    refine (List.Perm.append_right rest h1).trans ?_
    simp only [List.cons_append]
    exact List.perm_middle.symm

/-- The container keeps its elements in the order of the key comparison. -/
theorem multiset_basic_sorted (le : Perturbation → Perturbation → Prop) [DecidableRel le]
    [IsTotal Perturbation le] [IsTrans Perturbation le] :
    ∀ (tags stored : List Perturbation), stored.Sorted le →
      (tags.foldl (fun stored p => multiset_basic.insert le p stored) stored).Sorted le := by
  intro tags
  induction tags with
  | nil => intro stored h; exact h
  | cons p rest ih =>
    intro stored h
    simp only [List.foldl_cons]
    exact ih _ (List.Sorted.orderedInsert p stored h)

/-- Claim C24: two electronic states made from a name and a sequence of derivative tags are
equal if and only if the names are equal and the tags form the same multiset, whatever the
order of insertion and with multiplicities counted; and an electronic state is equal to no node
that is not an electronic state. The key comparison of the container is any total order under
which equivalent tags are equal. -/
theorem electronic_state_eq_iff (le : Perturbation → Perturbation → Prop) [DecidableRel le]
    (htotal : ∀ a b, le a b ∨ le b a) (hanti : ∀ a b, le a b → le b a → a = b)
    (htrans : ∀ a b c, le a b → le b c → le a c)
    (n m : String) (xs ys : List Perturbation) (der : PertMultichain) (o : Basic) :
    (Basic.eq (.ElectronicState n (multiset_basic.from_tags le xs))
          (.ElectronicState m (multiset_basic.from_tags le ys)) = true ↔
        n = m ∧ (xs : Multiset Perturbation) = (ys : Multiset Perturbation)) ∧
      ((∀ k d, o ≠ .ElectronicState k d) → Basic.eq (.ElectronicState n der) o = false) := by
  haveI : IsTotal Perturbation le := ⟨htotal⟩
  haveI : IsAntisymm Perturbation le := ⟨hanti⟩
  haveI : IsTrans Perturbation le := ⟨htrans⟩
  have hpx := multiset_basic_perm le xs []
  have hpy := multiset_basic_perm le ys []
  have hsx := multiset_basic_sorted le xs [] List.sorted_nil
  have hsy := multiset_basic_sorted le ys [] List.sorted_nil
  simp only [List.nil_append] at hpx hpy
  refine ⟨?_, ?_⟩
  · simp only [Basic.eq, Bool.and_eq_true, decide_eq_true_eq, Multiset.coe_eq_coe,
      multiset_basic.from_tags]
    constructor
    · rintro ⟨h1, h2⟩
      refine ⟨h1, ?_⟩
      exact hpx.symm.trans (h2 ▸ hpy)
    · rintro ⟨h1, h2⟩
      refine ⟨h1, ?_⟩
      exact List.eq_of_perm_of_sorted (hpx.trans (h2.trans hpy.symm)) hsx hsy
  · intro ho
    cases o <;> simp [Basic.eq]
    rename_i k d
    exact absurd rfl (ho k d)

/-- The key of a number determines the number. -/
theorem number_key_injective : ∀ a b : Number, a.key = b.key → a = b := by
  intro a b h
  cases a <;> cases b <;> simp [Number.key] at h <;> simp [h]

/-- The key of a perturbation determines the perturbation. -/
theorem perturbation_key_injective : ∀ p q : Perturbation, p.key = q.key → p = q := by
  intro p q h
  obtain ⟨n1, f1, c1⟩ := p
  obtain ⟨n2, f2, c2⟩ := q
  simp only [Perturbation.key, EmbeddingLike.apply_eq_iff_eq, Prod.mk.injEq] at h
  obtain ⟨h1, h2, h3⟩ := h
  rw [h1, number_key_injective _ _ h2, h3]

/-- Claim C24 with the lexicographic key comparison, for the perturbations `a` and `b`: the
states with the tags `a, b, a` and `b, a, a` are equal, and the state with the tags `a, b, a`
is not equal to the state with the tags `a, b`. -/
theorem electronic_state_eq_iff_witness :
    Basic.eq
        (.ElectronicState "psi" (multiset_basic.from_tags Perturbation.le
          [sample.pert_a, sample.pert_b, sample.pert_a]))
        (.ElectronicState "psi" (multiset_basic.from_tags Perturbation.le
          [sample.pert_b, sample.pert_a, sample.pert_a])) = true ∧
      ¬ (Basic.eq
        (.ElectronicState "psi" (multiset_basic.from_tags Perturbation.le
          [sample.pert_a, sample.pert_b, sample.pert_a]))
        (.ElectronicState "psi" (multiset_basic.from_tags Perturbation.le
          [sample.pert_a, sample.pert_b])) = true) :=
  ⟨(electronic_state_eq_iff Perturbation.le (fun a b => le_total a.key b.key)
      (fun a b h1 h2 => perturbation_key_injective a b (le_antisymm h1 h2))
      (fun a b c h1 h2 => le_trans h1 h2) "psi" "psi"
      [sample.pert_a, sample.pert_b, sample.pert_a]
      [sample.pert_b, sample.pert_a, sample.pert_a] [] sample.x).1.2
      ⟨rfl, Multiset.coe_eq_coe.2 (List.Perm.swap _ _ _)⟩,
    fun h =>
      absurd (congrArg Multiset.card
        ((electronic_state_eq_iff Perturbation.le (fun a b => le_total a.key b.key)
          (fun a b h1 h2 => perturbation_key_injective a b (le_antisymm h1 h2))
          (fun a b c h1 h2 => le_trans h1 h2) "psi" "psi"
          [sample.pert_a, sample.pert_b, sample.pert_a]
          [sample.pert_a, sample.pert_b] [] sample.x).1.1 h).2)
        (by simp)⟩

/-! ## Further properties of the Keep traversal of a product -/

/-- Claim C31: in the Keep traversal of a scalar product the kept form of the numeric
coefficient, the outcome of `apply(coef)`, is absent or the coefficient itself, for every
symbol set; so the rule of the product never takes the branch that replaces the coefficient by
`subnum(coef, new_coef)`: its outcome is the whole product if the product or its coefficient is
in the symbol set, and the outcome of the loop over the pairs, started with the coefficient
unchanged, otherwise. -/
theorem keep_mul_coefficient (alg : Algebra) (S : List Basic) (coef : Number)
    (dict : List (Basic × Basic)) (r : Option Basic) :
    (KeepVisitor.applyNumber S coef = .ok none ∨
        KeepVisitor.applyNumber S coef = .ok (some (.Num coef))) ∧
      KeepVisitor.apply alg S (.Num coef) r = KeepVisitor.applyNumber S coef ∧
      KeepVisitor.bvisit alg S (.Mul coef dict) r
        = (if is_not_equal S (.Mul coef dict) then
            if is_not_equal S (.Num coef) then
              KeepVisitor.finishMul alg (.Mul coef dict)
                (KeepVisitor.bvisitMul alg S dict (coef, []) none)
            else .ok (some (.Mul coef dict))
          else .ok (some (.Mul coef dict))) := by
  refine ⟨?_, ?_, ?_⟩
  · simp only [KeepVisitor.applyNumber, KeepVisitor.guarded, remove_if_symbol_like]
    cases is_not_equal S (.Num coef) <;> simp
  · simp only [KeepVisitor.apply, KeepVisitor.applyNumber, KeepVisitor.bvisit]
  · simp only [KeepVisitor.bvisit, KeepVisitor.applyNumber, KeepVisitor.guarded,
      remove_if_symbol_like]
    cases is_not_equal S (.Mul coef dict) <;> cases is_not_equal S (.Num coef) <;>
      simp [Basic.eq_refl]

/-- Claim C31 at the product `x * y` with the sets `[z]`, for which the kept form of the
coefficient 1 is absent, and `[1]`, for which it is the coefficient. -/
theorem keep_mul_coefficient_witness :
    KeepVisitor.applyNumber [sample.z] one = .ok none ∧
      KeepVisitor.applyNumber [.Num one] one = .ok (some (.Num one)) ∧
      KeepVisitor.bvisit freeAlgebra [.Num one] sample.xy none = .ok (some sample.xy) :=
  ⟨rfl, rfl,
    (keep_mul_coefficient freeAlgebra [.Num one] one
      [(sample.x, .Num one), (sample.y, .Num one)] none).2.2.trans rfl⟩

/-- The loop of the product rule of Keep raises the non-representable-rewrite fault at the
first pair whose base has a kept form, if that form differs from the base and the exponent is a
symbol-like node that is in the symbol set neither alone nor with its base. -/
theorem keep_mul_loop_exponent_fault (alg : Algebra) (S : List Basic) (b e v : Basic)
    (post : List (Basic × Basic))
    (hpair : is_not_equal S (.Pow b e) = true)
    (hb : KeepVisitor.apply alg S b none = .ok (some v)) (hv : Basic.eq b v = false)
    (he : e.isSymbolLike = true) (heS : is_not_equal S e = true) :
    ∀ (pre : List (Basic × Basic)) (acc : Number × List (Basic × Basic)),
      (∀ p ∈ pre, is_not_equal S (.Pow p.1 p.2) = true) →
      (∀ p ∈ pre, KeepVisitor.apply alg S p.1 none = .ok none) →
      KeepVisitor.bvisitMul alg S (pre ++ (b, e) :: post) acc none
        = .error .SymEngineException := by
  intro pre
  induction pre with
  | nil =>
    intro acc _ _
    have hexp := keep_symbol_like alg S e (some v) he
    simp only [KeepVisitor.apply] at hb hexp
    simp [KeepVisitor.bvisitMul, hpair, hb, hv, hexp, heS]
  | cons p rest ih =>
    intro acc hpairs hpre
    obtain ⟨b1, e1⟩ := p
    have h1 := hpairs (b1, e1) (List.mem_cons_self _ _)
    have h2 := hpre (b1, e1) (List.mem_cons_self _ _)
    simp only [KeepVisitor.apply] at h2
    simp only [List.cons_append, KeepVisitor.bvisitMul, h1, if_true, h2]
    exact ih _ (fun p hp => hpairs p (List.mem_cons_of_mem _ hp))
      (fun p hp => hpre p (List.mem_cons_of_mem _ hp))

/-- Claim C32: in the Keep traversal of a scalar product that is not in the symbol set, nor its
coefficient, nor the pairs that the loop reaches: if the bases of the pairs before the pair
`(b, e)` have an absent kept form, the kept form `v` of `b` differs from `b`, and the exponent
`e` is a symbol-like node (the leaves are among them) that is structurally equal to no member
of the set, then the traversal raises the non-representable-rewrite fault. -/
theorem keep_mul_exponent_lost (alg : Algebra) (S : List Basic) (coef : Number)
    (pre post : List (Basic × Basic)) (b e v : Basic) (r : Option Basic)
    (hE : is_not_equal S (.Mul coef (pre ++ (b, e) :: post)) = true)
    (hcoef : is_not_equal S (.Num coef) = true)
    (hpairs : ∀ p ∈ pre ++ [(b, e)], is_not_equal S (.Pow p.1 p.2) = true)
    (hpre : ∀ p ∈ pre, KeepVisitor.apply alg S p.1 none = .ok none)
    (hb : KeepVisitor.apply alg S b none = .ok (some v)) (hv : Basic.eq b v = false)
    (he : e.isSymbolLike = true) (heS : is_not_equal S e = true) :
    KeepVisitor.apply alg S (.Mul coef (pre ++ (b, e) :: post)) r
      = .error .SymEngineException := by
  have hloop := keep_mul_loop_exponent_fault alg S b e v post
    (hpairs (b, e) (by simp)) hb hv he heS pre (coef, [])
    (fun p hp => hpairs p (by simp [hp])) hpre
  simp [KeepVisitor.apply, KeepVisitor.guarded, KeepVisitor.bvisit, KeepVisitor.applyNumber,
    remove_if_symbol_like, hE, hcoef, hloop, KeepVisitor.finishMul]

/-- Claim C32 at the product node with the pairs `(y, 1)` and `(P, 1)` and the set `[z]`, where
`P` is the product node with the single pair `(x, 1)`: the kept form of `y` is absent, that of
`P` is `x`, and the exponent 1 is not in the set. -/
theorem keep_mul_exponent_lost_witness :
    KeepVisitor.apply freeAlgebra [sample.z] sample.y none = .ok none ∧
      KeepVisitor.apply freeAlgebra [sample.z] sample.single none = .ok (some sample.x) ∧
      keep_if freeAlgebra (fun x => x) sample.unit_power [sample.z] true
        = .error .SymEngineException :=
  ⟨rfl, rfl, by
    have h := keep_mul_exponent_lost freeAlgebra [sample.z] one [(sample.y, .Num one)] []
      sample.single (.Num one) sample.x none rfl rfl
      (by
        intro p hp
        simp only [List.cons_append, List.nil_append, List.mem_cons, List.mem_singleton,
          List.not_mem_nil, or_false] at hp
        rcases hp with h | h <;> subst h <;> rfl)
      (by
        intro p hp
        simp only [List.mem_singleton] at hp
        subst hp
        rfl)
      rfl rfl rfl rfl
    simp only [keep_if, sample.unit_power]
    simp only [List.cons_append, List.nil_append] at h
    rw [h]⟩

/-! ## Kinds with an empty rule and kinds that only Find classifies -/

/-- Claim C33: a visit of an exchange-correlation energy or potential node in the Remove or
Keep traversal leaves the stored result unchanged, whatever the node, the predicate and the
symbol set are. On a new visitor the result is absent: `remove_if` of such a node is absent for
every symbol set, and so is `keep_if` when the node is not in the set. In the loop of a matrix
sum and of a sum of Remove, after an operand whose removal gives `v`, the node gives `v`
again. -/
theorem exch_corr_result_unchanged (alg : Algebra) (cond : Basic → Bool) (S : List Basic)
    (N : Basic) (hN : N.isExchCorr = true) (r : Option Basic) :
    RemoveVisitor.apply alg cond N r = .ok r ∧
      KeepVisitor.bvisit alg S N r = .ok r ∧
      (is_not_equal S N = true → KeepVisitor.apply alg S N r = .ok r) ∧
      remove_if alg N S = .ok none ∧
      (∀ f remove_zeros, is_not_equal S N = true →
        keep_if alg remove_zeros N S f = .ok none) ∧
      (∀ a v rest terms, RemoveVisitor.apply alg cond a r = .ok (some v) →
        RemoveVisitor.bvisitMatrixAdd alg cond (a :: N :: rest) terms r
          = RemoveVisitor.bvisitMatrixAdd alg cond rest (terms ++ [v, v]) (some v)) ∧
      (∀ a rest terms, RemoveVisitor.apply alg cond a r = .ok none →
        RemoveVisitor.bvisitMatrixAdd alg cond (a :: N :: rest) terms r
          = RemoveVisitor.bvisitMatrixAdd alg cond rest terms none) ∧
      (∀ t c c2 v rest acc,
        cond (alg.add_from_dict zero [(t, c)]) = false → cond (.Num c) = false →
        cond (alg.add_from_dict zero [(N, c2)]) = false → cond (.Num c2) = false →
        RemoveVisitor.apply alg cond t r = .ok (some v) →
        RemoveVisitor.bvisitAdd alg cond ((t, c) :: (N, c2) :: rest) acc r
          = RemoveVisitor.bvisitAdd alg cond rest
              (alg.coef_dict_add_term (alg.coef_dict_add_term acc c v) c2 v) (some v)) := by
  have hR : ∀ r, RemoveVisitor.apply alg cond N r = .ok r := by
    intro r
    cases N <;> simp [Basic.isExchCorr] at hN <;> simp [RemoveVisitor.apply]
  have hRS : ∀ r, RemoveVisitor.apply alg (is_equal S) N r = .ok r := by
    intro r
    cases N <;> simp [Basic.isExchCorr] at hN <;> simp [RemoveVisitor.apply]
  have hK : ∀ r, KeepVisitor.bvisit alg S N r = .ok r := by
    intro r
    cases N <;> simp [Basic.isExchCorr] at hN <;> simp [KeepVisitor.bvisit]
  refine ⟨hR r, hK r, ?_, ?_, ?_, ?_, ?_, ?_⟩
  · intro h
    simp [KeepVisitor.apply, KeepVisitor.guarded, h, hK]
  · simp [remove_if, hRS]
  · intro f remove_zeros h
    simp [keep_if, KeepVisitor.apply, KeepVisitor.guarded, h, hK]
  · intro a v rest terms ha
    simp [RemoveVisitor.bvisitMatrixAdd, ha, hR]
  · intro a rest terms ha
    simp [RemoveVisitor.bvisitMatrixAdd, ha, hR]
  · intro t c c2 v rest acc h1 h2 h3 h4 ht
    simp [RemoveVisitor.bvisitAdd, h1, h2, h3, h4, ht, hR]

/-- Claim C33 at the exchange-correlation potential `Vxc` and energy `Exc`: `remove_if` with
the empty set is absent, and in the matrix sum `D + Vxc` and in the sum `x + Exc` the node
gives the result of the operand before it. -/
theorem exch_corr_result_unchanged_witness :
    remove_if freeAlgebra sample.Vxc [] = .ok none ∧
      RemoveVisitor.apply freeAlgebra (is_equal []) sample.Vxc (some sample.D)
        = .ok (some sample.D) ∧
      remove_if freeAlgebra (.MatrixAdd [sample.D, sample.Vxc]) []
        = .ok (some (.MatrixAdd [sample.D, sample.D])) ∧
      remove_if freeAlgebra (.Add zero [(sample.x, one), (sample.Exc, one)]) []
        = .ok (some (.Add zero [(sample.x, one), (sample.x, one)])) :=
  ⟨(exch_corr_result_unchanged freeAlgebra (is_equal []) [] sample.Vxc rfl none).2.2.2.1,
    (exch_corr_result_unchanged freeAlgebra (is_equal []) [] sample.Vxc rfl
      (some sample.D)).1,
    rfl, rfl⟩

/-- Claim C34: the Remove traversal raises the unclassified-node fault at a Lagrangian
multiplier, a zero operator, a two-electron energy and a composite function, whatever the
predicate is, also when it holds for the node; Find has a rule for each of these kinds and
reports the node for a target equal to it. So for each such node `N`, `find_all(N, N)` is the
singleton of `N` and `remove_if(N, [N])` raises the fault. -/
theorem remove_fault_where_find_succeeds (alg : Algebra) (cond : Basic → Bool)
    (r : Option Basic) (n : String) (der : PertMultichain) (dep : PertDependency)
    (inner outer t : Basic) (k : Nat) :
    (RemoveVisitor.apply alg cond (.LagMultiplier n der) r = .error .NotImplementedError ∧
      RemoveVisitor.apply alg cond .ZeroOperator r = .error .NotImplementedError ∧
      RemoveVisitor.apply alg cond (.TwoElecEnergy n inner outer dep der) r
        = .error .NotImplementedError ∧
      RemoveVisitor.apply alg cond (.CompositeFunction n inner k) r
        = .error .NotImplementedError) ∧
    (find_all alg (.LagMultiplier n der) t
        = .ok (if find_only_name t (.LagMultiplier n der) then [.LagMultiplier n der] else []) ∧
      find_all alg .ZeroOperator t
        = .ok (if find_equivalence t .ZeroOperator then [.ZeroOperator] else []) ∧
      find_all alg (.TwoElecEnergy n inner outer dep der) (.TwoElecEnergy n inner outer dep der)
        = .ok [.TwoElecEnergy n inner outer dep der] ∧
      find_all alg (.CompositeFunction n inner k) (.CompositeFunction n inner k)
        = .ok [.CompositeFunction n inner k]) ∧
    (∃ E s, is_equal [s] E = true ∧ find_all alg E s = .ok [E] ∧
      remove_if alg E [s] = .error .NotImplementedError) := by
  refine ⟨⟨?_, ?_, ?_, ?_⟩, ⟨?_, ?_, ?_, ?_⟩, ?_⟩
  · simp [RemoveVisitor.apply]
  · simp [RemoveVisitor.apply]
  · simp [RemoveVisitor.apply]
  · simp [RemoveVisitor.apply]
  · simp only [find_all, FindAllVisitor.apply]
    split <;> simp [set_insert]
  · simp only [find_all, FindAllVisitor.apply]
    split <;> simp [set_insert]
  · exact find_all_self alg _ rfl
  · exact find_all_self alg _ rfl
  · refine ⟨.LagMultiplier n der, .LagMultiplier n der, ?_, find_all_self alg _ rfl, ?_⟩
    · simp [is_equal, Basic.eq_refl]
    · simp [remove_if, RemoveVisitor.apply]

/-- Claim C34 at the Lagrangian multiplier `lambda`, alone and as an operand of the matrix sum
`D + lambda`: Find reports it and Remove raises the fault. -/
theorem remove_fault_where_find_succeeds_witness :
    find_all freeAlgebra sample.lambda sample.lambda = .ok [sample.lambda] ∧
      remove_if freeAlgebra sample.lambda [sample.lambda] = .error .NotImplementedError ∧
      find_all freeAlgebra (.MatrixAdd [sample.D, sample.lambda]) sample.lambda
        = .ok [sample.lambda] ∧
      remove_if freeAlgebra (.MatrixAdd [sample.D, sample.lambda]) [sample.lambda]
        = .error .NotImplementedError :=
  ⟨((remove_fault_where_find_succeeds freeAlgebra (is_equal [sample.lambda]) none "lambda" []
      [] sample.x sample.x sample.lambda 0).2.1.1).trans rfl,
    (remove_fault_where_find_succeeds freeAlgebra (is_equal [sample.lambda]) none "lambda" []
      [] sample.x sample.x sample.lambda 0).1.1,
    rfl, rfl⟩

/-! ## Properties of the sum rules of Keep -/

/-- Claim C26 as amended: for an operator or function symbol with dependencies and without a
wrapped operand (one-electron operator, overlap, non-electron function) the Remove traversal
is whole-or-nothing: absent if the predicate holds for the node and the node unchanged
otherwise. For a time-derivative operator and for a two-electron operator the traversal is
absent if the predicate holds for the node itself; otherwise it goes through the wrapped
operand: a fault of its removal is passed on, the node is absent if the removal of the operand
is absent, and otherwise it is rebuilt around the rewritten operand. -/
theorem remove_operator_rules (alg : Algebra) (cond : Basic → Bool) (r : Option Basic)
    (n : String) (dep : PertDependency) (der : PertMultichain) (X : Basic)
    (ty : TemporumType) :
    (RemoveVisitor.apply alg cond (.OneElecOperator n dep der) r
        = if cond (.OneElecOperator n dep der) then .ok none
          else .ok (some (.OneElecOperator n dep der))) ∧
      (RemoveVisitor.apply alg cond (.TemporumOverlap dep der) r
        = if cond (.TemporumOverlap dep der) then .ok none
          else .ok (some (.TemporumOverlap dep der))) ∧
      (RemoveVisitor.apply alg cond (.NonElecFunction n dep der) r
        = if cond (.NonElecFunction n dep der) then .ok none
          else .ok (some (.NonElecFunction n dep der))) ∧
      (RemoveVisitor.apply alg cond (.TemporumOperator X ty) r
        = if cond (.TemporumOperator X ty) then .ok none
          else
            match RemoveVisitor.apply alg cond X r with
            | .error f => .error f
            | .ok none => .ok none
            | .ok (some Y) => .ok (some (.TemporumOperator Y ty))) ∧
      (RemoveVisitor.apply alg cond (.TwoElecOperator n X dep der) r
        = if cond (.TwoElecOperator n X dep der) then .ok none
          else
            match RemoveVisitor.apply alg cond X r with
            | .error f => .error f
            | .ok none => .ok none
            | .ok (some Y) => .ok (some (.TwoElecOperator n Y dep der))) := by
  refine ⟨?_, ?_, ?_, ?_, ?_⟩
  · simp only [RemoveVisitor.apply, remove_if_symbol_like]
  · simp only [RemoveVisitor.apply, remove_if_symbol_like]
  · simp only [RemoveVisitor.apply, remove_if_symbol_like]
  · simp only [RemoveVisitor.apply, remove_if_one_arg_f]
  · simp only [RemoveVisitor.apply, remove_if_one_arg_f]

/-- Claim C26 as amended, at the one-electron operator `V` and at the time derivative `N` of
the density `D`: with the set `[V]` the operator is absent and `N` is unchanged, and with the
set `[N]` the time derivative is absent. -/
theorem remove_operator_rules_witness :
    remove_if freeAlgebra sample.V [sample.V] = .ok none ∧
      remove_if freeAlgebra (.TemporumOperator sample.D .Ket) [sample.V]
        = .ok (some (.TemporumOperator sample.D .Ket)) ∧
      remove_if freeAlgebra (.TemporumOperator sample.D .Ket) [.TemporumOperator sample.D .Ket]
        = .ok none :=
  ⟨(remove_operator_rules freeAlgebra (is_equal [sample.V]) none "V" [] [] sample.D
      .Ket).1.trans rfl,
    (remove_operator_rules freeAlgebra (is_equal [sample.V]) none "V" [] [] sample.D
      .Ket).2.2.2.1.trans rfl,
    (remove_operator_rules freeAlgebra (is_equal [.TemporumOperator sample.D .Ket]) none "V" []
      [] sample.D .Ket).2.2.2.1.trans rfl⟩

/-- Claim C26 as stated fails at the time derivative `N` of the density `D` with the set
`[D]`: the predicate does not hold for `N` itself, yet the traversal goes into the wrapped
target, whose removal is absent, and returns absent instead of `N`; so it does for the
two-electron operator `G` of the state `D`. -/
theorem remove_operator_rules_counterexample :
    is_equal [sample.D] (.TemporumOperator sample.D .Ket) = false ∧
      remove_if freeAlgebra (.TemporumOperator sample.D .Ket) [sample.D] = .ok none ∧
      is_equal [sample.D] (.TwoElecOperator "G" sample.D [] []) = false ∧
      remove_if freeAlgebra (.TwoElecOperator "G" sample.D [] []) [sample.D] = .ok none :=
  ⟨rfl, rfl, rfl, rfl⟩

/-! ## The unclassified-node fault and the nodes that a traversal visits -/

mutual
/-- The Remove traversal raises the unclassified-node fault exactly when it visits a node of a
kind without a rule. -/
theorem remove_fault_iff_visited (alg : Algebra) (cond : Basic → Bool) :
    ∀ (x : Basic) (r : Option Basic),
      RemoveVisitor.apply alg cond x r = .error .NotImplementedError ↔
        (RemoveVisitor.visited alg cond x r).any Basic.hasNoRemoveRule = true
  | .Add coef dict, r => by
    have ih := remove_fault_iff_visited_add alg cond dict
    have hx : Basic.hasNoRemoveRule (.Add coef dict) = false := rfl
    simp only [RemoveVisitor.apply, RemoveVisitor.visited, List.any_cons, hx, Bool.false_or]
    cases hc : cond (.Add coef dict)
    · simp only [Bool.false_eq_true, if_false]
      rw [← ih (if cond (.Num coef) then zero else coef, []) r]
      cases RemoveVisitor.bvisitAdd alg cond dict
        (if cond (.Num coef) then zero else coef, []) r <;> simp
    · simp
  | .Mul coef dict, r => by
    have ih := remove_fault_iff_visited_mul alg cond dict
    have hx : Basic.hasNoRemoveRule (.Mul coef dict) = false := rfl
    simp only [RemoveVisitor.apply, RemoveVisitor.visited, List.any_cons, hx, Bool.false_or]
    cases hc : cond (.Mul coef dict)
    · cases hn : cond (.Num coef)
      · simp only [Bool.false_eq_true, if_false]
        rw [← ih (coef, []) r]
        rcases RemoveVisitor.bvisitMul alg cond dict (coef, []) r with f | (_ | v) <;> simp
      · simp
    · simp
  | .TwoElecOperator n state dep der, r => by
    have ih := remove_fault_iff_visited alg cond state r
    have hx : Basic.hasNoRemoveRule (.TwoElecOperator n state dep der) = false := rfl
    simp only [RemoveVisitor.apply, RemoveVisitor.visited, List.any_cons, hx, Bool.false_or,
      remove_if_one_arg_f]
    cases hc : cond (.TwoElecOperator n state dep der)
    · simp only [Bool.false_eq_true, if_false]
      rw [← ih]
      rcases RemoveVisitor.apply alg cond state r with f | (_ | v) <;> simp
    · simp
  | .TemporumOperator target ty, r => by
    have ih := remove_fault_iff_visited alg cond target r
    have hx : Basic.hasNoRemoveRule (.TemporumOperator target ty) = false := rfl
    simp only [RemoveVisitor.apply, RemoveVisitor.visited, List.any_cons, hx, Bool.false_or,
      remove_if_one_arg_f]
    cases hc : cond (.TemporumOperator target ty)
    · simp only [Bool.false_eq_true, if_false]
      rw [← ih]
      rcases RemoveVisitor.apply alg cond target r with f | (_ | v) <;> simp
    · simp
  | .Trace arg, r => by
    have ih := remove_fault_iff_visited alg cond arg r
    have hx : Basic.hasNoRemoveRule (.Trace arg) = false := rfl
    simp only [RemoveVisitor.apply, RemoveVisitor.visited, List.any_cons, hx, Bool.false_or,
      remove_if_one_arg_f]
    cases hc : cond (.Trace arg)
    · simp only [Bool.false_eq_true, if_false]
      rw [← ih]
      rcases RemoveVisitor.apply alg cond arg r with f | (_ | v) <;> simp
    · simp
  | .ConjugateMatrix arg, r => by
    have ih := remove_fault_iff_visited alg cond arg r
    have hx : Basic.hasNoRemoveRule (.ConjugateMatrix arg) = false := rfl
    simp only [RemoveVisitor.apply, RemoveVisitor.visited, List.any_cons, hx, Bool.false_or,
      remove_ifnot_one_arg_f]
    cases hc : cond (.ConjugateMatrix arg)
    · simp
    · simp only [if_true]
      rw [← ih]
      rcases RemoveVisitor.apply alg cond arg r with f | (_ | v)
      · simp
      · simp
      · simp only [reduceCtorEq, iff_false]
        split <;> simp
  | .Transpose arg, r => by
    have ih := remove_fault_iff_visited alg cond arg r
    have hx : Basic.hasNoRemoveRule (.Transpose arg) = false := rfl
    simp only [RemoveVisitor.apply, RemoveVisitor.visited, List.any_cons, hx, Bool.false_or,
      remove_ifnot_one_arg_f]
    cases hc : cond (.Transpose arg)
    · simp
    · simp only [if_true]
      rw [← ih]
      rcases RemoveVisitor.apply alg cond arg r with f | (_ | v)
      · simp
      · simp
      · simp only [reduceCtorEq, iff_false]
        split <;> simp
  | .MatrixAdd args, r => by
    have ih := remove_fault_iff_visited_matrix_add alg cond args
    have hx : Basic.hasNoRemoveRule (.MatrixAdd args) = false := rfl
    simp only [RemoveVisitor.apply, RemoveVisitor.visited, List.any_cons, hx, Bool.false_or]
    cases hc : cond (.MatrixAdd args)
    · simp only [Bool.false_eq_true, if_false]
      rw [← ih [] r]
      cases RemoveVisitor.bvisitMatrixAdd alg cond args [] r with
      | error f => simp
      | ok v => simp only [reduceCtorEq, iff_false]; split <;> simp
    · simp
  | .MatrixMul args, r => by
    have ih := remove_fault_iff_visited_matrix_mul alg cond args
    have hx : Basic.hasNoRemoveRule (.MatrixMul args) = false := rfl
    simp only [RemoveVisitor.apply, RemoveVisitor.visited, List.any_cons, hx, Bool.false_or]
    cases hc : cond (.MatrixMul args)
    · simp only [Bool.false_eq_true, if_false]
      rw [← ih [] r]
      rcases RemoveVisitor.bvisitMatrixMul alg cond args [] r with f | (_ | v)
      · simp
      · simp
      · simp only [reduceCtorEq, iff_false]; split <;> simp
    · simp
  | .Symbol n, r => by
    simp only [RemoveVisitor.apply, RemoveVisitor.visited, remove_if_symbol_like]
    split <;> simp [Basic.hasNoRemoveRule]
  | .Perturbation p, r => by
    simp only [RemoveVisitor.apply, RemoveVisitor.visited, remove_if_symbol_like]
    split <;> simp [Basic.hasNoRemoveRule]
  | .Num n, r => by
    simp only [RemoveVisitor.apply, RemoveVisitor.visited, remove_if_symbol_like]
    split <;> simp [Basic.hasNoRemoveRule]
  | .Constant n, r => by
    simp only [RemoveVisitor.apply, RemoveVisitor.visited, remove_if_symbol_like]
    split <;> simp [Basic.hasNoRemoveRule]
  | .Pow b e, r => by simp [RemoveVisitor.apply, RemoveVisitor.visited, Basic.hasNoRemoveRule]
  | .NonElecFunction n dep der, r => by
    simp only [RemoveVisitor.apply, RemoveVisitor.visited, remove_if_symbol_like]
    split <;> simp [Basic.hasNoRemoveRule]
  | .TwoElecEnergy n i o dep der, r => by
    simp [RemoveVisitor.apply, RemoveVisitor.visited, Basic.hasNoRemoveRule]
  | .CompositeFunction n i k, r => by
    simp [RemoveVisitor.apply, RemoveVisitor.visited, Basic.hasNoRemoveRule]
  | .ExchCorrEnergy n a e, r => by
    simp [RemoveVisitor.apply, RemoveVisitor.visited, Basic.hasNoRemoveRule]
  | .FunctionSymbol n a, r => by
    simp [RemoveVisitor.apply, RemoveVisitor.visited, Basic.hasNoRemoveRule]
  | .ZeroMatrix m n, r => by
    simp only [RemoveVisitor.apply, RemoveVisitor.visited, remove_if_symbol_like]
    split <;> simp [Basic.hasNoRemoveRule]
  | .LagMultiplier n der, r => by
    simp [RemoveVisitor.apply, RemoveVisitor.visited, Basic.hasNoRemoveRule]
  | .ElectronicState n der, r => by
    simp [RemoveVisitor.apply, RemoveVisitor.visited, Basic.hasNoRemoveRule]
  | .OneElecDensity n der, r => by
    simp only [RemoveVisitor.apply, RemoveVisitor.visited, remove_if_symbol_like]
    split <;> simp [Basic.hasNoRemoveRule]
  | .OneElecOperator n dep der, r => by
    simp only [RemoveVisitor.apply, RemoveVisitor.visited, remove_if_symbol_like]
    split <;> simp [Basic.hasNoRemoveRule]
  | .ExchCorrPotential n a p, r => by
    simp [RemoveVisitor.apply, RemoveVisitor.visited, Basic.hasNoRemoveRule]
  | .TemporumOverlap dep der, r => by
    simp only [RemoveVisitor.apply, RemoveVisitor.visited, remove_if_symbol_like]
    split <;> simp [Basic.hasNoRemoveRule]
  | .ZeroOperator, r => by
    simp [RemoveVisitor.apply, RemoveVisitor.visited, Basic.hasNoRemoveRule]
  | .MatrixSymbol n, r => by
    simp [RemoveVisitor.apply, RemoveVisitor.visited, Basic.hasNoRemoveRule]
  | .MatrixDerivative arg der, r => by
    simp only [RemoveVisitor.apply, RemoveVisitor.visited, remove_if_symbol_like]
    split <;> simp [Basic.hasNoRemoveRule]
  | .Other k a, r => by
    simp [RemoveVisitor.apply, RemoveVisitor.visited, Basic.hasNoRemoveRule]
termination_by structural x => x
/-- The loop of the sum rule of Remove raises the unclassified-node fault exactly when it
visits a node of a kind without a rule. -/
theorem remove_fault_iff_visited_add (alg : Algebra) (cond : Basic → Bool) :
    ∀ (dict : List (Basic × Number)) (acc : Number × List (Basic × Number)) (r : Option Basic),
      RemoveVisitor.bvisitAdd alg cond dict acc r = .error .NotImplementedError ↔
        (RemoveVisitor.visitedAdd alg cond dict r).any Basic.hasNoRemoveRule = true
  | [], acc, r => by simp [RemoveVisitor.bvisitAdd, RemoveVisitor.visitedAdd]
  | (t, c) :: rest, acc, r => by
    have iht := remove_fault_iff_visited alg cond t r
    have ihr := remove_fault_iff_visited_add alg cond rest
    simp only [RemoveVisitor.bvisitAdd, RemoveVisitor.visitedAdd]
    cases hc : cond (alg.add_from_dict zero [(t, c)])
    · simp only [Bool.false_eq_true, if_false, List.any_append, Bool.or_eq_true]
      rw [← iht]
      rcases ha : RemoveVisitor.apply alg cond t r with f | (_ | k)
      · simp
      · simp [ihr]
      · cases hk : cond (.Num c) <;> simp [ihr]
    · simp only [if_true]
      exact ihr acc r
termination_by structural x => x
/-- The loop of the product rule of Remove raises the unclassified-node fault exactly when it
visits a node of a kind without a rule. -/
theorem remove_fault_iff_visited_mul (alg : Algebra) (cond : Basic → Bool) :
    ∀ (dict : List (Basic × Basic)) (acc : Number × List (Basic × Basic)) (r : Option Basic),
      RemoveVisitor.bvisitMul alg cond dict acc r = .error .NotImplementedError ↔
        (RemoveVisitor.visitedMul alg cond dict r).any Basic.hasNoRemoveRule = true
  | [], acc, r => by simp [RemoveVisitor.bvisitMul, RemoveVisitor.visitedMul]
  | (b, e) :: rest, acc, r => by
    have ihb := remove_fault_iff_visited alg cond b r
    have ihe := remove_fault_iff_visited alg cond e
    have ihr := remove_fault_iff_visited_mul alg cond rest
    simp only [RemoveVisitor.bvisitMul, RemoveVisitor.visitedMul]
    cases hc : cond (.Pow b e)
    · simp only [Bool.false_eq_true, if_false, List.any_append, Bool.or_eq_true]
      rw [← ihb]
      rcases ha : RemoveVisitor.apply alg cond b r with f | (_ | k)
      · simp
      · simp
      · simp only [reduceCtorEq, false_or, List.any_append, Bool.or_eq_true]
        rw [← ihe (some k)]
        rcases hb : RemoveVisitor.apply alg cond e (some k) with f | (_ | v)
        · simp
        · simp
        · simp [ihr]
    · simp
termination_by structural x => x
/-- The loop of the matrix-sum rule of Remove raises the unclassified-node fault exactly when
it visits a node of a kind without a rule. -/
theorem remove_fault_iff_visited_matrix_add (alg : Algebra) (cond : Basic → Bool) :
    ∀ (args : List Basic) (terms : List Basic) (r : Option Basic),
      RemoveVisitor.bvisitMatrixAdd alg cond args terms r = .error .NotImplementedError ↔
        (RemoveVisitor.visitedMatrixAdd alg cond args r).any Basic.hasNoRemoveRule = true
  | [], terms, r => by simp [RemoveVisitor.bvisitMatrixAdd, RemoveVisitor.visitedMatrixAdd]
  | a :: rest, terms, r => by
    have iha := remove_fault_iff_visited alg cond a r
    have ihr := remove_fault_iff_visited_matrix_add alg cond rest
    simp only [RemoveVisitor.bvisitMatrixAdd, RemoveVisitor.visitedMatrixAdd, List.any_append,
      Bool.or_eq_true]
    rw [← iha]
    rcases ha : RemoveVisitor.apply alg cond a r with f | (_ | k)
    · simp
    · simp [ihr]
    · simp [ihr]
termination_by structural x => x
/-- The loop of the matrix-product rule of Remove raises the unclassified-node fault exactly
when it visits a node of a kind without a rule. -/
theorem remove_fault_iff_visited_matrix_mul (alg : Algebra) (cond : Basic → Bool) :
    ∀ (args : List Basic) (factors : List Basic) (r : Option Basic),
      RemoveVisitor.bvisitMatrixMul alg cond args factors r = .error .NotImplementedError ↔
        (RemoveVisitor.visitedMatrixMul alg cond args r).any Basic.hasNoRemoveRule = true
  | [], factors, r => by simp [RemoveVisitor.bvisitMatrixMul, RemoveVisitor.visitedMatrixMul]
  | a :: rest, factors, r => by
    have iha := remove_fault_iff_visited alg cond a r
    have ihr := remove_fault_iff_visited_matrix_mul alg cond rest
    simp only [RemoveVisitor.bvisitMatrixMul, RemoveVisitor.visitedMatrixMul, List.any_append,
      Bool.or_eq_true]
    rw [← iha]
    rcases ha : RemoveVisitor.apply alg cond a r with f | (_ | k)
    · simp
    · simp
    · simp [ihr]
termination_by structural x => x
end
mutual
/-- The Find traversal raises the unclassified-node fault exactly when it visits a node of a
kind without a rule. -/
theorem find_fault_iff_visited (alg : Algebra) :
    ∀ (x symbol : Basic) (result : List Basic),
      FindAllVisitor.apply alg x symbol result = .error .NotImplementedError ↔
        (FindAllVisitor.visited alg x symbol result).any Basic.isUnclassified = true
  | .Symbol n, symbol, result => by
    simp [FindAllVisitor.apply, FindAllVisitor.visited, Basic.isUnclassified]
  | .Perturbation p, symbol, result => by
    simp [FindAllVisitor.apply, FindAllVisitor.visited, Basic.isUnclassified]
  | .Num n, symbol, result => by
    simp [FindAllVisitor.apply, FindAllVisitor.visited, Basic.isUnclassified]
  | .Constant n, symbol, result => by
    simp [FindAllVisitor.apply, FindAllVisitor.visited, Basic.isUnclassified]
  | .Add coef dict, symbol, result => by
    have ih := find_fault_iff_visited_add alg dict symbol result
    have hx : Basic.isUnclassified (.Add coef dict) = false := rfl
    simp only [FindAllVisitor.apply, FindAllVisitor.visited, List.any_cons, hx, Bool.false_or]
    cases find_equivalence symbol (.Add coef dict)
    · cases find_equivalence symbol (.Num coef)
      · simpa using ih
      · simp
    · simp
  | .Mul coef dict, symbol, result => by
    have ih := find_fault_iff_visited_mul alg dict symbol result
    have hx : Basic.isUnclassified (.Mul coef dict) = false := rfl
    simp only [FindAllVisitor.apply, FindAllVisitor.visited, List.any_cons, hx, Bool.false_or]
    cases find_equivalence symbol (.Mul coef dict)
    · cases find_equivalence symbol (.Num coef)
      · simpa using ih
      · simp
    · simp
  | .Pow b e, symbol, result => by
    simp [FindAllVisitor.apply, FindAllVisitor.visited, Basic.isUnclassified]
  | .NonElecFunction n dep der, symbol, result => by
    simp [FindAllVisitor.apply, FindAllVisitor.visited, Basic.isUnclassified]
  | .TwoElecEnergy n inner outer dep der, symbol, result => by
    have ihi := find_fault_iff_visited alg inner symbol result
    have iho := find_fault_iff_visited alg outer symbol
    have hx : Basic.isUnclassified (.TwoElecEnergy n inner outer dep der) = false := rfl
    simp only [FindAllVisitor.apply, FindAllVisitor.visited, List.any_cons, hx, Bool.false_or]
    cases find_with_dependencies symbol (.TwoElecEnergy n inner outer dep der)
    · simp only [Bool.false_eq_true, if_false, List.any_append, Bool.or_eq_true]
      rw [← ihi]
      cases FindAllVisitor.apply alg inner symbol result with
      | error f => simp
      | ok v => simp [iho]
    · simp
  | .CompositeFunction n inner k, symbol, result => by
    have ih := find_fault_iff_visited alg inner symbol result
    have hx : Basic.isUnclassified (.CompositeFunction n inner k) = false := rfl
    cases symbol <;>
      simp only [FindAllVisitor.apply, FindAllVisitor.visited, List.any_cons, hx, Bool.false_or,
        Bool.false_eq_true, if_false] <;>
      first
      | exact ih
      | (split
         · simp
         · exact ih)
  | .ExchCorrEnergy n args energy, symbol, result => by
    have ih := find_fault_iff_visited alg energy symbol result
    have hx : Basic.isUnclassified (.ExchCorrEnergy n args energy) = false := rfl
    cases symbol <;>
      simp only [FindAllVisitor.apply, FindAllVisitor.visited, List.any_cons, hx, Bool.false_or,
        Bool.false_eq_true, if_false] <;>
      first
      | exact ih
      | (split
         · simp
         · exact ih)
  | .FunctionSymbol n args, symbol, result => by
    simp [FindAllVisitor.apply, FindAllVisitor.visited, Basic.isUnclassified]
  | .ZeroMatrix m n, symbol, result => by
    simp [FindAllVisitor.apply, FindAllVisitor.visited, Basic.isUnclassified]
  | .LagMultiplier n der, symbol, result => by
    simp [FindAllVisitor.apply, FindAllVisitor.visited, Basic.isUnclassified]
  | .ElectronicState n der, symbol, result => by
    simp [FindAllVisitor.apply, FindAllVisitor.visited, Basic.isUnclassified]
  | .OneElecDensity n der, symbol, result => by
    simp [FindAllVisitor.apply, FindAllVisitor.visited, Basic.isUnclassified]
  | .OneElecOperator n dep der, symbol, result => by
    simp [FindAllVisitor.apply, FindAllVisitor.visited, Basic.isUnclassified]
  | .TwoElecOperator n state dep der, symbol, result => by
    have ih := find_fault_iff_visited alg state symbol result
    have hx : Basic.isUnclassified (.TwoElecOperator n state dep der) = false := rfl
    simp only [FindAllVisitor.apply, FindAllVisitor.visited, List.any_cons, hx, Bool.false_or]
    cases find_with_dependencies symbol (.TwoElecOperator n state dep der)
    · simpa using ih
    · simp
  | .ExchCorrPotential n args potential, symbol, result => by
    have ih := find_fault_iff_visited alg potential symbol result
    have hx : Basic.isUnclassified (.ExchCorrPotential n args potential) = false := rfl
    cases symbol <;>
      simp only [FindAllVisitor.apply, FindAllVisitor.visited, List.any_cons, hx, Bool.false_or,
        Bool.false_eq_true, if_false] <;>
      first
      | exact ih
      | (split
         · simp
         · exact ih)
  | .TemporumOperator target ty, symbol, result => by
    have ih := find_fault_iff_visited alg target
    have hx : Basic.isUnclassified (.TemporumOperator target ty) = false := rfl
    cases symbol <;>
      simp only [FindAllVisitor.apply, FindAllVisitor.visited, List.any_cons, hx, Bool.false_or] <;>
      first
      | exact ih _ result
      | (rw [← ih]
         simp only [find_promote]
         rcases FindAllVisitor.apply alg target _ [] with f | v
         · simp
         · simp only [reduceCtorEq, iff_false]; split <;> simp)
  | .TemporumOverlap dep der, symbol, result => by
    simp [FindAllVisitor.apply, FindAllVisitor.visited, Basic.isUnclassified]
  | .ZeroOperator, symbol, result => by
    simp [FindAllVisitor.apply, FindAllVisitor.visited, Basic.isUnclassified]
  | .MatrixSymbol n, symbol, result => by
    simp [FindAllVisitor.apply, FindAllVisitor.visited, Basic.isUnclassified]
  | .Trace arg, symbol, result => by
    have ih := find_fault_iff_visited alg arg
    have hx : Basic.isUnclassified (.Trace arg) = false := rfl
    cases symbol <;>
      simp only [FindAllVisitor.apply, FindAllVisitor.visited, List.any_cons, hx, Bool.false_or] <;>
      first
      | exact ih _ result
      | (rw [← ih]
         simp only [find_promote]
         rcases FindAllVisitor.apply alg arg _ [] with f | v
         · simp
         · simp only [reduceCtorEq, iff_false]; split <;> simp)
  | .ConjugateMatrix arg, symbol, result => by
    have ih := find_fault_iff_visited alg arg
    have hx : Basic.isUnclassified (.ConjugateMatrix arg) = false := rfl
    cases symbol <;>
      simp only [FindAllVisitor.apply, FindAllVisitor.visited, List.any_cons, hx, Bool.false_or] <;>
      first
      | exact ih _ result
      | (rw [← ih]
         simp only [find_promote]
         rcases FindAllVisitor.apply alg arg _ [] with f | v
         · simp
         · simp only [reduceCtorEq, iff_false]; split <;> simp)
  | .Transpose arg, symbol, result => by
    have ih := find_fault_iff_visited alg arg
    have hx : Basic.isUnclassified (.Transpose arg) = false := rfl
    cases symbol <;>
      simp only [FindAllVisitor.apply, FindAllVisitor.visited, List.any_cons, hx, Bool.false_or] <;>
      first
      | exact ih _ result
      | (rw [← ih]
         simp only [find_promote]
         rcases FindAllVisitor.apply alg arg _ [] with f | v
         · simp
         · simp only [reduceCtorEq, iff_false]; split <;> simp)
  | .MatrixAdd args, symbol, result => by
    have ih := find_fault_iff_visited_args alg args symbol result
    have hx : Basic.isUnclassified (.MatrixAdd args) = false := rfl
    simp only [FindAllVisitor.apply, FindAllVisitor.visited, List.any_cons, hx, Bool.false_or]
    cases find_equivalence symbol (.MatrixAdd args)
    · simpa using ih
    · simp
  | .MatrixMul args, symbol, result => by
    have ih := find_fault_iff_visited_args alg args symbol result
    have hx : Basic.isUnclassified (.MatrixMul args) = false := rfl
    simp only [FindAllVisitor.apply, FindAllVisitor.visited, List.any_cons, hx, Bool.false_or]
    cases find_equivalence symbol (.MatrixMul args)
    · simpa using ih
    · simp
  | .MatrixDerivative arg der, symbol, result => by
    simp [FindAllVisitor.apply, FindAllVisitor.visited, Basic.isUnclassified]
  | .Other k args, symbol, result => by
    simp [FindAllVisitor.apply, FindAllVisitor.visited, Basic.isUnclassified]
termination_by structural x => x
/-- The loop of the sum rule of Find raises the fault exactly when it visits a node of a kind
without a rule. -/
theorem find_fault_iff_visited_add (alg : Algebra) :
    ∀ (dict : List (Basic × Number)) (symbol : Basic) (result : List Basic),
      FindAllVisitor.bvisitAdd alg dict symbol result = .error .NotImplementedError ↔
        (FindAllVisitor.visitedAdd alg dict symbol result).any Basic.isUnclassified = true
  | [], symbol, result => by simp [FindAllVisitor.bvisitAdd, FindAllVisitor.visitedAdd]
  | (t, c) :: rest, symbol, result => by
    have iht := find_fault_iff_visited alg t symbol result
    have ihr := find_fault_iff_visited_add alg rest symbol
    simp only [FindAllVisitor.bvisitAdd, FindAllVisitor.visitedAdd]
    cases find_equivalence symbol (.Num c)
    · cases find_equivalence symbol (alg.add_from_dict zero [(t, c)])
      · simp only [Bool.false_eq_true, if_false, List.any_append, Bool.or_eq_true]
        rw [← iht]
        cases FindAllVisitor.apply alg t symbol result with
        | error f => simp
        | ok v => simp [ihr]
      · simpa using ihr _
    · simpa using ihr _
termination_by structural x => x
/-- The loop of the product rule of Find raises the fault exactly when it visits a node of a
kind without a rule. -/
theorem find_fault_iff_visited_mul (alg : Algebra) :
    ∀ (dict : List (Basic × Basic)) (symbol : Basic) (result : List Basic),
      FindAllVisitor.bvisitMul alg dict symbol result = .error .NotImplementedError ↔
        (FindAllVisitor.visitedMul alg dict symbol result).any Basic.isUnclassified = true
  | [], symbol, result => by simp [FindAllVisitor.bvisitMul, FindAllVisitor.visitedMul]
  | (b, e) :: rest, symbol, result => by
    have ihb := find_fault_iff_visited alg b symbol result
    have ihe := find_fault_iff_visited alg e symbol
    have ihr := find_fault_iff_visited_mul alg rest symbol
    simp only [FindAllVisitor.bvisitMul, FindAllVisitor.visitedMul]
    cases find_equivalence symbol (.Pow b e)
    · simp only [Bool.false_eq_true, if_false, List.any_append, Bool.or_eq_true]
      rw [← ihb]
      cases FindAllVisitor.apply alg b symbol result with
      | error f => simp
      | ok v =>
        simp only [reduceCtorEq, false_or, List.any_append, Bool.or_eq_true]
        rw [← ihe v]
        cases FindAllVisitor.apply alg e symbol v with
        | error f => simp
        | ok w => simp [ihr]
    · simpa using ihr _
termination_by structural x => x
/-- The loop of the matrix-sum and matrix-product rules of Find raises the fault exactly when
it visits a node of a kind without a rule. -/
theorem find_fault_iff_visited_args (alg : Algebra) :
    ∀ (args : List Basic) (symbol : Basic) (result : List Basic),
      FindAllVisitor.bvisitArgs alg args symbol result = .error .NotImplementedError ↔
        (FindAllVisitor.visitedArgs alg args symbol result).any Basic.isUnclassified = true
  | [], symbol, result => by simp [FindAllVisitor.bvisitArgs, FindAllVisitor.visitedArgs]
  | a :: rest, symbol, result => by
    have iha := find_fault_iff_visited alg a symbol result
    have ihr := find_fault_iff_visited_args alg rest symbol
    simp only [FindAllVisitor.bvisitArgs, FindAllVisitor.visitedArgs, List.any_append,
      Bool.or_eq_true]
    rw [← iha]
    cases FindAllVisitor.apply alg a symbol result with
    | error f => simp
    | ok v => simp [ihr]
termination_by structural x => x
end
mutual
/-- The visit of a node by the Keep traversal raises the unclassified-node fault exactly when
it visits a node of a kind without a rule. -/
theorem keep_fault_iff_visited (alg : Algebra) (S : List Basic) :
    ∀ (x : Basic) (r : Option Basic),
      KeepVisitor.bvisit alg S x r = .error .NotImplementedError ↔
        (KeepVisitor.visited alg S x r).any Basic.hasNoRemoveRule = true
  | .Symbol n, r => by
    simp only [KeepVisitor.bvisit, KeepVisitor.visited, remove_if_symbol_like]
    split <;> simp [Basic.hasNoRemoveRule]
  | .Perturbation p, r => by
    simp only [KeepVisitor.bvisit, KeepVisitor.visited, remove_if_symbol_like]
    split <;> simp [Basic.hasNoRemoveRule]
  | .Num n, r => by
    simp only [KeepVisitor.bvisit, KeepVisitor.visited, remove_if_symbol_like]
    split <;> simp [Basic.hasNoRemoveRule]
  | .Constant n, r => by
    simp only [KeepVisitor.bvisit, KeepVisitor.visited, remove_if_symbol_like]
    split <;> simp [Basic.hasNoRemoveRule]
  | .Add coef dict, r => by
    have ih := keep_fault_iff_visited_add alg S dict
    have hx : Basic.hasNoRemoveRule (.Add coef dict) = false := rfl
    simp only [KeepVisitor.bvisit, KeepVisitor.visited, List.any_cons, hx, Bool.false_or]
    rw [← ih (if is_not_equal S (.Num coef) then zero else coef, []) r]
    cases KeepVisitor.bvisitAdd alg S dict
        (if is_not_equal S (.Num coef) then zero else coef, []) r with
    | error f => simp
    | ok v => simp only [reduceCtorEq, iff_false]; split <;> simp
  | .Mul coef dict, r => by
    have ih := keep_fault_iff_visited_mul alg S dict
    have hx : Basic.hasNoRemoveRule (.Mul coef dict) = false := rfl
    have hn : Basic.hasNoRemoveRule (.Num coef) = false := rfl
    have hfin : ∀ loop, KeepVisitor.finishMul alg (.Mul coef dict) loop = .error .NotImplementedError ↔
        loop = .error .NotImplementedError := by
      intro loop
      rcases loop with f | (_ | v) <;> simp [KeepVisitor.finishMul]
    simp only [KeepVisitor.bvisit, KeepVisitor.visited, List.any_cons, hx, Bool.false_or]
    cases hc : is_not_equal S (.Mul coef dict)
    · simp
    · simp only [if_true, KeepVisitor.applyNumber, KeepVisitor.guarded, remove_if_symbol_like]
      cases hg : is_not_equal S (.Num coef)
      · simp [Basic.eq_refl]
      · simp only [if_true, List.any_append, List.any_cons, hn, List.any_nil, Bool.or_false,
          Bool.false_or, hfin]
        exact ih (coef, []) none
  | .Pow b e, r => by
    simp [KeepVisitor.bvisit, KeepVisitor.visited, Basic.hasNoRemoveRule]
  | .NonElecFunction n dep der, r => by
    simp only [KeepVisitor.bvisit, KeepVisitor.visited, remove_if_symbol_like]
    split <;> simp [Basic.hasNoRemoveRule]
  | .TwoElecEnergy n inner outer dep der, r => by
    simp [KeepVisitor.bvisit, KeepVisitor.visited, Basic.hasNoRemoveRule]
  | .CompositeFunction n inner k, r => by
    simp [KeepVisitor.bvisit, KeepVisitor.visited, Basic.hasNoRemoveRule]
  | .ExchCorrEnergy n args energy, r => by
    simp [KeepVisitor.bvisit, KeepVisitor.visited, Basic.hasNoRemoveRule]
  | .FunctionSymbol n args, r => by
    simp [KeepVisitor.bvisit, KeepVisitor.visited, Basic.hasNoRemoveRule]
  | .ZeroMatrix m n, r => by
    simp only [KeepVisitor.bvisit, KeepVisitor.visited, remove_if_symbol_like]
    split <;> simp [Basic.hasNoRemoveRule]
  | .LagMultiplier n der, r => by
    simp [KeepVisitor.bvisit, KeepVisitor.visited, Basic.hasNoRemoveRule]
  | .ElectronicState n der, r => by
    simp [KeepVisitor.bvisit, KeepVisitor.visited, Basic.hasNoRemoveRule]
  | .OneElecDensity n der, r => by
    simp only [KeepVisitor.bvisit, KeepVisitor.visited, remove_if_symbol_like]
    split <;> simp [Basic.hasNoRemoveRule]
  | .OneElecOperator n dep der, r => by
    simp only [KeepVisitor.bvisit, KeepVisitor.visited, remove_if_symbol_like]
    split <;> simp [Basic.hasNoRemoveRule]
  | .TwoElecOperator n state dep der, r => by
    have ih := keep_fault_iff_visited alg S state r
    have hx : Basic.hasNoRemoveRule (.TwoElecOperator n state dep der) = false := rfl
    simp only [KeepVisitor.bvisit, KeepVisitor.visited, List.any_cons, hx, Bool.false_or,
      remove_ifnot_one_arg_f]
    cases hc : is_not_equal S (.TwoElecOperator n state dep der)
    · simp
    · simp only [if_true]
      cases hg : is_not_equal S state
      · simp [KeepVisitor.guarded, hg, Basic.eq_refl]
      · simp only [KeepVisitor.guarded, hg, if_true]
        rw [← ih]
        rcases KeepVisitor.bvisit alg S state r with f | (_ | v)
        · simp
        · simp
        · simp only [reduceCtorEq, iff_false]
          split <;> simp
  | .ExchCorrPotential n args potential, r => by
    simp [KeepVisitor.bvisit, KeepVisitor.visited, Basic.hasNoRemoveRule]
  | .TemporumOperator target ty, r => by
    have ih := keep_fault_iff_visited alg S target r
    have hx : Basic.hasNoRemoveRule (.TemporumOperator target ty) = false := rfl
    simp only [KeepVisitor.bvisit, KeepVisitor.visited, List.any_cons, hx, Bool.false_or,
      remove_ifnot_one_arg_f]
    cases hc : is_not_equal S (.TemporumOperator target ty)
    · simp
    · simp only [if_true]
      cases hg : is_not_equal S target
      · simp [KeepVisitor.guarded, hg, Basic.eq_refl]
      · simp only [KeepVisitor.guarded, hg, if_true]
        rw [← ih]
        rcases KeepVisitor.bvisit alg S target r with f | (_ | v)
        · simp
        · simp
        · simp only [reduceCtorEq, iff_false]
          split <;> simp
  | .TemporumOverlap dep der, r => by
    simp only [KeepVisitor.bvisit, KeepVisitor.visited, remove_if_symbol_like]
    split <;> simp [Basic.hasNoRemoveRule]
  | .ZeroOperator, r => by
    simp [KeepVisitor.bvisit, KeepVisitor.visited, Basic.hasNoRemoveRule]
  | .MatrixSymbol n, r => by
    simp [KeepVisitor.bvisit, KeepVisitor.visited, Basic.hasNoRemoveRule]
  | .Trace arg, r => by
    have ih := keep_fault_iff_visited alg S arg r
    have hx : Basic.hasNoRemoveRule (.Trace arg) = false := rfl
    simp only [KeepVisitor.bvisit, KeepVisitor.visited, List.any_cons, hx, Bool.false_or,
      remove_ifnot_one_arg_f]
    cases hc : is_not_equal S (.Trace arg)
    · simp
    · simp only [if_true]
      cases hg : is_not_equal S arg
      · simp [KeepVisitor.guarded, hg, Basic.eq_refl]
      · simp only [KeepVisitor.guarded, hg, if_true]
        rw [← ih]
        rcases KeepVisitor.bvisit alg S arg r with f | (_ | v)
        · simp
        · simp
        · simp only [reduceCtorEq, iff_false]
          split <;> simp
  | .ConjugateMatrix arg, r => by
    have ih := keep_fault_iff_visited alg S arg r
    have hx : Basic.hasNoRemoveRule (.ConjugateMatrix arg) = false := rfl
    simp only [KeepVisitor.bvisit, KeepVisitor.visited, List.any_cons, hx, Bool.false_or,
      remove_ifnot_one_arg_f]
    cases hc : is_not_equal S (.ConjugateMatrix arg)
    · simp
    · simp only [if_true]
      cases hg : is_not_equal S arg
      · simp [KeepVisitor.guarded, hg, Basic.eq_refl]
      · simp only [KeepVisitor.guarded, hg, if_true]
        rw [← ih]
        rcases KeepVisitor.bvisit alg S arg r with f | (_ | v)
        · simp
        · simp
        · simp only [reduceCtorEq, iff_false]
          split <;> simp
  | .Transpose arg, r => by
    have ih := keep_fault_iff_visited alg S arg r
    have hx : Basic.hasNoRemoveRule (.Transpose arg) = false := rfl
    simp only [KeepVisitor.bvisit, KeepVisitor.visited, List.any_cons, hx, Bool.false_or,
      remove_ifnot_one_arg_f]
    cases hc : is_not_equal S (.Transpose arg)
    · simp
    · simp only [if_true]
      cases hg : is_not_equal S arg
      · simp [KeepVisitor.guarded, hg, Basic.eq_refl]
      · simp only [KeepVisitor.guarded, hg, if_true]
        rw [← ih]
        rcases KeepVisitor.bvisit alg S arg r with f | (_ | v)
        · simp
        · simp
        · simp only [reduceCtorEq, iff_false]
          split <;> simp
  | .MatrixAdd args, r => by
    have ih := keep_fault_iff_visited_matrix_add alg S args
    have hx : Basic.hasNoRemoveRule (.MatrixAdd args) = false := rfl
    simp only [KeepVisitor.bvisit, KeepVisitor.visited, List.any_cons, hx, Bool.false_or]
    rw [← ih [] r]
    cases KeepVisitor.bvisitMatrixAdd alg S args [] r with
    | error f => simp
    | ok v => simp only [reduceCtorEq, iff_false]; split <;> simp
  | .MatrixMul args, r => by
    have ih := keep_fault_iff_visited_matrix_mul alg S args
    have hx : Basic.hasNoRemoveRule (.MatrixMul args) = false := rfl
    simp only [KeepVisitor.bvisit, KeepVisitor.visited, List.any_cons, hx, Bool.false_or]
    cases hc : is_not_equal S (.MatrixMul args)
    · simp
    · simp only [if_true]
      rw [← ih ([.Num minus_one], false) r]
      simp only [KeepVisitor.finishMatrixMul]
      rcases KeepVisitor.bvisitMatrixMul alg S args ([.Num minus_one], false) r with f | (_ | v)
      · simp
      · simp
      · simp only [reduceCtorEq, iff_false]
        split <;> simp
  | .MatrixDerivative arg der, r => by
    simp only [KeepVisitor.bvisit, KeepVisitor.visited, remove_if_symbol_like]
    split <;> simp [Basic.hasNoRemoveRule]
  | .Other k args, r => by
    simp [KeepVisitor.bvisit, KeepVisitor.visited, Basic.hasNoRemoveRule]
termination_by structural x => x
/-- The loop of the sum rule of Keep raises the unclassified-node fault exactly when it visits
a node of a kind without a rule. -/
theorem keep_fault_iff_visited_add (alg : Algebra) (S : List Basic) :
    ∀ (dict : List (Basic × Number)) (acc : Number × List (Basic × Number)) (r : Option Basic),
      KeepVisitor.bvisitAdd alg S dict acc r = .error .NotImplementedError ↔
        (KeepVisitor.visitedAdd alg S dict r).any Basic.hasNoRemoveRule = true
  | [], acc, r => by simp [KeepVisitor.bvisitAdd, KeepVisitor.visitedAdd]
  | (t, c) :: rest, acc, r => by
    have iht := keep_fault_iff_visited alg S t r
    have ihr := keep_fault_iff_visited_add alg S rest
    simp only [KeepVisitor.bvisitAdd, KeepVisitor.visitedAdd, List.any_append, Bool.or_eq_true]
    cases hg : is_not_equal S t
    · simp [KeepVisitor.guarded, hg, ihr]
    · simp only [KeepVisitor.guarded, hg, if_true]
      rw [← iht]
      rcases KeepVisitor.bvisit alg S t r with f | (_ | k)
      · simp
      · simp [ihr]
      · simp [ihr]
termination_by structural x => x
/-- The loop of the product rule of Keep raises the unclassified-node fault exactly when it
visits a node of a kind without a rule. -/
theorem keep_fault_iff_visited_mul (alg : Algebra) (S : List Basic) :
    ∀ (dict : List (Basic × Basic)) (acc : Number × List (Basic × Basic)) (r : Option Basic),
      KeepVisitor.bvisitMul alg S dict acc r = .error .NotImplementedError ↔
        (KeepVisitor.visitedMul alg S dict r).any Basic.hasNoRemoveRule = true
  | [], acc, r => by simp [KeepVisitor.bvisitMul, KeepVisitor.visitedMul]
  | (b, e) :: rest, acc, r => by
    have ihb := keep_fault_iff_visited alg S b r
    have ihe := keep_fault_iff_visited alg S e
    have ihr := keep_fault_iff_visited_mul alg S rest
    simp only [KeepVisitor.bvisitMul, KeepVisitor.visitedMul]
    cases hp : is_not_equal S (.Pow b e)
    · simp
    · simp only [if_true, List.any_append, Bool.or_eq_true]
      cases hg : is_not_equal S b
      · simp [KeepVisitor.guarded, hg, Basic.eq_refl]
      · simp only [KeepVisitor.guarded, hg, if_true]
        rw [← ihb]
        rcases KeepVisitor.bvisit alg S b r with f | (_ | k)
        · simp
        · simp [ihr]
        · simp only [reduceCtorEq, false_or]
          cases hk : Basic.eq b k
          · simp only [Bool.false_eq_true, if_false, List.any_append, Bool.or_eq_true]
            cases hge : is_not_equal S e
            · simp [ihr]
            · simp only [if_true]
              rw [← ihe (some k)]
              rcases KeepVisitor.bvisit alg S e (some k) with f | (_ | v)
              · simp
              · simp
              · simp [ihr]
          · simp
termination_by structural x => x
/-- The loop of the matrix-sum rule of Keep raises the unclassified-node fault exactly when it
visits a node of a kind without a rule. -/
theorem keep_fault_iff_visited_matrix_add (alg : Algebra) (S : List Basic) :
    ∀ (args : List Basic) (terms : List Basic) (r : Option Basic),
      KeepVisitor.bvisitMatrixAdd alg S args terms r = .error .NotImplementedError ↔
        (KeepVisitor.visitedMatrixAdd alg S args r).any Basic.hasNoRemoveRule = true
  | [], terms, r => by simp [KeepVisitor.bvisitMatrixAdd, KeepVisitor.visitedMatrixAdd]
  | a :: rest, terms, r => by
    have iha := keep_fault_iff_visited alg S a r
    have ihr := keep_fault_iff_visited_matrix_add alg S rest
    simp only [KeepVisitor.bvisitMatrixAdd, KeepVisitor.visitedMatrixAdd, List.any_append,
      Bool.or_eq_true]
    cases hg : is_not_equal S a
    · simp [KeepVisitor.guarded, hg, ihr]
    · simp only [KeepVisitor.guarded, hg, if_true]
      rw [← iha]
      rcases KeepVisitor.bvisit alg S a r with f | (_ | k)
      · simp
      · simp [ihr]
      · simp [ihr]
termination_by structural x => x
/-- The loop of the matrix-product rule of Keep raises the unclassified-node fault exactly when
it visits a node of a kind without a rule. -/
theorem keep_fault_iff_visited_matrix_mul (alg : Algebra) (S : List Basic) :
    ∀ (args : List Basic) (acc : List Basic × Bool) (r : Option Basic),
      KeepVisitor.bvisitMatrixMul alg S args acc r = .error .NotImplementedError ↔
        (KeepVisitor.visitedMatrixMul alg S args r).any Basic.hasNoRemoveRule = true
  | [], acc, r => by simp [KeepVisitor.bvisitMatrixMul, KeepVisitor.visitedMatrixMul]
  | a :: rest, acc, r => by
    have iha := keep_fault_iff_visited alg S a r
    have ihr := keep_fault_iff_visited_matrix_mul alg S rest
    simp only [KeepVisitor.bvisitMatrixMul, KeepVisitor.visitedMatrixMul, List.any_append,
      Bool.or_eq_true]
    cases hg : is_not_equal S a
    · simp [KeepVisitor.guarded, hg, Basic.eq_refl]
    · simp only [KeepVisitor.guarded, hg, if_true]
      rw [← iha]
      rcases KeepVisitor.bvisit alg S a r with f | (_ | k)
      · simp
      · simp [ihr]
      · cases hk : Basic.eq a k <;> simp [ihr, hk]
termination_by structural x => x
end
mutual
/-- Induction over the results of the Remove traversal in the algebra without simplification:
a property that holds for the results of the rules that do not rebuild the node, and that
sums, products, wrappers, matrix sums and matrix products inherit from their parts, holds for
the result of the traversal of every expression in canonical form, if it holds for the node in
`result_` at the start. -/
theorem remove_result_induction (cond leaf : Basic → Bool) (P : Basic → Prop)
    (hleaf : ∀ x, x.isRebuilt = false → leaf x = true → ∀ r R, (∀ v, r = some v → P v) →
      RemoveVisitor.apply freeAlgebra cond x r = .ok (some R) → P R)
    (hadd : ∀ coef d, (∀ p ∈ d, P p.1) → P (freeAlgebra.add_from_dict coef d))
    (hmul : ∀ coef d, coef ≠ zero → d ≠ [] → (2 ≤ d.length ∨ coef ≠ one) →
      (∀ p ∈ d, P p.1 ∧ P p.2) → P (.Mul coef d))
    (hwrap : ∀ a, P a → P (.Trace a) ∧ (∀ n dep der, P (.TwoElecOperator n a dep der)) ∧
      (∀ ty, P (.TemporumOperator a ty)))
    (hmadd : ∀ ts, ts ≠ [] → (∀ t ∈ ts, P t) → P (freeAlgebra.matrix_op Basic.MatrixAdd ts))
    (hmmul : ∀ ts, ts ≠ [] → (∀ t ∈ ts, P t) → P (freeAlgebra.matrix_op Basic.MatrixMul ts)) :
    ∀ (E : Basic), E.isCanonical leaf = true → ∀ (r : Option Basic) (R : Basic),
      (∀ v, r = some v → P v) →
      RemoveVisitor.apply freeAlgebra cond E r = .ok (some R) → P R
  | .Add coef dict, h, r, R, hr, happ => by
    rw [Basic.isCanonical] at h
    rw [RemoveVisitor.apply] at happ
    split at happ
    · simp at happ
    · cases hl : RemoveVisitor.bvisitAdd freeAlgebra cond dict
          (if cond (.Num coef) then zero else coef, []) r with
      | error f => rw [hl] at happ; simp at happ
      | ok acc =>
        rw [hl] at happ
        simp only [Except.ok.injEq, Option.some.injEq] at happ
        subst happ
        exact hadd _ _ (remove_result_induction_add cond leaf P hleaf hadd hmul hwrap hmadd hmmul
          dict h _ r acc hr (by simp) hl)
  | .Mul coef dict, h, r, R, hr, happ => by
    rw [Basic.isCanonical] at h
    simp only [Bool.and_eq_true, Bool.or_eq_true, decide_eq_true_eq, Bool.not_eq_true',
      List.isEmpty_eq_false] at h
    rw [RemoveVisitor.apply] at happ
    split at happ
    · simp at happ
    · split at happ
      · simp at happ
      · cases hl : RemoveVisitor.bvisitMul freeAlgebra cond dict (coef, []) r with
        | error f => rw [hl] at happ; simp at happ
        | ok out =>
          cases out with
          | none => rw [hl] at happ; simp at happ
          | some acc =>
            rw [hl] at happ
            simp only [Except.ok.injEq, Option.some.injEq] at happ
            subst happ
            obtain ⟨h1, h2, h3⟩ := remove_result_induction_mul cond leaf P hleaf hadd hmul hwrap
              hmadd hmmul dict h.2 (coef, []) r acc hr (by simp) hl
            simp only [List.length_nil, zero_add] at h2
            have hne : acc.2 ≠ [] := by
              intro h0
              rw [h0] at h2
              exact h.1.1.2 (List.length_eq_zero.1 h2.symm)
            have hcanon : freeAlgebra.mul_from_dict acc.1 acc.2 = .Mul coef acc.2 := by
              rw [h1]
              simp only [freeAlgebra.mul_from_dict, h.1.1.1, if_false]
              rcases hd : acc.2 with _ | ⟨p, _ | ⟨q, l⟩⟩
              · exact absurd hd hne
              · rw [hd] at h2
                rcases h.1.2 with h4 | h4
                · rw [← h2] at h4; simp at h4
                · simp [h4]
              · rfl
            change P (freeAlgebra.mul_from_dict acc.1 acc.2)
            rw [hcanon]
            exact hmul coef acc.2 h.1.1.1 hne (by rw [h2]; exact h.1.2) h3
  | .TwoElecOperator n state dep der, h, r, R, hr, happ => by
    rw [Basic.isCanonical] at h
    simp only [RemoveVisitor.apply, remove_if_one_arg_f] at happ
    split at happ
    · simp at happ
    · rcases ha : RemoveVisitor.apply freeAlgebra cond state r with f | (_ | a)
      · rw [ha] at happ; simp at happ
      · rw [ha] at happ; simp at happ
      · rw [ha] at happ
        simp only [Except.ok.injEq, Option.some.injEq] at happ
        subst happ
        exact (hwrap a (remove_result_induction cond leaf P hleaf hadd hmul hwrap hmadd hmmul
          state h r a hr ha)).2.1 n dep der
  | .TemporumOperator target ty, h, r, R, hr, happ => by
    rw [Basic.isCanonical] at h
    simp only [RemoveVisitor.apply, remove_if_one_arg_f] at happ
    split at happ
    · simp at happ
    · rcases ha : RemoveVisitor.apply freeAlgebra cond target r with f | (_ | a)
      · rw [ha] at happ; simp at happ
      · rw [ha] at happ; simp at happ
      · rw [ha] at happ
        simp only [Except.ok.injEq, Option.some.injEq] at happ
        subst happ
        exact (hwrap a (remove_result_induction cond leaf P hleaf hadd hmul hwrap hmadd hmmul
          target h r a hr ha)).2.2 ty
  | .Trace arg, h, r, R, hr, happ => by
    rw [Basic.isCanonical] at h
    simp only [RemoveVisitor.apply, remove_if_one_arg_f] at happ
    split at happ
    · simp at happ
    · rcases ha : RemoveVisitor.apply freeAlgebra cond arg r with f | (_ | a)
      · rw [ha] at happ; simp at happ
      · rw [ha] at happ; simp at happ
      · rw [ha] at happ
        simp only [Except.ok.injEq, Option.some.injEq] at happ
        subst happ
        exact (hwrap a (remove_result_induction cond leaf P hleaf hadd hmul hwrap hmadd hmmul
          arg h r a hr ha)).1
  | .MatrixAdd args, h, r, R, hr, happ => by
    rw [Basic.isCanonical] at h
    rw [RemoveVisitor.apply] at happ
    split at happ
    · simp at happ
    · cases hl : RemoveVisitor.bvisitMatrixAdd freeAlgebra cond args [] r with
      | error f => rw [hl] at happ; simp at happ
      | ok terms =>
        rw [hl] at happ
        simp only at happ
        split at happ
        · simp at happ
        · simp only [Except.ok.injEq, Option.some.injEq] at happ
          subst happ
          rename_i hne
          exact hmadd terms (by intro h0; rw [h0] at hne; simp at hne)
            (remove_result_induction_matrix_add cond leaf P hleaf hadd hmul hwrap hmadd hmmul
              args h [] r terms hr (by simp) hl)
  | .MatrixMul args, h, r, R, hr, happ => by
    rw [Basic.isCanonical] at h
    rw [RemoveVisitor.apply] at happ
    split at happ
    · simp at happ
    · cases hl : RemoveVisitor.bvisitMatrixMul freeAlgebra cond args [] r with
      | error f => rw [hl] at happ; simp at happ
      | ok out =>
        cases out with
        | none => rw [hl] at happ; simp at happ
        | some factors =>
          rw [hl] at happ
          simp only at happ
          split at happ
          · simp at happ
          · simp only [Except.ok.injEq, Option.some.injEq] at happ
            subst happ
            rename_i hne
            exact hmmul factors (by intro h0; rw [h0] at hne; simp at hne)
              (remove_result_induction_matrix_mul cond leaf P hleaf hadd hmul hwrap hmadd hmmul
                args h [] r factors hr (by simp) hl)
  | .Symbol n, h, r, R, hr, happ =>
    hleaf (.Symbol n) rfl (by simpa [Basic.isCanonical] using h) r R hr happ
  | .Perturbation p, h, r, R, hr, happ =>
    hleaf (.Perturbation p) rfl (by simpa [Basic.isCanonical] using h) r R hr happ
  | .Num n, h, r, R, hr, happ =>
    hleaf (.Num n) rfl (by simpa [Basic.isCanonical] using h) r R hr happ
  | .Constant n, h, r, R, hr, happ =>
    hleaf (.Constant n) rfl (by simpa [Basic.isCanonical] using h) r R hr happ
  | .Pow b e, h, r, R, hr, happ =>
    hleaf (.Pow b e) rfl (by simpa [Basic.isCanonical] using h) r R hr happ
  | .NonElecFunction n dep der, h, r, R, hr, happ =>
    hleaf (.NonElecFunction n dep der) rfl (by simpa [Basic.isCanonical] using h) r R hr happ
  | .TwoElecEnergy n i o dep der, h, r, R, hr, happ =>
    hleaf (.TwoElecEnergy n i o dep der) rfl (by simpa [Basic.isCanonical] using h) r R hr happ
  | .CompositeFunction n i k, h, r, R, hr, happ =>
    hleaf (.CompositeFunction n i k) rfl (by simpa [Basic.isCanonical] using h) r R hr happ
  | .ExchCorrEnergy n a e, h, r, R, hr, happ =>
    hleaf (.ExchCorrEnergy n a e) rfl (by simpa [Basic.isCanonical] using h) r R hr happ
  | .FunctionSymbol n a, h, r, R, hr, happ =>
    hleaf (.FunctionSymbol n a) rfl (by simpa [Basic.isCanonical] using h) r R hr happ
  | .ZeroMatrix m n, h, r, R, hr, happ =>
    hleaf (.ZeroMatrix m n) rfl (by simpa [Basic.isCanonical] using h) r R hr happ
  | .LagMultiplier n der, h, r, R, hr, happ =>
    hleaf (.LagMultiplier n der) rfl (by simpa [Basic.isCanonical] using h) r R hr happ
  | .ElectronicState n der, h, r, R, hr, happ =>
    hleaf (.ElectronicState n der) rfl (by simpa [Basic.isCanonical] using h) r R hr happ
  | .OneElecDensity n der, h, r, R, hr, happ =>
    hleaf (.OneElecDensity n der) rfl (by simpa [Basic.isCanonical] using h) r R hr happ
  | .OneElecOperator n dep der, h, r, R, hr, happ =>
    hleaf (.OneElecOperator n dep der) rfl (by simpa [Basic.isCanonical] using h) r R hr happ
  | .ExchCorrPotential n a p, h, r, R, hr, happ =>
    hleaf (.ExchCorrPotential n a p) rfl (by simpa [Basic.isCanonical] using h) r R hr happ
  | .TemporumOverlap dep der, h, r, R, hr, happ =>
    hleaf (.TemporumOverlap dep der) rfl (by simpa [Basic.isCanonical] using h) r R hr happ
  | .ZeroOperator, h, r, R, hr, happ =>
    hleaf .ZeroOperator rfl (by simpa [Basic.isCanonical] using h) r R hr happ
  | .MatrixSymbol n, h, r, R, hr, happ =>
    hleaf (.MatrixSymbol n) rfl (by simpa [Basic.isCanonical] using h) r R hr happ
  | .ConjugateMatrix arg, h, r, R, hr, happ =>
    hleaf (.ConjugateMatrix arg) rfl (by simpa [Basic.isCanonical] using h) r R hr happ
  | .Transpose arg, h, r, R, hr, happ =>
    hleaf (.Transpose arg) rfl (by simpa [Basic.isCanonical] using h) r R hr happ
  | .MatrixDerivative arg der, h, r, R, hr, happ =>
    hleaf (.MatrixDerivative arg der) rfl (by simpa [Basic.isCanonical] using h) r R hr happ
  | .Other k a, h, r, R, hr, happ =>
    hleaf (.Other k a) rfl (by simpa [Basic.isCanonical] using h) r R hr happ
termination_by structural x => x
/-- The loop of the sum rule: the coefficient is unchanged and every term of the dictionary
that it builds has the property. -/
theorem remove_result_induction_add (cond leaf : Basic → Bool) (P : Basic → Prop)
    (hleaf : ∀ x, x.isRebuilt = false → leaf x = true → ∀ r R, (∀ v, r = some v → P v) →
      RemoveVisitor.apply freeAlgebra cond x r = .ok (some R) → P R)
    (hadd : ∀ coef d, (∀ p ∈ d, P p.1) → P (freeAlgebra.add_from_dict coef d))
    (hmul : ∀ coef d, coef ≠ zero → d ≠ [] → (2 ≤ d.length ∨ coef ≠ one) →
      (∀ p ∈ d, P p.1 ∧ P p.2) → P (.Mul coef d))
    (hwrap : ∀ a, P a → P (.Trace a) ∧ (∀ n dep der, P (.TwoElecOperator n a dep der)) ∧
      (∀ ty, P (.TemporumOperator a ty)))
    (hmadd : ∀ ts, ts ≠ [] → (∀ t ∈ ts, P t) → P (freeAlgebra.matrix_op Basic.MatrixAdd ts))
    (hmmul : ∀ ts, ts ≠ [] → (∀ t ∈ ts, P t) → P (freeAlgebra.matrix_op Basic.MatrixMul ts)) :
    ∀ (dict : List (Basic × Number)), Basic.isCanonicalAdd leaf dict = true →
      ∀ (acc : Number × List (Basic × Number)) (r : Option Basic)
        (out : Number × List (Basic × Number)),
      (∀ v, r = some v → P v) → (∀ p ∈ acc.2, P p.1) →
      RemoveVisitor.bvisitAdd freeAlgebra cond dict acc r = .ok out → ∀ p ∈ out.2, P p.1
  | [], _, acc, r, out, hr, hacc, hl => by
    rw [RemoveVisitor.bvisitAdd] at hl
    simp only [Except.ok.injEq] at hl
    subst hl
    exact hacc
  | (t, c) :: rest, h, acc, r, out, hr, hacc, hl => by
    rw [Basic.isCanonicalAdd] at h
    simp only [Bool.and_eq_true] at h
    have ihr := remove_result_induction_add cond leaf P hleaf hadd hmul hwrap hmadd hmmul rest h.2
    rw [RemoveVisitor.bvisitAdd] at hl
    split at hl
    · exact ihr acc r out hr hacc hl
    · rcases ha : RemoveVisitor.apply freeAlgebra cond t r with f | (_ | k)
      · rw [ha] at hl; simp at hl
      · rw [ha] at hl
        exact ihr acc none out (by simp) hacc hl
      · rw [ha] at hl
        have hk : P k := remove_result_induction cond leaf P hleaf hadd hmul hwrap hmadd hmmul
          t h.1 r k hr ha
        simp only at hl
        split at hl
        · exact ihr acc (some k) out (by intro v hv; cases hv; exact hk) hacc hl
        · refine ihr _ (some k) out (by intro v hv; cases hv; exact hk) ?_ hl
          intro p hp
          simp only [freeAlgebra, List.mem_append, List.mem_singleton] at hp
          rcases hp with hp | hp
          · exact hacc p hp
          · subst hp; exact hk
termination_by structural x => x
/-- The loop of the product rule: the coefficient is unchanged, every pair of the product adds
a pair to the dictionary, and every base and exponent of the dictionary has the property. -/
theorem remove_result_induction_mul (cond leaf : Basic → Bool) (P : Basic → Prop)
    (hleaf : ∀ x, x.isRebuilt = false → leaf x = true → ∀ r R, (∀ v, r = some v → P v) →
      RemoveVisitor.apply freeAlgebra cond x r = .ok (some R) → P R)
    (hadd : ∀ coef d, (∀ p ∈ d, P p.1) → P (freeAlgebra.add_from_dict coef d))
    (hmul : ∀ coef d, coef ≠ zero → d ≠ [] → (2 ≤ d.length ∨ coef ≠ one) →
      (∀ p ∈ d, P p.1 ∧ P p.2) → P (.Mul coef d))
    (hwrap : ∀ a, P a → P (.Trace a) ∧ (∀ n dep der, P (.TwoElecOperator n a dep der)) ∧
      (∀ ty, P (.TemporumOperator a ty)))
    (hmadd : ∀ ts, ts ≠ [] → (∀ t ∈ ts, P t) → P (freeAlgebra.matrix_op Basic.MatrixAdd ts))
    (hmmul : ∀ ts, ts ≠ [] → (∀ t ∈ ts, P t) → P (freeAlgebra.matrix_op Basic.MatrixMul ts)) :
    ∀ (dict : List (Basic × Basic)), Basic.isCanonicalMul leaf dict = true →
      ∀ (acc : Number × List (Basic × Basic)) (r : Option Basic)
        (out : Number × List (Basic × Basic)),
      (∀ v, r = some v → P v) → (∀ p ∈ acc.2, P p.1 ∧ P p.2) →
      RemoveVisitor.bvisitMul freeAlgebra cond dict acc r = .ok (some out) →
        out.1 = acc.1 ∧ out.2.length = acc.2.length + dict.length ∧
          ∀ p ∈ out.2, P p.1 ∧ P p.2
  | [], _, acc, r, out, hr, hacc, hl => by
    rw [RemoveVisitor.bvisitMul] at hl
    simp only [Except.ok.injEq, Option.some.injEq] at hl
    subst hl
    exact ⟨rfl, by simp, hacc⟩
  | (b, e) :: rest, h, acc, r, out, hr, hacc, hl => by
    rw [Basic.isCanonicalMul] at h
    simp only [Bool.and_eq_true] at h
    have ihr := remove_result_induction_mul cond leaf P hleaf hadd hmul hwrap hmadd hmmul rest h.2
    rw [RemoveVisitor.bvisitMul] at hl
    split at hl
    · simp at hl
    · rcases ha : RemoveVisitor.apply freeAlgebra cond b r with f | (_ | k)
      · rw [ha] at hl; simp at hl
      · rw [ha] at hl; simp at hl
      · rw [ha] at hl
        have hk : P k := remove_result_induction cond leaf P hleaf hadd hmul hwrap hmadd hmmul
          b h.1.1 r k hr ha
        simp only at hl
        rcases hb : RemoveVisitor.apply freeAlgebra cond e (some k) with f | (_ | v)
        · rw [hb] at hl; simp at hl
        · rw [hb] at hl; simp at hl
        · rw [hb] at hl
          have hv : P v := remove_result_induction cond leaf P hleaf hadd hmul hwrap hmadd hmmul
            e h.1.2 (some k) v (by intro w hw; cases hw; exact hk) hb
          simp only at hl
          obtain ⟨h1, h2, h3⟩ := ihr _ (some v) out (by intro w hw; cases hw; exact hv) (by
            intro p hp
            simp only [freeAlgebra, List.mem_append, List.mem_singleton] at hp
            rcases hp with hp | hp
            · exact hacc p hp
            · subst hp; exact ⟨hk, hv⟩) hl
          have hlen : (freeAlgebra.dict_add_term_new acc v k).2 = acc.2 ++ [(k, v)] := rfl
          refine ⟨h1, ?_, h3⟩
          rw [h2, hlen]
          simp only [List.length_append, List.length_singleton, List.length_cons,
            List.length_nil]
          omega
termination_by structural x => x
/-- The loop of the matrix-sum rule: every operand that it keeps has the property. -/
theorem remove_result_induction_matrix_add (cond leaf : Basic → Bool) (P : Basic → Prop)
    (hleaf : ∀ x, x.isRebuilt = false → leaf x = true → ∀ r R, (∀ v, r = some v → P v) →
      RemoveVisitor.apply freeAlgebra cond x r = .ok (some R) → P R)
    (hadd : ∀ coef d, (∀ p ∈ d, P p.1) → P (freeAlgebra.add_from_dict coef d))
    (hmul : ∀ coef d, coef ≠ zero → d ≠ [] → (2 ≤ d.length ∨ coef ≠ one) →
      (∀ p ∈ d, P p.1 ∧ P p.2) → P (.Mul coef d))
    (hwrap : ∀ a, P a → P (.Trace a) ∧ (∀ n dep der, P (.TwoElecOperator n a dep der)) ∧
      (∀ ty, P (.TemporumOperator a ty)))
    (hmadd : ∀ ts, ts ≠ [] → (∀ t ∈ ts, P t) → P (freeAlgebra.matrix_op Basic.MatrixAdd ts))
    (hmmul : ∀ ts, ts ≠ [] → (∀ t ∈ ts, P t) → P (freeAlgebra.matrix_op Basic.MatrixMul ts)) :
    ∀ (args : List Basic), Basic.isCanonicalArgs leaf args = true →
      ∀ (terms : List Basic) (r : Option Basic) (out : List Basic),
      (∀ v, r = some v → P v) → (∀ t ∈ terms, P t) →
      RemoveVisitor.bvisitMatrixAdd freeAlgebra cond args terms r = .ok out → ∀ t ∈ out, P t
  | [], _, terms, r, out, hr, hacc, hl => by
    rw [RemoveVisitor.bvisitMatrixAdd] at hl
    simp only [Except.ok.injEq] at hl
    subst hl
    exact hacc
  | a :: rest, h, terms, r, out, hr, hacc, hl => by
    rw [Basic.isCanonicalArgs] at h
    simp only [Bool.and_eq_true] at h
    have ihr := remove_result_induction_matrix_add cond leaf P hleaf hadd hmul hwrap hmadd hmmul
      rest h.2
    rw [RemoveVisitor.bvisitMatrixAdd] at hl
    rcases ha : RemoveVisitor.apply freeAlgebra cond a r with f | (_ | k)
    · rw [ha] at hl; simp at hl
    · rw [ha] at hl
      exact ihr terms none out (by simp) hacc hl
    · rw [ha] at hl
      have hk : P k := remove_result_induction cond leaf P hleaf hadd hmul hwrap hmadd hmmul
        a h.1 r k hr ha
      refine ihr _ (some k) out (by intro v hv; cases hv; exact hk) ?_ hl
      intro t ht
      simp only [List.mem_append, List.mem_singleton] at ht
      rcases ht with ht | ht
      · exact hacc t ht
      · subst ht; exact hk
termination_by structural x => x
/-- The loop of the matrix-product rule: every operand that it keeps has the property. -/
theorem remove_result_induction_matrix_mul (cond leaf : Basic → Bool) (P : Basic → Prop)
    (hleaf : ∀ x, x.isRebuilt = false → leaf x = true → ∀ r R, (∀ v, r = some v → P v) →
      RemoveVisitor.apply freeAlgebra cond x r = .ok (some R) → P R)
    (hadd : ∀ coef d, (∀ p ∈ d, P p.1) → P (freeAlgebra.add_from_dict coef d))
    (hmul : ∀ coef d, coef ≠ zero → d ≠ [] → (2 ≤ d.length ∨ coef ≠ one) →
      (∀ p ∈ d, P p.1 ∧ P p.2) → P (.Mul coef d))
    (hwrap : ∀ a, P a → P (.Trace a) ∧ (∀ n dep der, P (.TwoElecOperator n a dep der)) ∧
      (∀ ty, P (.TemporumOperator a ty)))
    (hmadd : ∀ ts, ts ≠ [] → (∀ t ∈ ts, P t) → P (freeAlgebra.matrix_op Basic.MatrixAdd ts))
    (hmmul : ∀ ts, ts ≠ [] → (∀ t ∈ ts, P t) → P (freeAlgebra.matrix_op Basic.MatrixMul ts)) :
    ∀ (args : List Basic), Basic.isCanonicalArgs leaf args = true →
      ∀ (factors : List Basic) (r : Option Basic) (out : List Basic),
      (∀ v, r = some v → P v) → (∀ t ∈ factors, P t) →
      RemoveVisitor.bvisitMatrixMul freeAlgebra cond args factors r = .ok (some out) →
        ∀ t ∈ out, P t
  | [], _, factors, r, out, hr, hacc, hl => by
    rw [RemoveVisitor.bvisitMatrixMul] at hl
    simp only [Except.ok.injEq, Option.some.injEq] at hl
    subst hl
    exact hacc
  | a :: rest, h, factors, r, out, hr, hacc, hl => by
    rw [Basic.isCanonicalArgs] at h
    simp only [Bool.and_eq_true] at h
    have ihr := remove_result_induction_matrix_mul cond leaf P hleaf hadd hmul hwrap hmadd hmmul
      rest h.2
    rw [RemoveVisitor.bvisitMatrixMul] at hl
    rcases ha : RemoveVisitor.apply freeAlgebra cond a r with f | (_ | k)
    · rw [ha] at hl; simp at hl
    · rw [ha] at hl; simp at hl
    · rw [ha] at hl
      have hk : P k := remove_result_induction cond leaf P hleaf hadd hmul hwrap hmadd hmmul
        a h.1 r k hr ha
      refine ihr _ (some k) out (by intro v hv; cases hv; exact hk) ?_ hl
      intro t ht
      simp only [List.mem_append, List.mem_singleton] at ht
      rcases ht with ht | ht
      · exact hacc t ht
      · subst ht; exact hk
termination_by structural x => x
end
end Tinned
